import Mathlib

/-!
Shallow embedding of the GOON codec (encoder, decoder and shared utilities)
from the GOON-format/goon repository, together with proofs settling the
claims of the specification.

Modelling conventions:
* JavaScript strings are modelled as `List Char` (`Chars`).
* JavaScript numbers are modelled as `Int`.  All settled claims only involve
  integer-valued numbers; decimal-fraction numeric literals, non-finite
  values and float formatting are outside the modelled fragment (a decoder
  token with a fractional part is kept as a string here).
* JavaScript objects are modelled as ordered association lists; assignment
  `obj[k] = v` replaces in place (keeping the original position) or appends,
  exactly like property assignment on a plain object.
* The imperative recursion of the decoder is made total by a fuel
  parameter; fuel exhaustion is a dedicated error that the initial fuel
  supplied by `goonDecode` makes unreachable for the inputs appearing in the
  claims.  The encoder likewise threads a `gas` parameter; the source's own
  recursion-depth ceiling (100) always fires before the gas (512) runs out.
-/

set_option maxRecDepth 100000

abbrev Chars := List Char

/-- Literal left brace character (written via its code to keep text plain). -/
def charLB : Char := '\x7b'

/-- Literal right brace character. -/
def charRB : Char := '\x7d'

/-- Data model of GOON values (`GoonValue` in `types.ts`): null, booleans,
numbers (integer fragment), strings, ordered arrays, ordered objects. -/
inductive GoonValue where
  | null
  | bool (b : Bool)
  | num (n : Int)
  | str (s : Chars)
  | arr (xs : List GoonValue)
  | obj (fs : List (Chars × GoonValue))

mutual

def gvBeq : GoonValue → GoonValue → Bool
  | .null, .null => true
  | .bool a, .bool b => a == b
  | .num a, .num b => a == b
  | .str a, .str b => a == b
  | .arr xs, .arr ys => gvBeqL xs ys
  | .obj fs, .obj gs => gvBeqF fs gs
  | _, _ => false

def gvBeqL : List GoonValue → List GoonValue → Bool
  | [], [] => true
  | x :: xs, y :: ys => gvBeq x y && gvBeqL xs ys
  | _, _ => false

def gvBeqF : List (Chars × GoonValue) → List (Chars × GoonValue) → Bool
  | [], [] => true
  | (k, v) :: xs, (k', v') :: ys => k == k' && gvBeq v v' && gvBeqF xs ys
  | _, _ => false

end

mutual

theorem gvBeq_iff : ∀ a b : GoonValue, gvBeq a b = true ↔ a = b
  | .null, b => by cases b <;> simp [gvBeq]
  | .bool a, b => by cases b <;> simp [gvBeq]
  | .num a, b => by cases b <;> simp [gvBeq]
  | .str a, b => by cases b <;> simp [gvBeq]
  | .arr xs, b => by
      cases b <;> simp [gvBeq]
      exact gvBeqL_iff xs _
  | .obj fs, b => by
      cases b <;> simp [gvBeq]
      exact gvBeqF_iff fs _

theorem gvBeqL_iff : ∀ xs ys : List GoonValue, gvBeqL xs ys = true ↔ xs = ys
  | [], ys => by cases ys <;> simp [gvBeqL]
  | x :: xs, ys => by
      cases ys with
      | nil => simp [gvBeqL]
      | cons y ys =>
          simp [gvBeqL, Bool.and_eq_true, gvBeq_iff x y, gvBeqL_iff xs ys]

theorem gvBeqF_iff : ∀ xs ys : List (Chars × GoonValue), gvBeqF xs ys = true ↔ xs = ys
  | [], ys => by cases ys <;> simp [gvBeqF]
  | (k, v) :: xs, ys => by
      cases ys with
      | nil => simp [gvBeqF]
      | cons y ys =>
          obtain ⟨k', v'⟩ := y
          simp [gvBeqF, Bool.and_eq_true, gvBeq_iff v v', gvBeqF_iff xs ys,
            Prod.ext_iff, and_assoc]

end

instance : DecidableEq GoonValue := fun a b =>
  decidable_of_iff (gvBeq a b = true) (gvBeq_iff a b)

instance {ε α : Type} [DecidableEq ε] [DecidableEq α] : DecidableEq (Except ε α) := fun a b =>
  match a, b with
  | .ok x, .ok y =>
      if h : x = y then isTrue (by rw [h]) else isFalse (fun hh => h (Except.ok.inj hh))
  | .error x, .error y =>
      if h : x = y then isTrue (by rw [h]) else isFalse (fun hh => h (Except.error.inj hh))
  | .ok _, .error _ => isFalse (fun hh => Except.noConfusion hh)
  | .error _, .ok _ => isFalse (fun hh => Except.noConfusion hh)

/-! ### Shared constants and helpers (`utils.ts`) -/

/-- Maximum allowed repeat count for run-length encoding. -/
def MAX_REPEAT_COUNT : Nat := 10000

/-- Maximum allowed recursion depth. -/
def MAX_RECURSION_DEPTH : Nat := 100

/-- Maximum allowed input size in bytes (10 MiB). -/
def MAX_INPUT_SIZE : Nat := 10 * 1024 * 1024

/-- Dangerous keys that could cause prototype pollution (`DANGEROUS_KEYS`). -/
def DANGEROUS_KEYS : List Chars :=
  ["__proto__".toList, "constructor".toList, "prototype".toList,
   "__defineGetter__".toList, "__defineSetter__".toList,
   "__lookupGetter__".toList, "__lookupSetter__".toList]

/-- Check if a key is safe (`isSafeKey`). -/
def isSafeKey (key : Chars) : Bool := !(DANGEROUS_KEYS.contains key)

/-- Check if a value is a plain object (`isPlainObject`). -/
def isPlainObject : GoonValue → Bool
  | .obj _ => true
  | _ => false

/-- Check if a value is a primitive (`isPrimitive`). -/
def isPrimitive : GoonValue → Bool
  | .null => true
  | .bool _ => true
  | .num _ => true
  | .str _ => true
  | _ => false

/-- Fields of an object value (empty for non-objects). -/
def objFields : GoonValue → List (Chars × GoonValue)
  | .obj fs => fs
  | _ => []

/-- Association-list lookup, first match (JavaScript property read). -/
def lookupAssoc {α : Type} : List (Chars × α) → Chars → Option α
  | [], _ => none
  | (k, v) :: rest, key => if k = key then some v else lookupAssoc rest key

/-- Association-list assignment: replace in place or append (JavaScript
property write on a plain object). -/
def setField {α : Type} : List (Chars × α) → Chars → α → List (Chars × α)
  | [], key, v => [(key, v)]
  | (k, w) :: rest, key, v =>
      if k = key then (k, v) :: rest else (k, w) :: setField rest key v

/-- Lexicographic comparison of strings by character code, the order used by
`Array.prototype.sort` on strings. -/
def lexLe : Chars → Chars → Bool
  | [], _ => true
  | _ :: _, [] => false
  | x :: xs, y :: ys =>
      if x < y then true else if y < x then false else lexLe xs ys

/-- Insertion step of the string sort. -/
def insertStr (x : Chars) : List Chars → List Chars
  | [] => [x]
  | y :: ys => if lexLe x y then x :: y :: ys else y :: insertStr x ys

/-- Sorted copy of a list of strings (`keys.sort()`). -/
def sortStrs : List Chars → List Chars
  | [] => []
  | x :: xs => insertStr x (sortStrs xs)

/-- Check if an array is tabular (`isTabularArray`): non-empty, all plain
objects, identical sorted key sets with a non-empty key set, and every value
under every key primitive. -/
def isTabularArray (arr : List GoonValue) : Bool :=
  match arr with
  | [] => false
  | a0 :: _ =>
    if !(arr.all isPlainObject) then false
    else
      let firstKeys := sortStrs ((objFields a0).map Prod.fst)
      if firstKeys.isEmpty then false
      else arr.all fun item =>
        if !(isPlainObject item) then false
        else
          let keys := sortStrs ((objFields item).map Prod.fst)
          if keys.length ≠ firstKeys.length then false
          else (keys.zip firstKeys).all fun kf =>
            kf.1 = kf.2 &&
            (match lookupAssoc (objFields item) kf.1 with
             | some v => isPrimitive v
             | none => false)

/-! ### Decimal digits -/

/-- Digit characters of a natural number, with explicit fuel (the source uses
JavaScript's `String(n)`). -/
def natDigitsAux : Nat → Nat → Chars
  | 0, _ => []
  | fuel + 1, n =>
      if n < 10 then [Nat.digitChar n]
      else natDigitsAux fuel (n / 10) ++ [Nat.digitChar (n % 10)]

/-- Decimal digits of a natural number. -/
def natToChars (n : Nat) : Chars := natDigitsAux (n + 1) n

/-- Decimal rendering of an integer, modelling `String(n)` on integer-valued
numbers. -/
def intToChars : Int → Chars
  | .ofNat n => natToChars n
  | .negSucc m => '-' :: natToChars (m + 1)

/-- Value of a string of decimal digits (`parseInt(s, 10)` on all-digit
input). -/
def digitsToNat (s : Chars) : Nat :=
  s.foldl (fun a c => a * 10 + (c.toNat - 48)) 0

/-- Integer value of a numeric token of the form `-?digits`. -/
def intFromChars : Chars → Option Int
  | [] => none
  | '-' :: rest =>
      if rest ≠ [] ∧ rest.all Char.isDigit then some (-(digitsToNat rest : Int)) else none
  | s =>
      if s.all Char.isDigit then some (digitsToNat s : Int) else none

/-! ### String-shape tests used by `needsQuoting` and `parsePrimitive` -/

/-- Test for the shape `-?\d+(\.\d+)?` anchored on both sides. -/
def isNumberShape (s : Chars) : Bool :=
  let t := match s with
    | '-' :: rest => rest
    | _ => s
  let ds := t.takeWhile Char.isDigit
  let rest := t.drop ds.length
  !ds.isEmpty &&
    (rest.isEmpty ||
      (match rest with
       | '.' :: fs => !fs.isEmpty && fs.all Char.isDigit
       | _ => false))

/-- Test for the shape `\$\d+` anchored on both sides. -/
def isDollarRef : Chars → Bool
  | '$' :: ds => !ds.isEmpty && ds.all Char.isDigit
  | _ => false

/-- Test for a trailing `\*\d+` suffix. -/
def hasRunLengthSuffix (s : Chars) : Bool :=
  let rds := s.reverse.takeWhile Char.isDigit
  !rds.isEmpty && (s.reverse.drop rds.length).head? = some '*'

/-- Check if a string needs quoting in GOON format (`needsQuoting`). -/
def needsQuoting (str : Chars) : Bool :=
  if str = [] then false
  else if str = ['T'] || str = ['F'] || str = ['_'] || str = ['~'] || str = ['^'] then true
  else if str.head? = some '$' || str.head? = some '^' then true
  else if str.any (fun c => c = '|' || c = '\n' || c = '\r' || c = '\t') then true
  else if isNumberShape str then true
  else if isDollarRef str then true
  else if hasRunLengthSuffix str then true
  else false

/-- Escaping of a single character inside a quoted GOON string; the chained
global replaces of the source amount to this per-character map. -/
def escapeChar (c : Char) : Chars :=
  if c = '\\' then ['\\', '\\']
  else if c = '"' then ['\\', '"']
  else if c = '\n' then ['\\', 'n']
  else if c = '\r' then ['\\', 'r']
  else if c = '\t' then ['\\', 't']
  else [c]

/-- Concatenated escaping of a string. -/
def escapeChars : Chars → Chars
  | [] => []
  | c :: rest => escapeChar c ++ escapeChars rest

/-- Quote a string for GOON format when needed (`quoteString`). -/
def quoteString (str : Chars) : Chars :=
  if needsQuoting str then '"' :: escapeChars str ++ ['"'] else str

/-- Escape-sequence processing of the unquoting loop. -/
def unescapeChars : Chars → Chars
  | [] => []
  | '\\' :: c :: rest =>
      (if c = '\\' then ['\\']
       else if c = '"' then ['"']
       else if c = 'n' then ['\n']
       else if c = 'r' then ['\r']
       else if c = 't' then ['\t']
       else ['\\', c]) ++ unescapeChars rest
  | c :: rest => c :: unescapeChars rest

/-- Unquote and unescape a GOON string (`unquoteString`). -/
def unquoteString (str : Chars) : Chars :=
  if str.head? = some '"' ∧ str.getLast? = some '"' then
    unescapeChars (str.drop 1).dropLast
  else str

/-! ### Dictionary builder (`buildDictionary`, the savings-based variant) -/

/-- Occurrence map entry bump, preserving first-occurrence (insertion)
order, as a JavaScript `Map` does. -/
def bumpCount : List (Chars × Nat) → Chars → List (Chars × Nat)
  | [], s => [(s, 1)]
  | (k, n) :: rest, s =>
      if k = s then (k, n + 1) :: rest else (k, n) :: bumpCount rest s

mutual

def scanStrings (minLength : Nat) : GoonValue → Nat → List (Chars × Nat) → List (Chars × Nat)
  | .str s, depth, acc =>
      if MAX_RECURSION_DEPTH < depth then acc
      else if minLength ≤ s.length then bumpCount acc s else acc
  | .arr xs, depth, acc =>
      if MAX_RECURSION_DEPTH < depth then acc
      else scanStringsL minLength xs (depth + 1) acc
  | .obj fs, depth, acc =>
      if MAX_RECURSION_DEPTH < depth then acc
      else scanStringsF minLength fs (depth + 1) acc
  | _, _, acc => acc

def scanStringsL (minLength : Nat) : List GoonValue → Nat → List (Chars × Nat) → List (Chars × Nat)
  | [], _, acc => acc
  | x :: xs, depth, acc =>
      scanStringsL minLength xs depth (scanStrings minLength x depth acc)

def scanStringsF (minLength : Nat) : List (Chars × GoonValue) → Nat → List (Chars × Nat) → List (Chars × Nat)
  | [], _, acc => acc
  | (_, v) :: fs, depth, acc =>
      scanStringsF minLength fs depth (scanStrings minLength v depth acc)

end

/-- Fixed overhead constant of the candidate filter. -/
def DICT_LINE_OVERHEAD_CHARS : Int := 10

/-- Reference token length assumed for a candidate at a given position. -/
def candRefLength (i : Nat) : Nat := if i < 10 then 2 else if i < 100 then 3 else 4

/-- Candidate record of the dictionary builder. -/
structure DictCand where
  str : Chars
  count : Nat
  savings : Int
  origIdx : Nat
  deriving DecidableEq

/-- Candidates: occurrence-filtered entries with position-dependent savings. -/
def dictCandidates (counts : List (Chars × Nat)) (minOccurrences : Nat) : List DictCand :=
  (counts.filter (fun kv => minOccurrences ≤ kv.2)).enum.map fun p =>
    { str := p.2.1, count := p.2.2,
      savings := ((p.2.1.length : Int) - candRefLength p.1) * p.2.2 - ((p.2.1.length : Int) + 1),
      origIdx := p.1 }

/-- Candidates surviving the savings filter (`savings > DICT_LINE_OVERHEAD_CHARS`). -/
def keptCandidates (counts : List (Chars × Nat)) (minOccurrences : Nat) : List DictCand :=
  (dictCandidates counts minOccurrences).filter
    (fun c => DICT_LINE_OVERHEAD_CHARS < c.savings)

/-- Stable insertion of a candidate into a savings-descending list: an
element is placed before the first strictly-smaller entry and after all
entries with greater or equal savings, which is what the source's stable
`sort((a, b) => b.savings - a.savings)` produces. -/
def insertCandDesc (x : DictCand) : List DictCand → List DictCand
  | [] => [x]
  | y :: ys => if x.savings < y.savings then y :: insertCandDesc x ys else x :: y :: ys

/-- Stable sort of candidates by descending savings. -/
def sortCandsDesc : List DictCand → List DictCand
  | [] => []
  | x :: xs => insertCandDesc x (sortCandsDesc xs)

/-- String dictionary: ordered entries plus a lookup from string to its
reference token. -/
structure Dictionary where
  entries : List Chars
  lookup : List (Chars × Chars)
  deriving DecidableEq

/-- Reference token `$N`. -/
def refToken (i : Nat) : Chars := '$' :: natToChars i

/-- Final selection loop of the dictionary builder: truncate at the entry
cap, recompute savings with a two-character reference, intern only when the
recomputed savings are strictly positive. -/
def dictPickLoop (counts : List (Chars × Nat)) (maxEntries : Nat) :
    List DictCand → List Chars → List (Chars × Chars) → Dictionary
  | [], entries, lookup => { entries := entries, lookup := lookup }
  | c :: rest, entries, lookup =>
      if 0 < maxEntries ∧ maxEntries ≤ entries.length then
        { entries := entries, lookup := lookup }
      else
        let count := (lookupAssoc counts c.str).getD 0
        let actualSavings : Int :=
          ((c.str.length : Int) - 2) * count - ((c.str.length : Int) + 1)
        if 0 < actualSavings then
          dictPickLoop counts maxEntries rest (entries ++ [c.str])
            (lookup ++ [(c.str, refToken entries.length)])
        else
          dictPickLoop counts maxEntries rest entries lookup

/-- Build a string dictionary from a value (`buildDictionary`). -/
def buildDictionary (value : GoonValue) (minLength minOccurrences maxEntries : Nat) : Dictionary :=
  let counts := scanStrings minLength value 0 []
  dictPickLoop counts maxEntries
    (sortCandsDesc (keptCandidates counts minOccurrences)) [] []

/-- Empty dictionary. -/
def emptyDictionary : Dictionary := { entries := [], lookup := [] }

/-! ### Primitive codec -/

/-- Encode a primitive value to GOON format (`encodePrimitive`); the
`useDictionary` flag disables reference substitution at deep nesting.
Containers never reach this function in the source and map to `[]`. -/
def encodePrimitive (value : GoonValue) (dictionary : Dictionary) (useDictionary : Bool) : Chars :=
  match value with
  | .null => ['_']
  | .bool true => ['T']
  | .bool false => ['F']
  | .num n => intToChars n
  | .str s =>
      if s = [] then ['~']
      else if useDictionary then
        match lookupAssoc dictionary.lookup s with
        | some ref => ref
        | none => quoteString s
      else quoteString s
  | _ => []

/-- Parse a primitive value from GOON format (`parsePrimitive`). -/
def parsePrimitive (str : Chars) (dictionary : List Chars) : GoonValue :=
  if str = ['_'] then .null
  else if str = ['T'] then .bool true
  else if str = ['F'] then .bool false
  else if str = ['~'] then .str []
  else
    let dollarCase : Option GoonValue :=
      if str.head? = some '$' ∧ 1 < str.length then
        let indexStr := str.tail
        if !indexStr.isEmpty && indexStr.all Char.isDigit then
          let index := digitsToNat indexStr
          some (if h : index < dictionary.length then .str (dictionary.get ⟨index, h⟩)
                else .str str)
        else none
      else none
    match dollarCase with
    | some v => v
    | none =>
        if str.head? = some '"' ∧ str.getLast? = some '"' ∧ 2 ≤ str.length then
          .str (unquoteString str)
        else if isNumberShape str then
          match intFromChars str with
          | some n => .num n
          | none => .str str
        else .str str

/-- Index of the last `*` in a cell, if any (`lastIndexOf('*')`). -/
def lastStarIndex (s : Chars) : Option Nat :=
  let rds := s.reverse.takeWhile (fun c => c ≠ '*')
  if (s.reverse.drop rds.length).head? = some '*' then
    some (s.length - 1 - rds.length)
  else none

/-- Parse a cell value with potential run-length encoding (`parseCell`);
returns the value and the (clamped, at least 1) repeat count. -/
def parseCell (cell : Chars) (dictionary : List Chars) : GoonValue × Nat :=
  let rle : Option (Chars × Nat) :=
    if cell.head? = some '"' then none
    else match lastStarIndex cell with
      | some i =>
          if 0 < i then
            let suffix := cell.drop (i + 1)
            if !suffix.isEmpty && suffix.all Char.isDigit then
              some (cell.take i, digitsToNat suffix)
            else none
          else none
      | none => none
  match rle with
  | some (valueStr, n) =>
      let r := min n MAX_REPEAT_COUNT
      (parsePrimitive valueStr dictionary, if r < 1 then 1 else r)
  | none => (parsePrimitive cell dictionary, 1)

/-- UTF-8 byte length of the input, as `TextEncoder().encode(input).length`
computes it. -/
def utf8ByteLen (s : Chars) : Nat := (s.map Char.utf8Size).sum

/-! ### Encoder (`encode.ts`) -/

/-- Encoding options after preset merging (`EncodeOptions` with mode and
replacer resolved away; explicit fields override preset defaults by ordinary
record update). -/
structure EncodeOptions where
  dictionary : Bool
  columnRefs : Bool
  runLength : Bool
  minDictLength : Nat
  minDictOccurrences : Nat
  maxDictEntries : Nat
  indent : Chars
  autoSort : Bool
  delimiter : Char
  maxColumnRefDepth : Int
  maxDictDepth : Int
  arrayLengths : Bool
  tabularArrays : Bool
  minimalIndent : Bool
  schemaDefaults : Bool
  footerSummaries : Bool
  rowNumbers : Bool
  deriving DecidableEq

/-- Base defaults (`BASE_DEFAULTS`, the `balanced` bundle). -/
def BASE_DEFAULTS : EncodeOptions :=
  { dictionary := true, columnRefs := true, runLength := true,
    minDictLength := 3, minDictOccurrences := 2, maxDictEntries := 5,
    indent := "  ".toList, autoSort := false, delimiter := ',',
    maxColumnRefDepth := 1, maxDictDepth := 2, arrayLengths := true,
    tabularArrays := true, minimalIndent := false, schemaDefaults := false,
    footerSummaries := false, rowNumbers := false }

/-- The `llm` preset merged over the base defaults. -/
def llmOptions : EncodeOptions :=
  { BASE_DEFAULTS with
      dictionary := false
      columnRefs := false
      minimalIndent := true
      schemaDefaults := false
      footerSummaries := false
      rowNumbers := false }

/-- The `compact` preset merged over the base defaults. -/
def compactOptions : EncodeOptions :=
  { BASE_DEFAULTS with
      dictionary := true
      columnRefs := true
      autoSort := true
      minimalIndent := true
      maxDictEntries := 0
      maxColumnRefDepth := -1
      maxDictDepth := -1 }

/-- The `balanced` preset (identical to the base defaults). -/
def balancedOptions : EncodeOptions := BASE_DEFAULTS

/-- Encode-time errors (`GoonEncodeError`); `maxDepth` carries the limit the
message names.  `gasExhausted` is the totality device of the embedding and
is unreachable from `goonEncode` (the depth ceiling of 100 fires first). -/
inductive GoonEncodeError where
  | maxDepth (limit : Nat)
  | invalidIndent
  | gasExhausted
  deriving DecidableEq

/-- Decode-time errors (`GoonDecodeError`); payloads carry the data the
source interpolates into the message (limit, byte size, line number).
`fuelExhausted` is the totality device of the embedding. -/
inductive GoonDecodeError where
  | inputSize (bytes : Nat) (limit : Nat)
  | maxDepth (limit : Nat) (line : Nat)
  | fuelExhausted
  deriving DecidableEq

/-- Repetition of the indent unit (`indent.repeat(depth)`). -/
def repeatChars (s : Chars) : Nat → Chars
  | 0 => []
  | n + 1 => s ++ repeatChars s n

/-- Dictionary-use test at a depth (`maxDictDepth === -1 || depth <= maxDictDepth`). -/
def useDictionaryAt (opts : EncodeOptions) (depth : Nat) : Bool :=
  opts.maxDictDepth == -1 || (depth : Int) ≤ opts.maxDictDepth

/-- Join of cell strings with a single-character delimiter. -/
def intercalateChar (d : Char) (xs : List Chars) : Chars :=
  List.intercalate [d] xs

/-- Occurrence bump keyed by value (the source keys its maps by
`JSON.stringify(value)`, which is injective on primitives). -/
def bumpVal : List (GoonValue × Nat) → GoonValue → List (GoonValue × Nat)
  | [], v => [(v, 1)]
  | (w, n) :: rest, v =>
      if w = v then (w, n + 1) :: rest else (w, n) :: bumpVal rest v

/-- Fields of the first element, filtered to safe keys
(`Object.keys(arr[0]).filter(isSafeKey)`). -/
def tabularFields (arr : List GoonValue) : List Chars :=
  ((objFields (arr.headD .null)).map Prod.fst).filter isSafeKey

/-- Majority value of a field across rows: the most common value when it
occurs in more than half the rows and more than once. -/
def majorityDefault (arr : List GoonValue) (field : Chars) : Option GoonValue :=
  let values := arr.map (fun o => (lookupAssoc (objFields o) field).getD .null)
  let cnts := values.foldl bumpVal []
  let most := cnts.foldl
    (fun best e =>
      match best with
      | none => some e
      | some b => if b.2 < e.2 then some e else some b)
    none
  match most with
  | some (v, c) => if arr.length < 2 * c ∧ 1 < c then some v else none
  | none => none

/-- Field default when schema defaults are enabled. -/
def fieldDefault (opts : EncodeOptions) (arr : List GoonValue) (field : Chars) : Option GoonValue :=
  if opts.schemaDefaults then majorityDefault arr field else none

/-- Value rendering used by the auto-sort comparison (`String(a[field] ?? '')`). -/
def jsStringOfValue : GoonValue → Chars
  | .null => []
  | .bool true => "true".toList
  | .bool false => "false".toList
  | .num n => intToChars n
  | .str s => s
  | .arr _ => []
  | .obj _ => []

/-- Multi-field ascending string comparison of two rows. -/
def rowLt (sortFields : List Chars) (a b : GoonValue) : Bool :=
  match sortFields with
  | [] => false
  | f :: rest =>
      let av := jsStringOfValue ((lookupAssoc (objFields a) f).getD .null)
      let bv := jsStringOfValue ((lookupAssoc (objFields b) f).getD .null)
      if av = bv then rowLt rest a b
      else lexLe av bv

/-- Stable ascending insertion by `rowLt`. -/
def insertRowAsc (sortFields : List Chars) (x : GoonValue) : List GoonValue → List GoonValue
  | [] => [x]
  | y :: ys =>
      if rowLt sortFields y x then y :: insertRowAsc sortFields x ys
      else x :: y :: ys

/-- Stable ascending sort of rows by `rowLt`. -/
def sortRowsAsc (sortFields : List Chars) : List GoonValue → List GoonValue
  | [] => []
  | x :: xs => insertRowAsc sortFields x (sortRowsAsc sortFields xs)

/-- Stable descending insertion of `(field, maxRun)` pairs by `maxRun`. -/
def insertRunDesc (x : Chars × Nat) : List (Chars × Nat) → List (Chars × Nat)
  | [] => [x]
  | y :: ys => if x.2 < y.2 then y :: insertRunDesc x ys else x :: y :: ys

/-- Stable descending sort of `(field, maxRun)` pairs by `maxRun`. -/
def sortRunsDesc : List (Chars × Nat) → List (Chars × Nat)
  | [] => []
  | x :: xs => insertRunDesc x (sortRunsDesc xs)

/-- Sort a tabular array to maximize column references
(`autoSortForColumnRefs`). -/
def autoSortForColumnRefs (arr : List GoonValue) (fields : List Chars) : List GoonValue :=
  let columnRepetitions := fields.map fun f =>
    let cnts := arr.foldl
      (fun acc o => bumpVal acc ((lookupAssoc (objFields o) f).getD .null)) []
    (f, (cnts.map Prod.snd).foldl max 0)
  let sortFields := ((sortRunsDesc columnRepetitions).take 3).map Prod.fst
  sortRowsAsc sortFields arr

/-- One table cell: column reference, schema-default omission, or encoded
primitive. -/
def tabCell (opts : EncodeOptions) (dictionary : Dictionary)
    (useColumnRefs useDict : Bool) (defaultVal : Option GoonValue)
    (value : GoonValue) (prevVal : Option GoonValue) : Chars :=
  if useColumnRefs ∧ prevVal = some value ∧ value ≠ .null then ['^']
  else if opts.schemaDefaults ∧ defaultVal = some value then []
  else encodePrimitive value dictionary useDict

/-- Three-way zip used to build the cells of one row. -/
def map3 {α β γ δ : Type} (f : α → β → γ → δ) : List α → List β → List γ → List δ
  | a :: as', b :: bs, c :: cs => f a b c :: map3 f as' bs cs
  | _, _, _ => []

/-- Row loop of the tabular encoder, tracking the previous row. -/
def encodeTabRows (opts : EncodeOptions) (dictionary : Dictionary)
    (useColumnRefs useDict : Bool) (fields : List Chars)
    (defaults : List (Option GoonValue)) (depth : Nat) :
    List GoonValue → Option (List GoonValue) → Nat → List Chars
  | [], _, _ => []
  | o :: rest, prevRow, rowIdx =>
      let row := fields.map fun f => (lookupAssoc (objFields o) f).getD .null
      let prevCells : List (Option GoonValue) :=
        match prevRow with
        | none => List.replicate row.length none
        | some p => p.map some
      let cells := map3 (fun v dv pv => tabCell opts dictionary useColumnRefs useDict dv v pv)
        row defaults prevCells
      let rowIndent := if opts.minimalIndent then [] else repeatChars opts.indent (depth + 1)
      let rowMark := if opts.rowNumbers then natToChars (rowIdx + 1) ++ ['.', ' '] else []
      (rowIndent ++ rowMark ++ intercalateChar opts.delimiter cells) ::
        encodeTabRows opts dictionary useColumnRefs useDict fields defaults depth
          rest (some row) (rowIdx + 1)

/-- Numeric cell test for footer statistics. -/
def numCell : GoonValue → Option Int
  | .num n => some n
  | _ => none

/-- Rounded decimal rendering of `num / den` hundredths, modelling
`Math.round((sum / count) * 100) / 100` followed by `String(...)` on the
exact-hundredths fragment. -/
def avgChars (sum : Int) (count : Nat) : Chars :=
  if count = 0 then []
  else
    let h : Int := (2 * (sum * 100) + count) / (2 * (count : Int))
    let sign : Chars := if h < 0 then ['-'] else []
    let a := h.natAbs
    let ip := a / 100
    let fr := a % 100
    if fr = 0 then sign ++ natToChars ip
    else if fr % 10 = 0 then sign ++ natToChars ip ++ '.' :: natToChars (fr / 10)
    else sign ++ natToChars ip ++ '.' ::
      (if fr < 10 then '0' :: natToChars fr else natToChars fr)

/-- Footer summary parts for the fields that are numeric in every row. -/
def footerParts (arr : List GoonValue) (fields : List Chars) : List Chars :=
  ("n=".toList ++ natToChars arr.length) ::
    (fields.filterMap fun f =>
      let nums := arr.filterMap fun o => numCell ((lookupAssoc (objFields o) f).getD .null)
      if nums.length = arr.length ∧ 0 < arr.length then
        some (f, nums.sum)
      else none).flatMap
      (fun p => [p.1 ++ ":sum=".toList ++ intToChars p.2,
                 p.1 ++ ":avg=".toList ++ avgChars p.2 arr.length])

/-- True when some cell of the table is numeric (footer emission test,
`numericSums.size > 0`). -/
def hasNumericCell (arr : List GoonValue) (fields : List Chars) : Bool :=
  arr.any fun o => fields.any fun f =>
    (numCell ((lookupAssoc (objFields o) f).getD .null)).isSome

/-- Encode a tabular array (`encodeTabularArray`): header with optional
length annotation and schema defaults, then one row per element with
column-reference substitution, then an optional footer summary. -/
def encodeTabularArray (arr : List GoonValue) (depth : Nat) (opts : EncodeOptions)
    (dictionary : Dictionary) (lines : List Chars) (parentKey : Option Chars) : List Chars :=
  let indent := repeatChars opts.indent depth
  let fields := tabularFields arr
  if fields.isEmpty then
    match parentKey with
    | some pk => lines ++ [indent ++ pk ++ ['[', ']']]
    | none => lines ++ [indent ++ ['[', ']']]
  else
    let useColumnRefs := opts.columnRefs &&
      (opts.maxColumnRefDepth == -1 || (depth : Int) < opts.maxColumnRefDepth)
    let useDict := opts.maxDictDepth == -1 || ((depth : Int) + 1) ≤ opts.maxDictDepth
    let sortedArr :=
      if opts.autoSort && useColumnRefs && 1 < arr.length then
        autoSortForColumnRefs arr fields
      else arr
    let defaults := fields.map (fieldDefault opts arr)
    let fieldParts := (fields.zip defaults).map fun fd =>
      match fd.2 with
      | some dv =>
          if isPrimitive dv then fd.1 ++ '=' :: encodePrimitive dv dictionary false
          else fd.1
      | none => fd.1
    let lengthMark := if opts.arrayLengths then '[' :: natToChars arr.length ++ [']'] else []
    let header := lengthMark ++ charLB :: intercalateChar opts.delimiter fieldParts ++ [charRB, ':']
    let headerLine := match parentKey with
      | some pk => indent ++ pk ++ header
      | none => indent ++ header
    let rowLines := encodeTabRows opts dictionary useColumnRefs useDict fields defaults depth
      sortedArr none 0
    let base := lines ++ headerLine :: rowLines
    if opts.footerSummaries && hasNumericCell sortedArr fields then
      let rowIndent := if opts.minimalIndent then [] else repeatChars opts.indent depth
      base ++ [rowIndent ++ "---[".toList ++
        intercalateChar ',' (footerParts sortedArr fields) ++ [']']]
    else base

mutual

/-- Structural size of a value, used to provision encoder gas. -/
def gvSize : GoonValue → Nat
  | .arr xs => 1 + gvSizeL xs
  | .obj fs => 1 + gvSizeF fs
  | _ => 1

def gvSizeL : List GoonValue → Nat
  | [] => 0
  | x :: xs => 1 + gvSize x + gvSizeL xs

def gvSizeF : List (Chars × GoonValue) → Nat
  | [] => 0
  | (_, v) :: fs => 1 + gvSize v + gvSizeF fs

end

/-- Gas supplied by `goonEncode`: ample for the value's size, so it is a
pure totality device — the depth ceiling (100, bumped on every recursive
call) errors before the gas of a terminating run can drain. -/
def encodeGas (value : GoonValue) : Nat := 2 * gvSize value + 256

mutual

def encodeValue (gas : Nat) (value : GoonValue) (depth : Nat) (opts : EncodeOptions)
    (dictionary : Dictionary) (lines : List Chars) (parentKey : Option Chars)
    (recursionDepth : Nat) : Except GoonEncodeError (List Chars) :=
  match gas with
  | 0 => .error .gasExhausted
  | gas + 1 =>
    if MAX_RECURSION_DEPTH ≤ recursionDepth then .error (.maxDepth MAX_RECURSION_DEPTH)
    else
      let indent := repeatChars opts.indent depth
      let useDict := useDictionaryAt opts depth
      match value with
      | .arr xs => encodeArray gas xs depth opts dictionary lines parentKey (recursionDepth + 1)
      | .obj fs => encodeObject gas fs depth opts dictionary lines parentKey (recursionDepth + 1)
      | v =>
          let encoded := encodePrimitive v dictionary useDict
          match parentKey with
          | some pk => .ok (lines ++ [indent ++ pk ++ ':' :: ' ' :: encoded])
          | none => .ok (lines ++ [indent ++ encoded])
termination_by structural gas

def encodeArray (gas : Nat) (arr : List GoonValue) (depth : Nat) (opts : EncodeOptions)
    (dictionary : Dictionary) (lines : List Chars) (parentKey : Option Chars)
    (recursionDepth : Nat) : Except GoonEncodeError (List Chars) :=
  match gas with
  | 0 => .error .gasExhausted
  | gas + 1 =>
    let indent := repeatChars opts.indent depth
    let useDict := useDictionaryAt opts depth
    let lengthMark := if opts.arrayLengths then '[' :: natToChars arr.length ++ [']'] else ['[', ']']
    if arr.isEmpty then
      match parentKey with
      | some pk => .ok (lines ++ [indent ++ pk ++ ['[', ']']])
      | none => .ok (lines ++ [indent ++ ['[', ']']])
    else if opts.tabularArrays && isTabularArray arr then
      .ok (encodeTabularArray arr depth opts dictionary lines parentKey)
    else if arr.all isPrimitive && arr.length ≤ 10 then
      let values := arr.map fun v => encodePrimitive v dictionary useDict
      let joined := intercalateChar opts.delimiter values
      match parentKey with
      | some pk => .ok (lines ++ [indent ++ pk ++ '[' :: ']' :: ':' :: joined])
      | none => .ok (lines ++ [indent ++ '[' :: ']' :: ':' :: joined])
    else
      let headerLine := match parentKey with
        | some pk => indent ++ pk ++ lengthMark ++ [':']
        | none => indent ++ lengthMark ++ [':']
      encodeItems gas arr depth opts dictionary (lines ++ [headerLine]) useDict recursionDepth
termination_by structural gas

def encodeItems (gas : Nat) (items : List GoonValue) (depth : Nat) (opts : EncodeOptions)
    (dictionary : Dictionary) (lines : List Chars) (useDict : Bool)
    (recursionDepth : Nat) : Except GoonEncodeError (List Chars) :=
  match gas with
  | 0 => .error .gasExhausted
  | gas + 1 =>
    match items with
    | [] => .ok lines
    | item :: rest =>
        let childIndent := repeatChars opts.indent (depth + 1)
        match item with
        | .arr xs =>
            match encodeValue gas (.arr xs) (depth + 2) opts dictionary
                (lines ++ [childIndent ++ ['-']]) none (recursionDepth + 1) with
            | .ok lines' => encodeItems gas rest depth opts dictionary lines' useDict recursionDepth
            | .error e => .error e
        | .obj fs =>
            match encodeObject gas fs (depth + 2) opts dictionary
                (lines ++ [childIndent ++ ['-']]) none (recursionDepth + 1) with
            | .ok lines' => encodeItems gas rest depth opts dictionary lines' useDict recursionDepth
            | .error e => .error e
        | v =>
            encodeItems gas rest depth opts dictionary
              (lines ++ [childIndent ++ '-' :: ' ' :: encodePrimitive v dictionary useDict])
              useDict recursionDepth
termination_by structural gas

def encodeObject (gas : Nat) (fs : List (Chars × GoonValue)) (depth : Nat) (opts : EncodeOptions)
    (dictionary : Dictionary) (lines : List Chars) (parentKey : Option Chars)
    (recursionDepth : Nat) : Except GoonEncodeError (List Chars) :=
  match gas with
  | 0 => .error .gasExhausted
  | gas + 1 =>
    if MAX_RECURSION_DEPTH ≤ recursionDepth then .error (.maxDepth MAX_RECURSION_DEPTH)
    else
      let indent := repeatChars opts.indent depth
      let entries := fs.filter fun kv => isSafeKey kv.1
      if entries.isEmpty then
        match parentKey with
        | some pk => .ok (lines ++ [indent ++ pk ++ [charLB, charRB]])
        | none => .ok (lines ++ [indent ++ [charLB, charRB]])
      else
        let lines1 := match parentKey with
          | some pk => lines ++ [indent ++ pk ++ [':']]
          | none => lines
        let childIndent := match parentKey with
          | some _ => depth + 1
          | none => depth
        encodeEntries gas entries childIndent opts dictionary lines1
          (useDictionaryAt opts childIndent) recursionDepth
termination_by structural gas

def encodeEntries (gas : Nat) (entries : List (Chars × GoonValue)) (childIndent : Nat)
    (opts : EncodeOptions) (dictionary : Dictionary) (lines : List Chars)
    (useDict : Bool) (recursionDepth : Nat) : Except GoonEncodeError (List Chars) :=
  match gas with
  | 0 => .error .gasExhausted
  | gas + 1 =>
    match entries with
    | [] => .ok lines
    | (key, value) :: rest =>
        match value with
        | .arr xs =>
            match encodeArray gas xs childIndent opts dictionary lines (some key)
                (recursionDepth + 1) with
            | .ok lines' => encodeEntries gas rest childIndent opts dictionary lines' useDict recursionDepth
            | .error e => .error e
        | .obj gfs =>
            match encodeObject gas gfs childIndent opts dictionary lines (some key)
                (recursionDepth + 1) with
            | .ok lines' => encodeEntries gas rest childIndent opts dictionary lines' useDict recursionDepth
            | .error e => .error e
        | v =>
            encodeEntries gas rest childIndent opts dictionary
              (lines ++ [repeatChars opts.indent childIndent ++ key ++
                ':' :: ' ' :: encodePrimitive v dictionary useDict])
              useDict recursionDepth
termination_by structural gas

end

/-- Dictionary line `$:` followed by `$N=value` entries. -/
def dictLineChars (entries : List Chars) : Chars :=
  '$' :: ':' :: intercalateChar ','
    (entries.enum.map fun p => '$' :: natToChars p.1 ++ '=' :: quoteString p.2)

/-- Encode a value to GOON text (`encode` with the options already merged;
the replacer hook is not modelled). -/
def goonEncode (opts : EncodeOptions) (value : GoonValue) : Except GoonEncodeError Chars :=
  let dictionary :=
    if opts.dictionary then
      buildDictionary value opts.minDictLength opts.minDictOccurrences opts.maxDictEntries
    else emptyDictionary
  let lines0 : List Chars :=
    if dictionary.entries.isEmpty then [] else [dictLineChars dictionary.entries]
  match encodeValue (encodeGas value) value 0 opts dictionary lines0 none 0 with
  | .ok lines => .ok (List.intercalate ['\n'] lines)
  | .error e => .error e

/-! ### Decoder (`decode.ts`) -/

/-- Whitespace test covering the characters `trim` and `\s` treat as
whitespace in the inputs of interest. -/
def isJsSpace (c : Char) : Bool :=
  c = ' ' || c = '\t' || c = '\n' || c = '\r' || c = '\x0b' || c = '\x0c'

/-- Trim of leading and trailing whitespace (`String.prototype.trim`). -/
def jsTrim (s : Chars) : Chars :=
  ((s.dropWhile isJsSpace).reverse.dropWhile isJsSpace).reverse

/-- Split on a separator character (`String.prototype.split` with a
single-character separator). -/
def splitOnChar (sep : Char) : Chars → List Chars
  | [] => [[]]
  | c :: cs =>
      let r := splitOnChar sep cs
      if c = sep then [] :: r
      else
        match r with
        | [] => [[c]]
        | h :: t => (c :: h) :: t

/-- Word-or-dot character class (`[\w.]`). -/
def isWordDotChar (c : Char) : Bool := c.isAlphanum || c = '_' || c = '.'

/-- Maximal `[\w.]+` span at the start of a line. -/
def wordDotSpan (s : Chars) : Chars × Chars :=
  (s.takeWhile isWordDotChar, s.dropWhile isWordDotChar)

/-- Match `^([\w.]+):(.+)$` (the decoder trims the captured value at the use
site, which coincides with trimming the raw remainder). -/
def keyValueMatch (s : Chars) : Option (Chars × Chars) :=
  let p := wordDotSpan s
  if p.1.isEmpty then none
  else
    match p.2 with
    | ':' :: rem => if rem.isEmpty then none else some (p.1, rem)
    | _ => none

/-- Match `^([\w.]+)XY$` for a two-character suffix (empty object `key` +
braces, empty array `key[]`). -/
def emptyContainerMatch (openC closeC : Char) (s : Chars) : Option Chars :=
  let p := wordDotSpan s
  if p.1.isEmpty then none
  else if p.2 = [openC, closeC] then some p.1 else none

/-- Match the optional `\[\d*\]` annotation followed by a brace-enclosed
non-empty field list and an optional trailing colon. -/
def headerTail (rest : Chars) : Option Chars :=
  let afterAnnot : Option Chars :=
    match rest with
    | '[' :: r =>
        let ds := r.takeWhile Char.isDigit
        (match r.drop ds.length with
         | ']' :: r' => some r'
         | _ => none)
    | _ => some rest
  match afterAnnot with
  | none => none
  | some r2 =>
      match r2 with
      | c :: r3 =>
          if c = charLB then
            let content := r3.takeWhile (fun x => x ≠ charRB)
            let after := r3.drop content.length
            if content.isEmpty then none
            else
              match after with
              | [rb] => if rb = charRB then some content else none
              | [rb, colon] => if rb = charRB ∧ colon = ':' then some content else none
              | _ => none
          else none
      | [] => none

/-- Match `^([\w.]+)(?:\[\d*\])?\{([^}]+)\}:?$` (tabular header under a key). -/
def tabularMatch (s : Chars) : Option (Chars × Chars) :=
  let p := wordDotSpan s
  if p.1.isEmpty then none
  else
    match headerTail p.2 with
    | some content => some (p.1, content)
    | none => none

/-- Match `^(?:\[\d*\])?\{([^}]+)\}:?$` (standalone tabular header). -/
def standaloneTabularMatch (s : Chars) : Option Chars := headerTail s

/-- Match `^\[\]:(.+)$` (standalone inline array). -/
def standaloneSimpleArrMatch (s : Chars) : Option Chars :=
  match s with
  | '[' :: ']' :: ':' :: rem => if rem.isEmpty then none else some rem
  | _ => none

/-- Match `^([\w.]+)\[\]:(.+)$` (inline array under a key). -/
def simpleArrMatch (s : Chars) : Option (Chars × Chars) :=
  let p := wordDotSpan s
  if p.1.isEmpty then none
  else
    match p.2 with
    | '[' :: ']' :: ':' :: rem => if rem.isEmpty then none else some (p.1, rem)
    | _ => none

/-- Match `^([\w.]+):?$` (bare key, optionally with a trailing colon). -/
def nestedKeyMatch (s : Chars) : Option Chars :=
  let p := wordDotSpan s
  if p.1.isEmpty then none
  else if p.2 = [] ∨ p.2 = [':'] then some p.1 else none

/-- Test `/^[\w.]+[:\[{]/` (a key followed by a colon, bracket or brace). -/
def looksLikeKeyStart (s : Chars) : Bool :=
  let p := wordDotSpan s
  !p.1.isEmpty &&
    (match p.2 with
     | c :: _ => c = ':' || c = '[' || c = charLB
     | [] => false)

/-- Root-dispatch test: key followed by `:`, brace or bracket, or a bare key. -/
def looksLikeObjectLine (s : Chars) : Bool :=
  let p := wordDotSpan s
  !p.1.isEmpty &&
    (match p.2 with
     | [] => true
     | c :: _ => c = ':' || c = charLB || c = '[')

/-- Row-terminator test of the tabular parser
(`/^[\w.]+[:\[{]/.test(trimmed) || /^\$:/.test(trimmed)`). -/
def looksLikeNewKeyLine (s : Chars) : Bool :=
  looksLikeKeyStart s || "$:".toList.isPrefixOf s

/-- Detect the indent unit from the first indented line (`detectIndent`). -/
def detectIndent : List Chars → Chars
  | [] => "  ".toList
  | line :: rest =>
      match line with
      | c :: _ =>
          if isJsSpace c then
            if c = '\t' then ['\t']
            else List.replicate (min (line.takeWhile (fun x => x = ' ')).length 8) ' '
          else detectIndent rest
      | [] => detectIndent rest

/-- Indent-level counting loop, with the line length as fuel. -/
def indentLevelAux (indent : Chars) : Nat → Chars → Nat
  | 0, _ => 0
  | fuel + 1, remaining =>
      if indent.isPrefixOf remaining then
        1 + indentLevelAux indent fuel (remaining.drop indent.length)
      else 0

/-- Indent level of a line in units of the detected indent (`getIndentLevel`). -/
def getIndentLevel (line : Chars) (indent : Chars) : Nat :=
  if indent.isEmpty then 0 else indentLevelAux indent line.length line

/-- Dictionary-line splitting loop: comma-separated entries with
quote-awareness and escapes (`parseDictionary`). -/
def parseDictLoop : Chars → Chars → Bool → Bool → List Chars → List Chars
  | [], current, _, _, acc =>
      let t := jsTrim current
      if t.isEmpty then acc else acc ++ [unquoteString t]
  | c :: rest, current, inQuote, escaped, acc =>
      if escaped then parseDictLoop rest (current ++ [c]) inQuote false acc
      else if c = '\\' ∧ inQuote then parseDictLoop rest (current ++ [c]) inQuote true acc
      else if c = '"' then parseDictLoop rest (current ++ [c]) (!inQuote) false acc
      else if c = ',' ∧ !inQuote then
        let t := jsTrim current
        parseDictLoop rest [] inQuote false (if t.isEmpty then acc else acc ++ [unquoteString t])
      else parseDictLoop rest (current ++ [c]) inQuote false acc

/-- Parse the dictionary line after the leading `$:` (`parseDictionary`). -/
def parseDictionary (dictLine : Chars) : List Chars :=
  parseDictLoop dictLine [] false false []

/-- Delimiter-counting state step of `detectDelimiter`. -/
def countDelims : Chars → Bool → Nat → Nat → Nat → Nat × Nat × Nat
  | [], _, commas, pipes, tabs => (commas, pipes, tabs)
  | c :: rest, inQuote, commas, pipes, tabs =>
      let inQuote' := if c = '"' then !inQuote else inQuote
      if !inQuote' ∧ c = ',' then countDelims rest inQuote' (commas + 1) pipes tabs
      else if !inQuote' ∧ c = '|' then countDelims rest inQuote' commas (pipes + 1) tabs
      else if !inQuote' ∧ c = '\t' then countDelims rest inQuote' commas pipes (tabs + 1)
      else countDelims rest inQuote' commas pipes tabs

/-- Detect the most common delimiter outside quotes (`detectDelimiter`). -/
def detectDelimiter (fieldsStr : Chars) : Char :=
  let cnt := countDelims fieldsStr false 0 0 0
  if cnt.2.2 > cnt.2.1 ∧ cnt.2.2 > cnt.1 then '\t'
  else if cnt.2.1 > cnt.1 then '|'
  else ','

/-- Row-splitting loop: delimiter-separated cells with quote-awareness,
escapes and run-length expansion (`parseRow`). -/
def parseRowLoop (dictionary : List Chars) (delimiter : Char) :
    Chars → Chars → Bool → Bool → List GoonValue → List GoonValue
  | [], current, _, _, cells =>
      let t := jsTrim current
      if t.isEmpty then cells
      else
        let vr := parseCell t dictionary
        cells ++ List.replicate vr.2 vr.1
  | c :: rest, current, inQuote, escaped, cells =>
      if escaped then parseRowLoop dictionary delimiter rest (current ++ [c]) inQuote false cells
      else if c = '\\' ∧ inQuote then
        parseRowLoop dictionary delimiter rest (current ++ [c]) inQuote true cells
      else if c = '"' then
        parseRowLoop dictionary delimiter rest (current ++ [c]) (!inQuote) false cells
      else if c = delimiter ∧ !inQuote then
        let vr := parseCell (jsTrim current) dictionary
        parseRowLoop dictionary delimiter rest [] inQuote false (cells ++ List.replicate vr.2 vr.1)
      else parseRowLoop dictionary delimiter rest (current ++ [c]) inQuote false cells

/-- Parse one data row into cell values (`parseRow`). -/
def parseRow (rowStr : Chars) (dictionary : List Chars) (delimiter : Char) : List GoonValue :=
  parseRowLoop dictionary delimiter rowStr [] false false []

/-- Mutable parsing context of the decoder (`ParseContext`). -/
structure ParseCtx where
  lines : List Chars
  index : Nat
  dictionary : List Chars
  indent : Chars
  depth : Nat
  deriving DecidableEq

/-- Context with the cursor advanced by one line. -/
def bumpCtx (ctx : ParseCtx) : ParseCtx := { ctx with index := ctx.index + 1 }

/-- Row values with column-reference resolution: a `^` cell takes the value
of the previous row at the same position when one exists; a missing cell
becomes null. -/
def resolveRowValues (fieldsLen : Nat) (cells prev : List GoonValue) : List GoonValue :=
  (List.range fieldsLen).map fun i =>
    if cells.get? i = some (.str ['^']) ∧ i < prev.length then prev.getD i .null
    else (cells.get? i).getD .null

/-- Object assembled from fields and resolved row values. -/
def rowObject (fields : List Chars) (rowValues : List GoonValue) : List (Chars × GoonValue) :=
  (fields.zip rowValues).foldl (fun o kv => setField o kv.1 kv.2) []

mutual

def parseRoot (fuel : Nat) (ctx : ParseCtx) : Except GoonDecodeError (GoonValue × ParseCtx) :=
  match fuel with
  | 0 => .error .fuelExhausted
  | fuel + 1 =>
      match ctx.lines.get? ctx.index with
      | none => .ok (.null, ctx)
      | some line =>
          let firstLine := jsTrim line
          if firstLine = [charLB, charRB] then .ok (.obj [], bumpCtx ctx)
          else if firstLine = ['[', ']'] then .ok (.arr [], bumpCtx ctx)
          else
            match standaloneTabularMatch firstLine with
            | some fieldsStr =>
                match parseTabularArray fuel ctx (-1) fieldsStr with
                | .ok (rows, ctx') => .ok (.arr rows, ctx')
                | .error e => .error e
            | none =>
                match standaloneSimpleArrMatch firstLine with
                | some valuesStr =>
                    .ok (.arr (parseRow valuesStr ctx.dictionary (detectDelimiter valuesStr)),
                      bumpCtx ctx)
                | none =>
                    if looksLikeObjectLine firstLine then parseObject fuel ctx 0
                    else .ok (parsePrimitive firstLine ctx.dictionary, bumpCtx ctx)

def parseObject (fuel : Nat) (ctx : ParseCtx) (baseIndent : Int) :
    Except GoonDecodeError (GoonValue × ParseCtx) :=
  match fuel with
  | 0 => .error .fuelExhausted
  | fuel + 1 =>
      if MAX_RECURSION_DEPTH < ctx.depth + 1 then
        .error (.maxDepth MAX_RECURSION_DEPTH (ctx.index + 1))
      else
        match parseObjLoop fuel { ctx with depth := ctx.depth + 1 } baseIndent [] with
        | .ok (v, ctx') => .ok (v, { ctx' with depth := ctx'.depth - 1 })
        | .error e => .error e

def parseObjLoop (fuel : Nat) (ctx : ParseCtx) (baseIndent : Int)
    (obj : List (Chars × GoonValue)) : Except GoonDecodeError (GoonValue × ParseCtx) :=
  match fuel with
  | 0 => .error .fuelExhausted
  | fuel + 1 =>
      match ctx.lines.get? ctx.index with
      | none => .ok (.obj obj, ctx)
      | some line =>
          let currentIndent := getIndentLevel line ctx.indent
          let trimmed := jsTrim line
          if (currentIndent : Int) < baseIndent then .ok (.obj obj, ctx)
          else if baseIndent < (currentIndent : Int) then
            parseObjLoop fuel (bumpCtx ctx) baseIndent obj
          else
            match keyValueMatch trimmed with
            | some kv =>
                parseObjLoop fuel (bumpCtx ctx) baseIndent
                  (if isSafeKey kv.1 then
                    setField obj kv.1 (parsePrimitive (jsTrim kv.2) ctx.dictionary)
                  else obj)
            | none =>
            match emptyContainerMatch charLB charRB trimmed with
            | some key =>
                parseObjLoop fuel (bumpCtx ctx) baseIndent
                  (if isSafeKey key then setField obj key (.obj []) else obj)
            | none =>
            match emptyContainerMatch '[' ']' trimmed with
            | some key =>
                parseObjLoop fuel (bumpCtx ctx) baseIndent
                  (if isSafeKey key then setField obj key (.arr []) else obj)
            | none =>
            match tabularMatch trimmed with
            | some kf =>
                if isSafeKey kf.1 then
                  match parseTabularArray fuel ctx (currentIndent : Int) kf.2 with
                  | .ok (rows, ctx') =>
                      parseObjLoop fuel ctx' baseIndent (setField obj kf.1 (.arr rows))
                  | .error e => .error e
                else parseObjLoop fuel (bumpCtx ctx) baseIndent obj
            | none =>
            match simpleArrMatch trimmed with
            | some kv =>
                parseObjLoop fuel (bumpCtx ctx) baseIndent
                  (if isSafeKey kv.1 then
                    setField obj kv.1
                      (.arr (parseRow kv.2 ctx.dictionary (detectDelimiter kv.2)))
                  else obj)
            | none =>
            match nestedKeyMatch trimmed with
            | some key =>
                let ctx1 := bumpCtx ctx
                match ctx1.lines.get? ctx1.index with
                | some nextLine =>
                    if isSafeKey key ∧ currentIndent < getIndentLevel nextLine ctx.indent then
                      match parseObject fuel ctx1 ((getIndentLevel nextLine ctx.indent : Int)) with
                      | .ok (v, ctx') =>
                          parseObjLoop fuel ctx' baseIndent (setField obj key v)
                      | .error e => .error e
                    else
                      parseObjLoop fuel ctx1 baseIndent
                        (if isSafeKey key then setField obj key .null else obj)
                | none =>
                    parseObjLoop fuel ctx1 baseIndent
                      (if isSafeKey key then setField obj key .null else obj)
            | none => parseObjLoop fuel (bumpCtx ctx) baseIndent obj

def parseTabularArray (fuel : Nat) (ctx : ParseCtx) (baseIndent : Int) (fieldsStr : Chars) :
    Except GoonDecodeError (List GoonValue × ParseCtx) :=
  match fuel with
  | 0 => .error .fuelExhausted
  | fuel + 1 =>
      if MAX_RECURSION_DEPTH < ctx.depth + 1 then
        .error (.maxDepth MAX_RECURSION_DEPTH (ctx.index + 1))
      else
        let delimiter := detectDelimiter fieldsStr
        let fields := (splitOnChar delimiter fieldsStr).filter isSafeKey
        match parseTabRowsLoop fuel (bumpCtx { ctx with depth := ctx.depth + 1 })
            baseIndent fields delimiter [] [] with
        | .ok (rows, ctx') => .ok (rows, { ctx' with depth := ctx'.depth - 1 })
        | .error e => .error e

def parseTabRowsLoop (fuel : Nat) (ctx : ParseCtx) (baseIndent : Int)
    (fields : List Chars) (delimiter : Char) (rows : List GoonValue)
    (prevRowValues : List GoonValue) : Except GoonDecodeError (List GoonValue × ParseCtx) :=
  match fuel with
  | 0 => .error .fuelExhausted
  | fuel + 1 =>
      match ctx.lines.get? ctx.index with
      | none => .ok (rows, ctx)
      | some line =>
          let currentIndent := getIndentLevel line ctx.indent
          let trimmed := jsTrim line
          if (currentIndent : Int) < baseIndent then .ok (rows, ctx)
          else if trimmed.isEmpty then
            parseTabRowsLoop fuel (bumpCtx ctx) baseIndent fields delimiter rows prevRowValues
          else if looksLikeNewKeyLine trimmed then .ok (rows, ctx)
          else
            let cells := parseRow trimmed ctx.dictionary delimiter
            let rowValues := resolveRowValues fields.length cells prevRowValues
            parseTabRowsLoop fuel (bumpCtx ctx) baseIndent fields delimiter
              (rows ++ [.obj (rowObject fields rowValues)]) rowValues

def parseListArray (fuel : Nat) (ctx : ParseCtx) (baseIndent : Int) :
    Except GoonDecodeError (List GoonValue × ParseCtx) :=
  match fuel with
  | 0 => .error .fuelExhausted
  | fuel + 1 =>
      if MAX_RECURSION_DEPTH < ctx.depth + 1 then
        .error (.maxDepth MAX_RECURSION_DEPTH (ctx.index + 1))
      else
        match parseListLoop fuel (bumpCtx { ctx with depth := ctx.depth + 1 }) baseIndent [] with
        | .ok (items, ctx') => .ok (items, { ctx' with depth := ctx'.depth - 1 })
        | .error e => .error e

def parseListLoop (fuel : Nat) (ctx : ParseCtx) (baseIndent : Int)
    (items : List GoonValue) : Except GoonDecodeError (List GoonValue × ParseCtx) :=
  match fuel with
  | 0 => .error .fuelExhausted
  | fuel + 1 =>
      match ctx.lines.get? ctx.index with
      | none => .ok (items, ctx)
      | some line =>
          let currentIndent := getIndentLevel line ctx.indent
          let trimmed := jsTrim line
          if (currentIndent : Int) ≤ baseIndent then .ok (items, ctx)
          else if ['-', ' '].isPrefixOf trimmed then
            parseListLoop fuel (bumpCtx ctx) baseIndent
              (items ++ [parsePrimitive (trimmed.drop 2) ctx.dictionary])
          else if trimmed = ['-'] then
            let ctx1 := bumpCtx ctx
            match ctx1.lines.get? ctx1.index with
            | some nextLine =>
                if currentIndent < getIndentLevel nextLine ctx.indent then
                  match parseNestedValue fuel ctx1 (getIndentLevel nextLine ctx.indent) with
                  | .ok (v, ctx') => parseListLoop fuel ctx' baseIndent (items ++ [v])
                  | .error e => .error e
                else parseListLoop fuel ctx1 baseIndent (items ++ [.null])
            | none => parseListLoop fuel ctx1 baseIndent (items ++ [.null])
          else parseListLoop fuel (bumpCtx ctx) baseIndent items

def parseNestedValue (fuel : Nat) (ctx : ParseCtx) (minIndent : Nat) :
    Except GoonDecodeError (GoonValue × ParseCtx) :=
  match fuel with
  | 0 => .error .fuelExhausted
  | fuel + 1 =>
      match ctx.lines.get? ctx.index with
      | none => .ok (.null, ctx)
      | some line =>
          let trimmed := jsTrim line
          if trimmed = [charLB, charRB] then .ok (.obj [], bumpCtx ctx)
          else if trimmed = ['[', ']'] then .ok (.arr [], bumpCtx ctx)
          else
            let keyed := tabularMatch trimmed
            let bare := standaloneTabularMatch trimmed
            match keyed with
            | some _ => parseObject fuel ctx (minIndent : Int)
            | none =>
                match bare with
                | some fieldsStr =>
                    match parseTabularArray fuel ctx ((minIndent : Int) - 1) fieldsStr with
                    | .ok (rows, ctx') => .ok (.arr rows, ctx')
                    | .error e => .error e
                | none =>
                    if (emptyContainerMatch '[' ']' trimmed).isSome then
                      parseObject fuel ctx (minIndent : Int)
                    else if looksLikeKeyStart trimmed ∨ (wordDotSpan trimmed).2 = [] ∧ !trimmed.isEmpty then
                      parseObject fuel ctx (minIndent : Int)
                    else .ok (parsePrimitive trimmed ctx.dictionary, bumpCtx ctx)

end

/-- Fuel supplied to the parser by `goonDecode`: ample for the line count. -/
def decodeFuel (lines : List Chars) : Nat := 8 * lines.length + 256

/-- Decode a GOON string to a value (`decode`; the reviver hook is not
modelled).  Validates the input size, splits and filters lines, detects the
indent unit, consumes an optional dictionary line, then parses the root. -/
def goonDecode (input : Chars) : Except GoonDecodeError GoonValue :=
  if MAX_INPUT_SIZE < utf8ByteLen input then
    .error (.inputSize (utf8ByteLen input) MAX_INPUT_SIZE)
  else
    let lines := (splitOnChar '\n' input).filter fun l => !(jsTrim l).isEmpty
    match lines with
    | [] => .ok .null
    | l0 :: _ =>
        let indent := detectIndent lines
        let hasDict := "$:".toList.isPrefixOf l0
        let dictionary := if hasDict then parseDictionary (l0.drop 2) else []
        let startIndex := if hasDict then 1 else 0
        if lines.length ≤ startIndex then .ok .null
        else
          match parseRoot (decodeFuel lines)
              { lines := lines, index := startIndex, dictionary := dictionary,
                indent := indent, depth := 0 } with
          | .ok (v, _) => .ok v
          | .error e => .error e

/-! ### Safe-value predicate (all object keys safe, recursively) -/

mutual

def safeVal : GoonValue → Bool
  | .arr xs => safeValL xs
  | .obj fs => safeValF fs
  | _ => true

def safeValL : List GoonValue → Bool
  | [] => true
  | x :: xs => safeVal x && safeValL xs

def safeValF : List (Chars × GoonValue) → Bool
  | [] => true
  | (k, v) :: fs => isSafeKey k && safeVal v && safeValF fs

end

/-! ### Specification-side definitions used to state the claims -/

/-- Key list of the first element of an array. -/
def headKeys (arr : List GoonValue) : List Chars :=
  (objFields (arr.headD .null)).map Prod.fst

/-- Tabular-array condition exactly as the claim words it: the array is
non-empty, every element is a plain map-like object, all elements share an
identical sorted key set, and every value under every key is a primitive. -/
def specIsTabularB (arr : List GoonValue) : Bool :=
  !arr.isEmpty &&
  arr.all isPlainObject &&
  arr.all (fun item =>
    sortStrs ((objFields item).map Prod.fst) = sortStrs (headKeys arr)) &&
  arr.all (fun item =>
    ((objFields item).map Prod.fst).all fun k =>
      match lookupAssoc (objFields item) k with
      | some v => isPrimitive v
      | none => false)

/-- Occurrence map the dictionary builder computes for a value. -/
def dictCounts (value : GoonValue) (minLength : Nat) : List (Chars × Nat) :=
  scanStrings minLength value 0 []

/-- Occurrence count of a string in the scan of a value. -/
def dictCountOf (value : GoonValue) (minLength : Nat) (s : Chars) : Nat :=
  (lookupAssoc (dictCounts value minLength) s).getD 0

/-- Savings of interning a string, with the two-character reference the
final selection loop assumes: `(len - 2) * count - (len + 1)`. -/
def internedSavings (value : GoonValue) (minLength : Nat) (s : Chars) : Int :=
  ((s.length : Int) - 2) * dictCountOf value minLength s - ((s.length : Int) + 1)

/-- Adjacent-pair check of the ordering the claim asserts for dictionary
entries: descending by savings with ties broken lexicographically. -/
def specLexTieOrdered (sav : Chars → Int) : List Chars → Bool
  | [] => true
  | [_] => true
  | a :: b :: rest =>
      (sav b < sav a || (sav a = sav b && lexLe a b)) &&
        specLexTieOrdered sav (b :: rest)

/-- Value whose dictionary exposes the tie-breaking order: two strings of
equal savings whose scan order differs from their lexicographic order. -/
def vC5 : GoonValue :=
  .arr (List.replicate 15 (.str "bbb".toList) ++ List.replicate 15 (.str "aaa".toList))

/-- Chain of objects nested `n` levels deep around a number. -/
def nestObjV : Nat → GoonValue
  | 0 => .num 1
  | n + 1 => .obj [("nested".toList, nestObjV n)]

/-- Lines of a document nested 101 object levels deep (single-space indent
unit): one hundred bare keys at increasing indent and a key-value line at
indent 100. -/
def deepLines : List Chars :=
  (List.range 100).map (fun i => List.replicate i ' ' ++ "nested".toList) ++
    [List.replicate 100 ' ' ++ "x: 1".toList]

/-- Text of the 101-deep document. -/
def deepText : Chars := List.intercalate ['\n'] deepLines

/-- Parser context over the deep document: cursor at line `i`, depth `d`. -/
def deepCtx (i d : Nat) : ParseCtx :=
  { lines := deepLines, index := i, dictionary := [], indent := [' '], depth := d }

/-- The deep document's lines past the first. -/
def deepTail : List Chars := deepLines.tail

/-- All-whitespace input one byte over the input-size ceiling. -/
def bigWhitespace : Chars := List.replicate (MAX_INPUT_SIZE + 1) ' '

/-- Key class of the round-trip fragment: non-empty, word-or-dot characters
only (so the decoder's line shapes recognize it), and safe. -/
def goodKeyB (k : Chars) : Bool :=
  !k.isEmpty && k.all isWordDotChar && isSafeKey k

/-- Quote-shaped test: a string that starts and ends with a double quote and
has at least two characters (the decoder would strip it). -/
def quoteShaped (s : Chars) : Bool :=
  s.head? = some '"' && s.getLast? = some '"' && 2 ≤ s.length

/-- String class of the round-trip fragment: the empty string, any string
the encoder quotes, or a plain string that is trim-stable and not
quote-shaped. -/
def goodStrB (s : Chars) : Bool :=
  s.isEmpty || needsQuoting s ||
    (jsTrim s = s && !quoteShaped s)

/-- Primitive class of the round-trip fragment (numbers kept within the
exactly-representable double range the source prints in plain decimal). -/
def goodPrimB : GoonValue → Bool
  | .null => true
  | .bool _ => true
  | .num n => n.natAbs ≤ 2 ^ 53
  | .str s => goodStrB s
  | _ => false

/-- Flat-object class of the amended round-trip claim: keys good and
pairwise distinct, values good primitives, string values pairwise distinct
(so no dictionary entry is ever selected). -/
def flatObjOK (fs : List (Chars × GoonValue)) : Prop :=
  (∀ kv ∈ fs, goodKeyB kv.1 = true ∧ goodPrimB kv.2 = true) ∧
  (fs.map Prod.fst).Nodup ∧
  (fs.filterMap fun kv => match kv.2 with | .str s => some s | _ => none).Nodup

/-- Character class of plain table cells: letters, digits, dot, dash,
space. -/
def tableChar (c : Char) : Bool :=
  c.isAlphanum || c = '-' || c = '.' || c = ' '

/-- Cell class of the amended column-reference claim: non-null primitives
whose encoded form survives comma-delimited row splitting untouched. -/
def tableCellOK : GoonValue → Bool
  | .null => false
  | .bool _ => true
  | .num n => n.natAbs ≤ 2 ^ 53
  | .str s =>
      s.isEmpty ||
        (!needsQuoting s && s.all tableChar && s.head? ≠ some ' ' && s.getLast? ≠ some ' ')
  | _ => false

/-- Row class of the amended column-reference claim. -/
def tableRowOK (row : List (Chars × GoonValue)) : Prop :=
  row ≠ [] ∧ (∀ kv ∈ row, goodKeyB kv.1 = true ∧ tableCellOK kv.2 = true) ∧
    (row.map Prod.fst).Nodup

/-- Object with a single key bound to a table of `n` identical rows. -/
def tableVal (k : Chars) (row : List (Chars × GoonValue)) (n : Nat) : GoonValue :=
  .obj [(k, .arr (List.replicate n (.obj row)))]

/-- Concrete scenario of the column-reference claim. -/
def vOrders : GoonValue :=
  tableVal "orders".toList
    [("date".toList, .str "2024-01".toList), ("c".toList, .str "Acme".toList)] 2

/-- Identical rows whose only cell is null: the encoder emits `_`, not `^`. -/
def vNullRows : GoonValue := tableVal "t".toList [("a".toList, .null)] 2

/-- Identical rows whose only cell contains the delimiter: the literal
first row is split at the comma by the row parser, so decoding does not
regenerate the original rows. -/
def vCommas : GoonValue := tableVal "t".toList [("a".toList, .str "x,y".toList)] 2

/-- The value the comma-cell table actually decodes to. -/
def vCommasDec : GoonValue := tableVal "t".toList [("a".toList, .str "x".toList)] 2

/-- Concrete object of the balanced-mode scenario claim. -/
def vC8 : GoonValue :=
  .obj [("a".toList, .num 1), ("b".toList, .str "hello".toList),
    ("c".toList, .bool true)]

/-- Balanced options with the dictionary disabled. -/
def balancedNoDict : EncodeOptions := { balancedOptions with dictionary := false }

/-- Canonical encoded line of one flat-object field. -/
def encLine (kv : Chars × GoonValue) : Chars :=
  kv.1 ++ ':' :: ' ' :: encodePrimitive kv.2 emptyDictionary false

/-- Canonical text of a non-empty flat object. -/
def flatText (fs : List (Chars × GoonValue)) : Chars :=
  List.intercalate ['\n'] (fs.map encLine)

/-- Parsing context inside the object loop of a flat document. -/
def flatCtx (lines : List Chars) (i : Nat) : ParseCtx :=
  { lines := lines, index := i, dictionary := [], indent := "  ".toList, depth := 1 }

/-- Root parsing context of a flat document (no dictionary line). -/
def rootCtx (lines : List Chars) : ParseCtx :=
  { lines := lines, index := 0, dictionary := [], indent := "  ".toList, depth := 0 }

/-- Parsing context inside the tabular row loop of a one-table document. -/
def tabCtx (lines : List Chars) (i : Nat) : ParseCtx :=
  { lines := lines, index := i, dictionary := [], indent := "  ".toList, depth := 2 }

/-- Header line of an encoded table under a key. -/
def tableHeader (k : Chars) (fields : List Chars) (N : Nat) : Chars :=
  k ++ '[' :: natToChars N ++ [']'] ++ charLB ::
    intercalateChar ',' fields ++ [charRB, ':']

/-- Literal first data row of an encoded table. -/
def tableRow1 (row : List (Chars × GoonValue)) : Chars :=
  "  ".toList ++
    intercalateChar ',' (row.map fun kv => encodePrimitive kv.2 emptyDictionary true)

/-- Column-reference data row of an encoded table (`m` cells of `^`). -/
def tableRowRef (m : Nat) : Chars :=
  "  ".toList ++ intercalateChar ',' (List.replicate m ['^'])

/-- Full text of an encoded table of `n + 2` identical rows. -/
def tableText (k : Chars) (row : List (Chars × GoonValue)) (n : Nat) : Chars :=
  List.intercalate ['\n']
    (tableHeader k (row.map Prod.fst) (n + 2) :: tableRow1 row ::
      List.replicate (n + 1) (tableRowRef row.length))

/-! ### Theorems: basic lemmas -/

theorem length_pos_of_ne_nil {α : Type} {s : List α} (h : s ≠ []) : 0 < s.length := by
  cases s with
  | nil => exact absurd rfl h
  | cons a t => simp

theorem parseCell_repeat_pos (cell : Chars) (dictionary : List Chars) :
    1 ≤ (parseCell cell dictionary).2 := by
  unfold parseCell
  split
  · simp
  · split
    · rename_i valueStr n heq
      simp only
      split
      · dsimp only
        split <;> omega
      · simp
    · simp

theorem reverse_append_pair (s : Chars) (a b : Char) :
    (s ++ [a, b]).reverse = b :: a :: s.reverse := by
  simp

theorem lastStarIndex_star_digit (s : Chars) :
    lastStarIndex (s ++ ['*', '0']) = some s.length := by
  unfold lastStarIndex
  rw [reverse_append_pair]
  simp only [List.takeWhile]
  norm_num
  simp [List.length_append]

theorem take_append_left (s t : Chars) : (s ++ t).take s.length = s := by
  simp

theorem drop_append_left (s t : Chars) : (s ++ t).drop s.length = t := by
  simp

theorem head?_append_ne_nil {α : Type} (s t : List α) (h : s ≠ []) :
    (s ++ t).head? = s.head? := by
  cases s with
  | nil => exact absurd rfl h
  | cons a r => rfl

theorem parseCell_star_zero (s : Chars) (dictionary : List Chars)
    (hne : s ≠ []) (hq : s.head? ≠ some '"') :
    parseCell (s ++ ['*', '0']) dictionary = (parsePrimitive s dictionary, 1) := by
  unfold parseCell
  rw [head?_append_ne_nil s ['*', '0'] hne, if_neg hq, lastStarIndex_star_digit]
  have hlen : 0 < s.length := length_pos_of_ne_nil hne
  have hdrop : (s ++ ['*', '0']).drop (s.length + 1) = ['0'] := by
    have h2 : s ++ ['*', '0'] = (s ++ ['*']) ++ ['0'] := by simp
    have hl : s.length + 1 = (s ++ ['*']).length := by simp
    rw [h2, hl, List.drop_left]
  have htake : (s ++ ['*', '0']).take s.length = s := by
    rw [List.take_append_of_le_length (by simp)]
    simp
  dsimp only
  rw [if_pos hlen, hdrop]
  rw [if_pos (by decide : (!(['0'] : Chars).isEmpty && (['0'] : Chars).all Char.isDigit) = true)]
  dsimp only
  rw [htake]
  have h0 : digitsToNat ['0'] = 0 := by decide
  rw [h0]
  simp

theorem bool_eq_of_iff {a b : Bool} (h : a = true ↔ b = true) : a = b := by
  cases a <;> cases b <;> simp_all

theorem mem_insertStr (a x : Chars) (l : List Chars) :
    a ∈ insertStr x l ↔ a = x ∨ a ∈ l := by
  induction l with
  | nil => simp [insertStr]
  | cons y ys ih =>
      unfold insertStr
      split
      · simp
      · simp [ih]
        tauto

theorem mem_sortStrs (a : Chars) (l : List Chars) : a ∈ sortStrs l ↔ a ∈ l := by
  induction l with
  | nil => simp [sortStrs]
  | cons x xs ih => simp [sortStrs, mem_insertStr, ih]

theorem sortStrs_length (l : List Chars) : (sortStrs l).length = l.length := by
  induction l with
  | nil => rfl
  | cons x xs ih =>
      have hins : ∀ (y : Chars) (m : List Chars), (insertStr y m).length = m.length + 1 := by
        intro y m
        induction m with
        | nil => rfl
        | cons z zs ihm =>
            unfold insertStr
            split
            · simp
            · simp [ihm]
      simp [sortStrs, hins, ih]

theorem sortStrs_eq_nil (l : List Chars) : sortStrs l = [] ↔ l = [] := by
  constructor
  · intro h
    have := sortStrs_length l
    rw [h] at this
    exact List.length_eq_zero.mp this.symm
  · intro h
    rw [h]
    rfl

theorem zip_all_eq (xs ys : List Chars) (P : Chars → Bool) (hlen : xs.length = ys.length) :
    ((xs.zip ys).all fun kf => decide (kf.1 = kf.2) && P kf.1) = true ↔
      xs = ys ∧ xs.all P = true := by
  induction xs generalizing ys with
  | nil =>
      cases ys with
      | nil => simp
      | cons y t => simp at hlen
  | cons x xt ih =>
      cases ys with
      | nil => simp at hlen
      | cons y yt =>
          simp only [List.zip_cons_cons, List.all_cons, Bool.and_eq_true, decide_eq_true_eq]
          rw [ih yt (by simpa using hlen)]
          constructor
          · rintro ⟨⟨hxy, hp⟩, heq, hall⟩
            exact ⟨by rw [hxy, heq], hp, hall⟩
          · rintro ⟨heq, hp, hall⟩
            injection heq with h1 h2
            exact ⟨⟨h1, hp⟩, h2, hall⟩

theorem lookupPrim_all_sorted (item : GoonValue) :
    ((sortStrs ((objFields item).map Prod.fst)).all fun k =>
        match lookupAssoc (objFields item) k with
        | some v => isPrimitive v
        | none => false) =
      (((objFields item).map Prod.fst).all fun k =>
        match lookupAssoc (objFields item) k with
        | some v => isPrimitive v
        | none => false) := by
  apply bool_eq_of_iff
  simp only [List.all_eq_true]
  constructor
  · intro h k hk
    exact h k ((mem_sortStrs k _).mpr hk)
  · intro h k hk
    exact h k ((mem_sortStrs k _).mp hk)

theorem goon_c4_item_check (firstKeys : List Chars) (item : GoonValue)
    (hpo : isPlainObject item = true) :
    ((if isPlainObject item = false then false
      else
        if (sortStrs ((objFields item).map Prod.fst)).length ≠ firstKeys.length then false
        else ((sortStrs ((objFields item).map Prod.fst)).zip firstKeys).all fun kf =>
          decide (kf.1 = kf.2) &&
          (match lookupAssoc (objFields item) kf.1 with
           | some v => isPrimitive v
           | none => false)) = true) ↔
      (sortStrs ((objFields item).map Prod.fst) = firstKeys ∧
        ∀ k ∈ (objFields item).map Prod.fst,
          (match lookupAssoc (objFields item) k with
           | some v => isPrimitive v
           | none => false) = true) := by
  rw [hpo]
  rw [if_neg (by simp)]
  by_cases hlen : (sortStrs ((objFields item).map Prod.fst)).length = firstKeys.length
  · rw [if_neg (by simp [hlen])]
    have hz := zip_all_eq (sortStrs ((objFields item).map Prod.fst)) firstKeys
      (fun k => match lookupAssoc (objFields item) k with
        | some v => isPrimitive v
        | none => false) hlen
    rw [lookupPrim_all_sorted] at hz
    exact hz.trans (and_congr_right fun _ => List.all_eq_true)
  · rw [if_pos (by simp [hlen])]
    constructor
    · intro h
      exact absurd h (by simp)
    · rintro ⟨heq, -⟩
      exact absurd (congrArg List.length heq) hlen

/-- C4 (corrected): tabular detection coincides with the specification's
condition strengthened by a non-empty shared key set. -/
theorem goon_c4_tabular_exact (arr : List GoonValue) :
    isTabularArray arr = (specIsTabularB arr && !(headKeys arr).isEmpty) := by
  cases arr with
  | nil => rfl
  | cons a0 rest =>
      apply bool_eq_of_iff
      unfold isTabularArray specIsTabularB headKeys
      cases hpo : (a0 :: rest).all isPlainObject with
      | false => simp [hpo]
      | true =>
          simp only [hpo, Bool.not_true, Bool.false_eq_true, if_false, List.headD_cons,
            List.isEmpty_cons, Bool.not_false, Bool.true_and, Bool.and_eq_true,
            Bool.not_eq_true']
          by_cases hk : (objFields a0).map Prod.fst = []
          · rw [if_pos (by simp [(sortStrs_eq_nil _).mpr hk])]
            simp only [hk, List.isEmpty_nil]
            constructor
            · intro h
              exact absurd h (by simp)
            · rintro ⟨-, hfalse⟩
              exact absurd hfalse (by simp)
          · rw [if_neg (by
              simp only [List.isEmpty_eq_true]
              exact fun h => hk ((sortStrs_eq_nil _).mp h))]
            have hne : ((objFields a0).map Prod.fst).isEmpty = false := by
              cases hcase : (objFields a0).map Prod.fst with
              | nil => exact absurd hcase hk
              | cons x xs => rfl
            rw [hne]
            have hpo' : ∀ item ∈ a0 :: rest, isPlainObject item = true := by
              rw [List.all_eq_true] at hpo
              exact hpo
            simp only [Bool.not_false, Bool.and_true, List.all_eq_true,
              decide_eq_true_eq]
            constructor
            · intro h
              refine ⟨⟨fun x hm => ?_, fun x hm => ?_⟩, trivial⟩
              · exact ((goon_c4_item_check _ x (hpo' x hm)).mp (h x hm)).1
              · exact ((goon_c4_item_check _ x (hpo' x hm)).mp (h x hm)).2
            · rintro ⟨⟨hshare, hprim⟩, -⟩ x hm
              exact (goon_c4_item_check _ x (hpo' x hm)).mpr
                ⟨hshare x hm, hprim x hm⟩

/-- C4 counterexample: the singleton array containing one empty object
satisfies the claim's membership condition (non-empty, all plain objects,
identical sorted key sets, all values primitive) yet `isTabularArray`
returns false, because the implementation additionally rejects an empty key
set. -/
theorem goon_c4_counterexample :
    specIsTabularB [GoonValue.obj []] = true ∧ isTabularArray [GoonValue.obj []] = false :=
  ⟨by decide, by decide⟩

/-- C8: encoding the object a=1, b="hello", c=true in balanced mode with the
dictionary disabled produces exactly the three lines `a: 1`, `b: hello`,
`c: T`, and decoding that text returns a map equal to the original. -/
theorem goon_c8_concrete_scenario :
    goonEncode balancedNoDict vC8 = .ok "a: 1\nb: hello\nc: T".toList ∧
    goonDecode "a: 1\nb: hello\nc: T".toList = .ok vC8 :=
  ⟨by decide, by decide⟩

/-- C10: a run-length suffix with repeat count 0 is treated as a repeat
count of 1: `parseCell` never returns a repeat below 1, an unquoted cell of
the form `value*0` parses to the value with repeat exactly 1, and decoding
such a cell yields exactly one element. -/
theorem goon_c10_repeat_zero :
    (∀ (cell : Chars) (dictionary : List Chars), 1 ≤ (parseCell cell dictionary).2) ∧
    (∀ (s : Chars) (dictionary : List Chars), s ≠ [] → s.head? ≠ some '"' →
      parseCell (s ++ ['*', '0']) dictionary = (parsePrimitive s dictionary, 1)) ∧
    goonDecode "a[]:7*0".toList = .ok (.obj [("a".toList, .arr [.num 7])]) :=
  ⟨parseCell_repeat_pos, parseCell_star_zero, by decide⟩

/-- C10 witness: the cell `7*0` parses to the number 7 with repeat 1. -/
theorem goon_c10_repeat_zero_witness :
    parseCell ("7".toList ++ ['*', '0']) [] = (parsePrimitive "7".toList [], 1) :=
  goon_c10_repeat_zero.2.1 "7".toList [] (by decide) (by decide)

/-- C6: a token `$N` with an all-digit index resolves to the dictionary
entry when the index is in range, and is preserved as the literal token
string when the index is out of range, rather than raising an error. -/
theorem goon_c6_dictionary_reference (dictionary : List Chars) (s : Chars)
    (hne : s ≠ []) (hdig : s.all Char.isDigit = true) :
    parsePrimitive ('$' :: s) dictionary =
      (if h : digitsToNat s < dictionary.length then
        .str (dictionary.get ⟨digitsToNat s, h⟩)
      else .str ('$' :: s)) := by
  have hlen : 1 < ('$' :: s).length := by
    have := length_pos_of_ne_nil hne
    simp only [List.length_cons]
    omega
  have hemp : s.isEmpty = false := by
    cases s with
    | nil => exact absurd rfl hne
    | cons a t => rfl
  unfold parsePrimitive
  rw [if_neg (by intro h; injection h with h1 _; exact absurd h1 (by decide)),
      if_neg (by intro h; injection h with h1 _; exact absurd h1 (by decide)),
      if_neg (by intro h; injection h with h1 _; exact absurd h1 (by decide)),
      if_neg (by intro h; injection h with h1 _; exact absurd h1 (by decide))]
  dsimp only
  rw [if_pos ⟨rfl, hlen⟩]
  simp only [List.tail_cons, hemp, hdig, Bool.not_false, Bool.and_self, if_true]

/-- C6 witness: with a three-entry dictionary, `$1` resolves to the second
entry and `$7` stays the literal string `$7`. -/
theorem goon_c6_dictionary_reference_witness :
    parsePrimitive ('$' :: "1".toList) ["x".toList, "y".toList, "z".toList] =
      .str "y".toList ∧
    parsePrimitive ('$' :: "7".toList) ["x".toList, "y".toList, "z".toList] =
      .str ('$' :: "7".toList) := by
  constructor
  · rw [goon_c6_dictionary_reference _ _ (by decide) (by decide)]
    decide
  · rw [goon_c6_dictionary_reference _ _ (by decide) (by decide)]
    decide

theorem utf8ByteLen_replicate (n : Nat) (c : Char) :
    utf8ByteLen (List.replicate n c) = n * c.utf8Size := by
  induction n with
  | zero => simp [utf8ByteLen]
  | succ m ih =>
      unfold utf8ByteLen at *
      simp only [List.replicate_succ, List.map_cons, List.sum_cons, ih]
      ring

theorem splitOnChar_not_mem (sep : Char) (s : Chars) (h : sep ∉ s) :
    splitOnChar sep s = [s] := by
  induction s with
  | nil => rfl
  | cons c cs ih =>
      unfold splitOnChar
      have hc : ¬(c = sep) := fun hh => h (hh ▸ List.mem_cons_self c cs)
      rw [if_neg hc, ih (fun hm => h (List.mem_cons_of_mem c hm))]

theorem dropWhile_isJsSpace_replicate (n : Nat) :
    (List.replicate n ' ').dropWhile isJsSpace = [] := by
  induction n with
  | zero => rfl
  | succ m ih =>
      rw [List.replicate_succ, List.dropWhile_cons, if_pos (by decide)]
      exact ih

theorem jsTrim_replicate_space (n : Nat) : jsTrim (List.replicate n ' ') = [] := by
  unfold jsTrim
  rw [dropWhile_isJsSpace_replicate]
  rfl

/-- C9 counterexample: an all-whitespace input one byte over the size
ceiling is whitespace-only (its single line trims to nothing), yet decoding
raises the input-size error instead of returning null. -/
theorem goon_c9_counterexample :
    splitOnChar '\n' bigWhitespace = [bigWhitespace] ∧
    jsTrim bigWhitespace = [] ∧
    goonDecode bigWhitespace = .error (.inputSize (MAX_INPUT_SIZE + 1) MAX_INPUT_SIZE) := by
  have hlen : utf8ByteLen bigWhitespace = MAX_INPUT_SIZE + 1 := by
    unfold bigWhitespace
    rw [utf8ByteLen_replicate]
    decide
  refine ⟨?_, ?_, ?_⟩
  · exact splitOnChar_not_mem _ _ (by
      intro hm
      have := List.eq_of_mem_replicate hm
      exact absurd this (by decide))
  · exact jsTrim_replicate_space _
  · unfold goonDecode
    rw [hlen, if_pos (by omega)]

/-- C9 (corrected): for every input within the input-size ceiling that is
empty or consists only of blank or whitespace-only lines, and for every
within-limit input whose only non-blank line is a dictionary line starting
with `$:`, decode returns null rather than raising an error or returning an
empty container. -/
theorem goon_c9_blank_or_dictionary_only :
    (∀ input : Chars, utf8ByteLen input ≤ MAX_INPUT_SIZE →
      (∀ l ∈ splitOnChar '\n' input, jsTrim l = []) →
      goonDecode input = .ok .null) ∧
    (∀ (input l : Chars), utf8ByteLen input ≤ MAX_INPUT_SIZE →
      (splitOnChar '\n' input).filter (fun x => !(jsTrim x).isEmpty) = [l] →
      "$:".toList.isPrefixOf l = true →
      goonDecode input = .ok .null) := by
  constructor
  · intro input hsize hblank
    unfold goonDecode
    rw [if_neg (by omega)]
    have hfil : (splitOnChar '\n' input).filter (fun l => !(jsTrim l).isEmpty) = [] := by
      rw [List.filter_eq_nil_iff]
      intro a ha
      simp [hblank a ha]
    rw [hfil]
  · intro input l hsize hfil hpre
    unfold goonDecode
    rw [if_neg (by omega), hfil]
    simp [hpre]
    intro hcon
    exact absurd (by simpa using hpre) hcon

/-- C9 witness: a whitespace-only input and a dictionary-only input both
decode to null. -/
theorem goon_c9_blank_or_dictionary_only_witness :
    goonDecode " \n \n ".toList = .ok .null ∧
    goonDecode "$:abc,def".toList = .ok .null := by
  constructor
  · exact goon_c9_blank_or_dictionary_only.1 _ (by decide) (by decide)
  · exact goon_c9_blank_or_dictionary_only.2 _ "$:abc,def".toList (by decide) (by decide)
      (by decide)

theorem splitOnChar_append_sep (sep : Char) (l t : Chars) (h : sep ∉ l) :
    splitOnChar sep (l ++ sep :: t) = l :: splitOnChar sep t := by
  induction l with
  | nil =>
      show splitOnChar sep (sep :: t) = [] :: splitOnChar sep t
      conv_lhs => unfold splitOnChar
      rw [if_pos rfl]
  | cons c cs ih =>
      have hc : ¬(c = sep) := fun hh => h (hh ▸ List.mem_cons_self c cs)
      have ih' := ih (fun hm => h (List.mem_cons_of_mem c hm))
      show splitOnChar sep (c :: (cs ++ sep :: t)) = (c :: cs) :: splitOnChar sep t
      conv_lhs => unfold splitOnChar
      rw [if_neg hc, ih']

theorem intercalate_cons_cons (s a b : Chars) (t : List Chars) :
    List.intercalate s (a :: b :: t) = a ++ s ++ List.intercalate s (b :: t) := by
  simp [List.intercalate, List.intersperse]

theorem splitOnChar_intercalate (sep : Char) (ls : List Chars)
    (hne : ls ≠ []) (h : ∀ l ∈ ls, sep ∉ l) :
    splitOnChar sep (List.intercalate [sep] ls) = ls := by
  induction ls with
  | nil => exact absurd rfl hne
  | cons a t ih =>
      cases t with
      | nil =>
          have hs : List.intercalate [sep] [a] = a := by
            simp [List.intercalate, List.intersperse]
          rw [hs]
          exact splitOnChar_not_mem sep a (h a (List.mem_cons_self a []))
      | cons b t' =>
          rw [intercalate_cons_cons]
          rw [List.append_assoc, List.singleton_append]
          rw [splitOnChar_append_sep sep a _ (h a (List.mem_cons_self a _))]
          rw [ih (by simp) (fun l hl => h l (List.mem_cons_of_mem a hl))]


theorem isPrefixOf_head_ne {indent s : Chars} {a : Char} (hi : indent.head? = some a)
    (hs : s.head? ≠ some a) : indent.isPrefixOf s = false := by
  cases indent with
  | nil => simp at hi
  | cons b bs =>
      injection hi with hb
      cases s with
      | nil => rfl
      | cons c cs =>
          have hc : ¬(b == c) = true := by
            intro hh
            have hbc : b = c := eq_of_beq hh
            exact hs (by rw [List.head?_cons, ← hbc, hb])
          simp only [List.isPrefixOf, Bool.and_eq_false_iff]
          simp only [Bool.not_eq_true] at hc
          left
          exact hc

theorem indentLevelAux_head_ne {indent s : Chars} {a : Char} (f : Nat)
    (hi : indent.head? = some a) (hs : s.head? ≠ some a) :
    indentLevelAux indent f s = 0 := by
  cases f with
  | zero => rfl
  | succ g =>
      unfold indentLevelAux
      rw [isPrefixOf_head_ne hi hs]
      simp

theorem getIndentLevel_head_ne {indent s : Chars} {a : Char}
    (hi : indent.head? = some a) (hs : s.head? ≠ some a) :
    getIndentLevel s indent = 0 := by
  unfold getIndentLevel
  split
  · rfl
  · exact indentLevelAux_head_ne _ hi hs

theorem indentLevelAux_single_space :
    ∀ (f k : Nat) (s : Chars), k + s.length ≤ f → s.head? ≠ some ' ' →
      indentLevelAux [' '] f (List.replicate k ' ' ++ s) = k := by
  intro f
  induction f with
  | zero =>
      intro k s hf hs
      have hk : k = 0 := by omega
      have hsl : s.length = 0 := by omega
      have hsn : s = [] := List.length_eq_zero.mp hsl
      subst hk
      subst hsn
      rfl
  | succ g ih =>
      intro k s hf hs
      cases k with
      | zero =>
          show indentLevelAux [' '] (g + 1) s = 0
          exact indentLevelAux_head_ne _ rfl hs
      | succ m =>
          rw [List.replicate_succ]
          show indentLevelAux [' '] (g + 1) (' ' :: (List.replicate m ' ' ++ s)) = m + 1
          unfold indentLevelAux
          rw [if_pos (by simp [List.isPrefixOf])]
          have hd : (' ' :: (List.replicate m ' ' ++ s)).drop ([' '] : Chars).length
              = List.replicate m ' ' ++ s := rfl
          rw [hd, ih m s (by omega) hs]
          omega

theorem getIndentLevel_single_space (k : Nat) (s : Chars) (hs : s.head? ≠ some ' ') :
    getIndentLevel (List.replicate k ' ' ++ s) [' '] = k := by
  unfold getIndentLevel
  rw [if_neg (by simp)]
  exact indentLevelAux_single_space _ k s (by simp) hs

theorem dropWhile_isJsSpace_replicate_append (n : Nat) (s : Chars) :
    (List.replicate n ' ' ++ s).dropWhile isJsSpace = s.dropWhile isJsSpace := by
  induction n with
  | zero => rfl
  | succ m ih =>
      rw [List.replicate_succ, List.cons_append, List.dropWhile_cons, if_pos (by decide)]
      exact ih

theorem jsTrim_replicate_space_append (n : Nat) (s : Chars) :
    jsTrim (List.replicate n ' ' ++ s) = jsTrim s := by
  unfold jsTrim
  rw [dropWhile_isJsSpace_replicate_append]

theorem nestObjV_encodeObject_error :
    ∀ (n g r depth : Nat) (lines : List Chars) (pk : Option Chars)
      (opts : EncodeOptions) (dict : Dictionary),
      MAX_RECURSION_DEPTH ≤ r + n → 2 * (MAX_RECURSION_DEPTH - r) < g →
      encodeObject g [("nested".toList, nestObjV n)] depth opts dict lines pk r =
        .error (.maxDepth MAX_RECURSION_DEPTH) := by
  intro n
  induction n with
  | zero =>
      intro g r depth lines pk opts dict hr hg
      have hr' : MAX_RECURSION_DEPTH ≤ r := by omega
      obtain ⟨g', rfl⟩ : ∃ g', g = g' + 1 := ⟨g - 1, by omega⟩
      unfold encodeObject
      rw [if_pos hr']
  | succ m ih =>
      intro g r depth lines pk opts dict hr hg
      by_cases hcase : MAX_RECURSION_DEPTH ≤ r
      · obtain ⟨g', rfl⟩ : ∃ g', g = g' + 1 := ⟨g - 1, by omega⟩
        unfold encodeObject
        rw [if_pos hcase]
      · have hrlt : r < MAX_RECURSION_DEPTH := by omega
        obtain ⟨g', rfl⟩ : ∃ g', g = g' + 2 := ⟨g - 2, by
          have : 1 ≤ MAX_RECURSION_DEPTH - r := by omega
          omega⟩
        show encodeObject (g' + 1 + 1) _ _ _ _ _ _ _ = _
        unfold encodeObject
        rw [if_neg hcase]
        have hsafe : isSafeKey "nested".toList = true := by decide
        simp only [List.filter_cons, hsafe, List.filter_nil, if_true, List.isEmpty_cons]
        unfold encodeEntries
        rw [show nestObjV (m + 1) = .obj [("nested".toList, nestObjV m)] from rfl]
        simp only [Bool.false_eq_true, if_false]
        rw [ih g' (r + 1) _ _ _ opts dict (by omega) (by
          have : MAX_RECURSION_DEPTH - (r + 1) + 1 = MAX_RECURSION_DEPTH - r := by omega
          omega)]

theorem deepLines_get_lt (k : Nat) (hk : k < 100) :
    deepLines.get? k = some (List.replicate k ' ' ++ "nested".toList) := by
  unfold deepLines
  rw [List.get?_append (by simpa using hk), List.get?_map, List.get?_range hk]
  rfl

theorem deepLines_get_last :
    deepLines.get? 100 = some (List.replicate 100 ' ' ++ "x: 1".toList) := by
  unfold deepLines
  rw [List.get?_append_right (by simp)]
  simp

theorem deepCtx_depth_bump (i d : Nat) :
    ({ deepCtx i d with depth := (deepCtx i d).depth + 1 } : ParseCtx) = deepCtx i (d + 1) := rfl

theorem deepCtx_get (i d : Nat) :
    (deepCtx i d).lines.get? (deepCtx i d).index = deepLines.get? i := rfl

theorem bumpCtx_deepCtx (i d : Nat) : bumpCtx (deepCtx i d) = deepCtx (i + 1) d := rfl

theorem parseObject_deep_error :
    ∀ (m f : Nat), m ≤ 100 → 2 * m + 2 < f →
      parseObject f (deepCtx (100 - m) (100 - m)) (((100 - m : Nat) : Int)) =
        .error (.maxDepth MAX_RECURSION_DEPTH 101) := by
  intro m
  induction m with
  | zero =>
      intro f hm hf
      obtain ⟨g, rfl⟩ : ∃ g, f = g + 1 := ⟨f - 1, by omega⟩
      unfold parseObject
      rw [if_pos (by simp only [deepCtx, MAX_RECURSION_DEPTH]; omega)]
      norm_num [deepCtx]
  | succ p ih =>
      intro f hm hf
      obtain ⟨g, rfl⟩ : ∃ g, f = g + 2 := ⟨f - 2, by omega⟩
      set k := 100 - (p + 1) with hkdef
      have hklt : k < 100 := by omega
      have hk1 : k + 1 = 100 - p := by omega
      show parseObject (g + 1 + 1) _ _ = _
      unfold parseObject
      rw [if_neg (by simp only [deepCtx, MAX_RECURSION_DEPTH]; omega)]
      rw [deepCtx_depth_bump]
      have hloop : parseObjLoop (g + 1) (deepCtx k (k + 1)) ((k : Nat) : Int) [] =
          .error (.maxDepth MAX_RECURSION_DEPTH 101) := by
        show parseObjLoop (g + 1) _ _ _ = _
        unfold parseObjLoop
        rw [deepCtx_get, deepLines_get_lt k hklt]
        simp only [show (deepCtx k (k + 1)).indent = [' '] from rfl,
          show (deepCtx k (k + 1)).dictionary = [] from rfl,
          getIndentLevel_single_space k "nested".toList (by decide),
          jsTrim_replicate_space_append,
          show jsTrim "nested".toList = "nested".toList from by decide,
          lt_self_iff_false, if_false,
          show keyValueMatch "nested".toList = none from by decide,
          show emptyContainerMatch charLB charRB "nested".toList = none from by decide,
          show emptyContainerMatch '[' ']' "nested".toList = none from by decide,
          show tabularMatch "nested".toList = none from by decide,
          show simpleArrMatch "nested".toList = none from by decide,
          show nestedKeyMatch "nested".toList = some "nested".toList from by decide,
          bumpCtx_deepCtx]
        by_cases hnext : k + 1 < 100
        · rw [deepCtx_get, deepLines_get_lt (k + 1) hnext]
          simp only [getIndentLevel_single_space (k + 1) "nested".toList (by decide)]
          rw [if_pos (⟨by decide, by omega⟩ : isSafeKey "nested".toList = true ∧ k < k + 1)]
          rw [hk1]
          rw [ih g (by omega) (by omega)]
        · have hk100 : k + 1 = 100 := by omega
          rw [deepCtx_get, hk100, deepLines_get_last]
          simp only [getIndentLevel_single_space 100 "x: 1".toList (by decide)]
          rw [if_pos (⟨by decide, by omega⟩ :
            isSafeKey "nested".toList = true ∧ k < 100)]
          have hp : p = 0 := by omega
          subst hp
          have hih := ih g (by omega) (by omega)
          simp only [Nat.sub_zero] at hih
          rw [hih]
      rw [hloop]

theorem deepLines_no_newline : ∀ l ∈ deepLines, '\n' ∉ l := by
  intro l hl
  unfold deepLines at hl
  rcases List.mem_append.mp hl with hm | hm
  · obtain ⟨i, _, rfl⟩ := List.mem_map.mp hm
    intro hmem
    rcases List.mem_append.mp hmem with hsp | hns
    · exact absurd (List.eq_of_mem_replicate hsp) (by decide)
    · exact absurd hns (by decide)
  · rw [List.mem_singleton] at hm
    subst hm
    intro hmem
    rcases List.mem_append.mp hmem with hsp | hns
    · exact absurd (List.eq_of_mem_replicate hsp) (by decide)
    · exact absurd hns (by decide)

theorem deepLines_filter :
    deepLines.filter (fun l => !(jsTrim l).isEmpty) = deepLines := by
  rw [List.filter_eq_self]
  intro l hl
  unfold deepLines at hl
  rcases List.mem_append.mp hl with hm | hm
  · obtain ⟨i, _, rfl⟩ := List.mem_map.mp hm
    show (!(jsTrim _).isEmpty) = true
    rw [jsTrim_replicate_space_append]
    decide
  · rw [List.mem_singleton] at hm
    subst hm
    show (!(jsTrim _).isEmpty) = true
    rw [jsTrim_replicate_space_append]
    decide

theorem utf8ByteLen_le (s : Chars) : utf8ByteLen s ≤ 4 * s.length := by
  induction s with
  | nil => simp [utf8ByteLen]
  | cons c cs ih =>
      have hc : c.utf8Size ≤ 4 := Char.utf8Size_le_four c
      simp only [utf8ByteLen, List.map_cons, List.sum_cons, List.length_cons] at ih ⊢
      omega

theorem intercalate_newline_length_le :
    ∀ (ls : List Chars), (∀ l ∈ ls, l.length ≤ 106) →
      (List.intercalate ['\n'] ls).length ≤ 107 * ls.length := by
  intro ls
  induction ls with
  | nil =>
      intro _
      simp [List.intercalate]
  | cons a t ih =>
      intro h
      cases t with
      | nil =>
          have h1 : List.intercalate ['\n'] [a] = a := by
            simp [List.intercalate, List.intersperse]
          rw [h1]
          have := h a (List.mem_cons_self a [])
          simp only [List.length_cons, List.length_nil]
          omega
      | cons b t' =>
          rw [intercalate_cons_cons]
          have ha := h a (List.mem_cons_self _ _)
          have ht := ih (fun l hl => h l (List.mem_cons_of_mem a hl))
          simp only [List.length_append, List.length_cons, List.length_nil] at ht ⊢
          omega

theorem deepLines_len_le : ∀ l ∈ deepLines, l.length ≤ 106 := by
  intro l hl
  unfold deepLines at hl
  rcases List.mem_append.mp hl with hm | hm
  · obtain ⟨i, hi, rfl⟩ := List.mem_map.mp hm
    rw [List.mem_range] at hi
    have h6 : ("nested".toList).length = 6 := rfl
    rw [List.length_append, List.length_replicate, h6]
    omega
  · rw [List.mem_singleton] at hm
    subst hm
    have h4 : ("x: 1".toList).length = 4 := rfl
    rw [List.length_append, List.length_replicate, h4]
    omega

theorem goonDecode_deep_error :
    goonDecode deepText = .error (.maxDepth MAX_RECURSION_DEPTH 101) := by
  have hsize : ¬ MAX_INPUT_SIZE < utf8ByteLen deepText := by
    have h1 : utf8ByteLen deepText ≤ 4 * deepText.length := utf8ByteLen_le _
    have h2 : deepText.length ≤ 107 * deepLines.length := by
      exact intercalate_newline_length_le deepLines deepLines_len_le
    have h3 : deepLines.length = 101 := by
      unfold deepLines
      rw [List.length_append, List.length_map, List.length_range]
      simp
    rw [h3] at h2
    simp only [MAX_INPUT_SIZE]
    omega
  have hcons : deepLines = "nested".toList :: deepTail := rfl
  have hsplit : splitOnChar '\n' deepText = deepLines :=
    splitOnChar_intercalate '\n' deepLines (by rw [hcons]; exact List.cons_ne_nil _ _)
      deepLines_no_newline
  have hroot : parseRoot (1063 + 1) (deepCtx 0 0) =
      .error (.maxDepth MAX_RECURSION_DEPTH 101) := by
    unfold parseRoot
    rw [deepCtx_get,
      show deepLines.get? 0 = some (List.replicate 0 ' ' ++ "nested".toList) from
        deepLines_get_lt 0 (by omega)]
    simp only [List.replicate_zero, List.nil_append,
      show jsTrim "nested".toList = "nested".toList from by decide]
    rw [if_neg (by decide), if_neg (by decide)]
    simp only [show standaloneTabularMatch "nested".toList = none from by decide,
      show standaloneSimpleArrMatch "nested".toList = none from by decide,
      show looksLikeObjectLine "nested".toList = true from by decide, if_true]
    have h := parseObject_deep_error 100 1063 (by omega) (by omega)
    norm_num at h
    exact h
  simp only [goonDecode]
  rw [if_neg hsize, hsplit, deepLines_filter, hcons]
  simp only [show ("$:".toList.isPrefixOf "nested".toList) = false from by decide,
    Bool.false_eq_true, if_false]
  rw [if_neg (by simp : ¬ ("nested".toList :: deepTail).length ≤ 0)]
  rw [show detectIndent ("nested".toList :: deepTail) = [' '] from by decide]
  rw [← hcons]
  rw [show decodeFuel deepLines = 1063 + 1 from by decide]
  rw [show (ParseCtx.mk deepLines 0 [] [' '] 0) = deepCtx 0 0 from rfl]
  rw [hroot]

theorem goonEncode_deep_error (opts : EncodeOptions) :
    goonEncode opts (nestObjV 101) = .error (.maxDepth MAX_RECURSION_DEPTH) := by
  have henc : ∀ (dict : Dictionary) (lines0 : List Chars),
      encodeValue (encodeGas (nestObjV 101)) (nestObjV 101) 0 opts dict lines0 none 0 =
        .error (.maxDepth MAX_RECURSION_DEPTH) := by
    intro dict lines0
    rw [show encodeGas (nestObjV 101) = 661 + 1 from by decide]
    unfold encodeValue
    rw [if_neg (by norm_num [MAX_RECURSION_DEPTH])]
    rw [show nestObjV 101 = GoonValue.obj [("nested".toList, nestObjV 100)] from rfl]
    exact nestObjV_encodeObject_error 100 661 1 0 lines0 none opts dict
      (by norm_num [MAX_RECURSION_DEPTH]) (by norm_num [MAX_RECURSION_DEPTH])
  simp only [goonEncode]
  rw [henc]

/-- C2: the resource limits are enforced — (i) encoding a structure nested
101 objects deep fails with the recursion-limit error naming the limit 100,
for every option record; (ii) decoding a document nested 101 levels deep
fails with the recursion-limit error naming limit 100 (at line 101);
(iii) a run-length suffix with nominal count 999,999,999 decodes to an
array clamped to exactly MAX_REPEAT_COUNT = 10,000 elements; (iv) any
input over the 10-MiB size ceiling fails with the input-size error (no
value is produced). -/
theorem goon_c2_resource_limits :
    (∀ opts : EncodeOptions, goonEncode opts (nestObjV 101) =
      .error (.maxDepth MAX_RECURSION_DEPTH)) ∧
    goonDecode deepText = .error (.maxDepth MAX_RECURSION_DEPTH 101) ∧
    goonDecode "items[]:1*999999999".toList =
      .ok (.obj [("items".toList, .arr (List.replicate MAX_REPEAT_COUNT (.num 1)))]) ∧
    (∀ input : Chars, MAX_INPUT_SIZE < utf8ByteLen input →
      goonDecode input = .error (.inputSize (utf8ByteLen input) MAX_INPUT_SIZE)) := by
  refine ⟨goonEncode_deep_error, goonDecode_deep_error, ?_, ?_⟩
  · rfl
  · intro input h
    unfold goonDecode
    rw [if_pos h]

/-- C2 witness: an 11 MiB all-`a` input exceeds the ceiling, and decoding
it raises the input-size error. -/
theorem goon_c2_resource_limits_witness :
    MAX_INPUT_SIZE < utf8ByteLen (List.replicate (11 * 1024 * 1024) 'a') ∧
    goonDecode (List.replicate (11 * 1024 * 1024) 'a') =
      .error (.inputSize (utf8ByteLen (List.replicate (11 * 1024 * 1024) 'a'))
        MAX_INPUT_SIZE) := by
  have hgt : MAX_INPUT_SIZE < utf8ByteLen (List.replicate (11 * 1024 * 1024) 'a') := by
    rw [utf8ByteLen_replicate, show ('a').utf8Size = 1 from rfl]
    norm_num [MAX_INPUT_SIZE]
  exact ⟨hgt, goon_c2_resource_limits.2.2.2 _ hgt⟩

theorem bumpCount_mem {s : Chars} {p : Chars × Nat} :
    ∀ {l : List (Chars × Nat)}, p ∈ bumpCount l s →
      p.1 ∈ l.map Prod.fst ∨ p.1 = s := by
  intro l
  induction l with
  | nil =>
      intro hp
      rw [bumpCount] at hp
      rcases List.mem_singleton.mp hp with rfl
      exact Or.inr rfl
  | cons kv rest ih =>
      obtain ⟨k, n⟩ := kv
      intro hp
      rw [bumpCount] at hp
      by_cases hk : k = s
      · rw [if_pos hk] at hp
        rcases List.mem_cons.mp hp with h | h
        · subst h
          exact Or.inl (by simp)
        · exact Or.inl (by
            rcases List.mem_map.mp (List.mem_map_of_mem Prod.fst h) with ⟨q, hq, hq1⟩
            exact hq1 ▸ List.mem_map_of_mem Prod.fst (List.mem_cons_of_mem _ hq))
      · rw [if_neg hk] at hp
        rcases List.mem_cons.mp hp with h | h
        · subst h
          exact Or.inl (by simp)
        · rcases ih h with h' | h'
          · rcases List.mem_map.mp h' with ⟨q, hq, hq1⟩
            exact Or.inl (hq1 ▸ List.mem_map_of_mem Prod.fst (List.mem_cons_of_mem _ hq))
          · exact Or.inr h'

theorem bumpCount_keys (s : Chars) :
    ∀ (l : List (Chars × Nat)),
      (bumpCount l s).map Prod.fst =
        if s ∈ l.map Prod.fst then l.map Prod.fst else l.map Prod.fst ++ [s] := by
  intro l
  induction l with
  | nil => simp [bumpCount]
  | cons kv rest ih =>
      obtain ⟨k, n⟩ := kv
      rw [bumpCount]
      by_cases hk : k = s
      · rw [if_pos hk, if_pos (by simp [hk])]
        simp
      · rw [if_neg hk]
        by_cases hm : s ∈ rest.map Prod.fst
        · rw [if_pos (by simp [hm])]
          simp only [List.map_cons]
          rw [ih, if_pos hm]
        · rw [if_neg (by
            simp only [List.map_cons, List.mem_cons]
            push_neg
            exact ⟨fun h => hk h.symm, hm⟩)]
          simp only [List.map_cons]
          rw [ih, if_neg hm]
          simp

theorem bumpCount_nodup {s : Chars} {l : List (Chars × Nat)}
    (h : (l.map Prod.fst).Nodup) : ((bumpCount l s).map Prod.fst).Nodup := by
  rw [bumpCount_keys]
  by_cases hm : s ∈ l.map Prod.fst
  · rw [if_pos hm]
    exact h
  · rw [if_neg hm]
    simp [List.nodup_append, h, hm]

mutual

theorem scanAccPres (minLen : Nat) (Φ : List (Chars × Nat) → Prop)
    (hbump : ∀ acc s, Φ acc → minLen ≤ s.length → Φ (bumpCount acc s)) :
    ∀ (v : GoonValue) (depth : Nat) (acc : List (Chars × Nat)),
      Φ acc → Φ (scanStrings minLen v depth acc)
  | .null, _, _, h => h
  | .bool _, _, _, h => h
  | .num _, _, _, h => h
  | .str s, depth, acc, h => by
      rw [scanStrings]
      by_cases h1 : MAX_RECURSION_DEPTH < depth
      · rw [if_pos h1]
        exact h
      · rw [if_neg h1]
        by_cases h2 : minLen ≤ s.length
        · rw [if_pos h2]
          exact hbump acc s h h2
        · rw [if_neg h2]
          exact h
  | .arr xs, depth, acc, h => by
      rw [scanStrings]
      by_cases h1 : MAX_RECURSION_DEPTH < depth
      · rw [if_pos h1]
        exact h
      · rw [if_neg h1]
        exact scanAccPresL minLen Φ hbump xs (depth + 1) acc h
  | .obj fs, depth, acc, h => by
      rw [scanStrings]
      by_cases h1 : MAX_RECURSION_DEPTH < depth
      · rw [if_pos h1]
        exact h
      · rw [if_neg h1]
        exact scanAccPresF minLen Φ hbump fs (depth + 1) acc h

theorem scanAccPresL (minLen : Nat) (Φ : List (Chars × Nat) → Prop)
    (hbump : ∀ acc s, Φ acc → minLen ≤ s.length → Φ (bumpCount acc s)) :
    ∀ (xs : List GoonValue) (depth : Nat) (acc : List (Chars × Nat)),
      Φ acc → Φ (scanStringsL minLen xs depth acc)
  | [], _, _, h => h
  | x :: xs, depth, acc, h => by
      rw [scanStringsL]
      exact scanAccPresL minLen Φ hbump xs depth _
        (scanAccPres minLen Φ hbump x depth acc h)

theorem scanAccPresF (minLen : Nat) (Φ : List (Chars × Nat) → Prop)
    (hbump : ∀ acc s, Φ acc → minLen ≤ s.length → Φ (bumpCount acc s)) :
    ∀ (fs : List (Chars × GoonValue)) (depth : Nat) (acc : List (Chars × Nat)),
      Φ acc → Φ (scanStringsF minLen fs depth acc)
  | [], _, _, h => h
  | (_, v) :: fs, depth, acc, h => by
      rw [scanStringsF]
      exact scanAccPresF minLen Φ hbump fs depth _
        (scanAccPres minLen Φ hbump v depth acc h)

end

theorem lookupAssoc_mem_nodup {α : Type} {k : Chars} {v : α} :
    ∀ {l : List (Chars × α)}, (l.map Prod.fst).Nodup → (k, v) ∈ l →
      lookupAssoc l k = some v := by
  intro l
  induction l with
  | nil =>
      intro _ hm
      simp at hm
  | cons kv rest ih =>
      obtain ⟨k', v'⟩ := kv
      intro hnd hm
      rw [List.map_cons, List.nodup_cons] at hnd
      rcases List.mem_cons.mp hm with h | h
      · rw [Prod.mk.injEq] at h
        rw [lookupAssoc, if_pos h.1.symm, h.2]
      · rw [lookupAssoc]
        by_cases hk : k' = k
        · exact absurd (by rw [hk]; exact List.mem_map.mpr ⟨(k, v), h, rfl⟩) hnd.1
        · rw [if_neg hk]
          exact ih hnd.2 h

theorem mem_enumFrom_snd {α : Type} :
    ∀ (l : List α) (n : Nat) (p : Nat × α), p ∈ List.enumFrom n l → p.2 ∈ l := by
  intro l
  induction l with
  | nil =>
      intro n p hp
      simp [List.enumFrom] at hp
  | cons a t ih =>
      intro n p hp
      rw [List.enumFrom] at hp
      rcases List.mem_cons.mp hp with h | h
      · subst h
        exact List.mem_cons_self _ _
      · exact List.mem_cons_of_mem _ (ih (n + 1) p h)

theorem dictCandidates_mem {counts : List (Chars × Nat)} {minOcc : Nat} {c : DictCand}
    (hc : c ∈ dictCandidates counts minOcc) :
    (c.str, c.count) ∈ counts ∧ minOcc ≤ c.count := by
  unfold dictCandidates at hc
  rcases List.mem_map.mp hc with ⟨p, hp, rfl⟩
  have hmem : p.2 ∈ counts.filter (fun kv => minOcc ≤ kv.2) :=
    mem_enumFrom_snd _ 0 p hp
  rw [List.mem_filter] at hmem
  exact ⟨hmem.1, by exact_mod_cast of_decide_eq_true hmem.2⟩

theorem mem_insertCandDesc {x y : DictCand} :
    ∀ {l : List DictCand}, y ∈ insertCandDesc x l → y = x ∨ y ∈ l := by
  intro l
  induction l with
  | nil =>
      intro h
      rw [insertCandDesc] at h
      exact Or.inl (List.mem_singleton.mp h)
  | cons z zs ih =>
      intro h
      rw [insertCandDesc] at h
      by_cases hs : x.savings < z.savings
      · rw [if_pos hs] at h
        rcases List.mem_cons.mp h with h' | h'
        · exact Or.inr (h' ▸ List.mem_cons_self _ _)
        · rcases ih h' with h'' | h''
          · exact Or.inl h''
          · exact Or.inr (List.mem_cons_of_mem _ h'')
      · rw [if_neg hs] at h
        rcases List.mem_cons.mp h with h' | h'
        · exact Or.inl h'
        · exact Or.inr h'

theorem mem_sortCandsDesc {y : DictCand} :
    ∀ {l : List DictCand}, y ∈ sortCandsDesc l → y ∈ l := by
  intro l
  induction l with
  | nil =>
      intro h
      exact h
  | cons x xs ih =>
      intro h
      rw [sortCandsDesc] at h
      rcases mem_insertCandDesc h with h' | h'
      · exact h' ▸ List.mem_cons_self _ _
      · exact List.mem_cons_of_mem _ (ih h')

theorem insertCandDesc_pairwise {x : DictCand} :
    ∀ {l : List DictCand}, l.Pairwise (fun a b => b.savings ≤ a.savings) →
      (insertCandDesc x l).Pairwise (fun a b => b.savings ≤ a.savings) := by
  intro l
  induction l with
  | nil =>
      intro _
      simp [insertCandDesc]
  | cons y ys ih =>
      intro hp
      rw [List.pairwise_cons] at hp
      rw [insertCandDesc]
      by_cases hs : x.savings < y.savings
      · rw [if_pos hs, List.pairwise_cons]
        refine ⟨?_, ih hp.2⟩
        intro z hz
        rcases mem_insertCandDesc hz with rfl | hz'
        · exact le_of_lt hs
        · exact hp.1 z hz'
      · rw [if_neg hs, List.pairwise_cons]
        refine ⟨?_, List.pairwise_cons.mpr hp⟩
        intro z hz
        rcases List.mem_cons.mp hz with rfl | hz'
        · exact le_of_not_lt hs
        · exact le_trans (hp.1 z hz') (le_of_not_lt hs)

theorem sortCandsDesc_pairwise :
    ∀ (l : List DictCand),
      (sortCandsDesc l).Pairwise (fun a b => b.savings ≤ a.savings) := by
  intro l
  induction l with
  | nil => simp [sortCandsDesc]
  | cons x xs ih =>
      rw [sortCandsDesc]
      exact insertCandDesc_pairwise ih

theorem dictPickLoop_mem (counts : List (Chars × Nat)) (maxE : Nat) :
    ∀ (cands : List DictCand) (entries : List Chars) (lookup : List (Chars × Chars))
      (s : Chars),
      s ∈ (dictPickLoop counts maxE cands entries lookup).entries →
      s ∈ entries ∨ ∃ c ∈ cands, s = c.str ∧
        0 < ((c.str.length : Int) - 2) * (((lookupAssoc counts c.str).getD 0 : Nat) : Int) -
          ((c.str.length : Int) + 1) := by
  intro cands
  induction cands with
  | nil =>
      intro entries lookup s h
      rw [dictPickLoop] at h
      exact Or.inl h
  | cons c rest ih =>
      intro entries lookup s h
      simp only [dictPickLoop] at h
      by_cases hstop : 0 < maxE ∧ maxE ≤ entries.length
      · rw [if_pos hstop] at h
        exact Or.inl h
      · rw [if_neg hstop] at h
        by_cases hpos : 0 < ((c.str.length : Int) - 2) *
            (((lookupAssoc counts c.str).getD 0 : Nat) : Int) - ((c.str.length : Int) + 1)
        · rw [if_pos hpos] at h
          rcases ih _ _ s h with h' | ⟨c', hc', hs', hp'⟩
          · rcases List.mem_append.mp h' with h'' | h''
            · exact Or.inl h''
            · rw [List.mem_singleton] at h''
              exact Or.inr ⟨c, List.mem_cons_self _ _, h'', hpos⟩
          · exact Or.inr ⟨c', List.mem_cons_of_mem _ hc', hs', hp'⟩
        · rw [if_neg hpos] at h
          rcases ih _ _ s h with h' | ⟨c', hc', hs', hp'⟩
          · exact Or.inl h'
          · exact Or.inr ⟨c', List.mem_cons_of_mem _ hc', hs', hp'⟩

theorem dictPickLoop_length (counts : List (Chars × Nat)) (maxE : Nat) (hmax : 0 < maxE) :
    ∀ (cands : List DictCand) (entries : List Chars) (lookup : List (Chars × Chars)),
      entries.length ≤ maxE →
      (dictPickLoop counts maxE cands entries lookup).entries.length ≤ maxE := by
  intro cands
  induction cands with
  | nil =>
      intro entries lookup hlen
      rw [dictPickLoop]
      exact hlen
  | cons c rest ih =>
      intro entries lookup hlen
      simp only [dictPickLoop]
      by_cases hstop : 0 < maxE ∧ maxE ≤ entries.length
      · rw [if_pos hstop]
        exact hlen
      · rw [if_neg hstop]
        have hlt : entries.length < maxE := by
          rcases not_and_or.mp hstop with h | h
          · exact absurd hmax h
          · omega
        by_cases hpos : 0 < ((c.str.length : Int) - 2) *
            (((lookupAssoc counts c.str).getD 0 : Nat) : Int) - ((c.str.length : Int) + 1)
        · rw [if_pos hpos]
          exact ih _ _ (by simp; omega)
        · rw [if_neg hpos]
          exact ih _ _ hlen

theorem dictPickLoop_sublist (counts : List (Chars × Nat)) (maxE : Nat) :
    ∀ (cands : List DictCand) (entries : List Chars) (lookup : List (Chars × Chars)),
      ∃ picked : List DictCand, picked.Sublist cands ∧
        (dictPickLoop counts maxE cands entries lookup).entries =
          entries ++ picked.map DictCand.str := by
  intro cands
  induction cands with
  | nil =>
      intro entries lookup
      exact ⟨[], List.Sublist.refl _, by rw [dictPickLoop]; simp⟩
  | cons c rest ih =>
      intro entries lookup
      by_cases hstop : 0 < maxE ∧ maxE ≤ entries.length
      · refine ⟨[], List.nil_sublist _, ?_⟩
        simp only [dictPickLoop]
        rw [if_pos hstop]
        simp
      · by_cases hpos : 0 < ((c.str.length : Int) - 2) *
            (((lookupAssoc counts c.str).getD 0 : Nat) : Int) - ((c.str.length : Int) + 1)
        · obtain ⟨p, hsub, hres⟩ := ih (entries ++ [c.str])
            (lookup ++ [(c.str, refToken entries.length)])
          refine ⟨c :: p, List.Sublist.cons₂ c hsub, ?_⟩
          simp only [dictPickLoop]
          rw [if_neg hstop, if_pos hpos, hres]
          simp
        · obtain ⟨p, hsub, hres⟩ := ih entries lookup
          refine ⟨p, List.Sublist.cons c hsub, ?_⟩
          simp only [dictPickLoop]
          rw [if_neg hstop, if_neg hpos]
          exact hres

theorem dictCounts_inv (value : GoonValue) (minLen : Nat) :
    ((dictCounts value minLen).map Prod.fst).Nodup ∧
      ∀ p ∈ dictCounts value minLen, minLen ≤ p.1.length := by
  unfold dictCounts
  refine scanAccPres minLen
    (fun l => (l.map Prod.fst).Nodup ∧ ∀ p ∈ l, minLen ≤ p.1.length)
    ?_ value 0 [] ⟨List.nodup_nil, by simp⟩
  intro acc s h hs
  refine ⟨bumpCount_nodup h.1, ?_⟩
  intro p hp
  rcases bumpCount_mem hp with h' | h'
  · rcases List.mem_map.mp h' with ⟨q, hq, hq1⟩
    exact hq1 ▸ h.2 q hq
  · rw [h']
    exact hs

theorem buildDictionary_mem {value : GoonValue} {minLen minOcc maxE : Nat} {s : Chars}
    (h : s ∈ (buildDictionary value minLen minOcc maxE).entries) :
    minLen ≤ s.length ∧ minOcc ≤ dictCountOf value minLen s ∧
      0 < internedSavings value minLen s := by
  simp only [buildDictionary] at h
  rcases dictPickLoop_mem _ _ _ _ _ _ h with h' | ⟨c, hc, rfl, hpos⟩
  · simp at h'
  · have hkept := mem_sortCandsDesc hc
    rw [keptCandidates, List.mem_filter] at hkept
    obtain ⟨hcand, _⟩ := hkept
    obtain ⟨hmem, hocc⟩ := dictCandidates_mem hcand
    obtain ⟨hnd, hlen⟩ := dictCounts_inv value minLen
    have hlook : lookupAssoc (scanStrings minLen value 0 []) c.str = some c.count :=
      lookupAssoc_mem_nodup hnd hmem
    rw [hlook] at hpos
    rw [Option.getD_some] at hpos
    refine ⟨hlen _ hmem, ?_, ?_⟩
    · rw [dictCountOf, dictCounts, hlook, Option.getD_some]
      exact hocc
    · rw [internedSavings, dictCountOf, dictCounts, hlook, Option.getD_some]
      exact hpos

/-- C5 counterexample: the claim says candidates tied on savings are
ordered lexicographically, but the builder's stable sort keeps scan order.
In `vC5` the strings `"bbb"` and `"aaa"` have identical savings, yet the
dictionary lists `"bbb"` (scanned first) before `"aaa"`, so the claimed
lexicographic tie order is violated. -/
theorem goon_c5_counterexample :
    (buildDictionary vC5 3 2 8).entries = ["bbb".toList, "aaa".toList] ∧
    internedSavings vC5 3 "aaa".toList = internedSavings vC5 3 "bbb".toList ∧
    specLexTieOrdered (fun s => internedSavings vC5 3 s)
      (buildDictionary vC5 3 2 8).entries = false :=
  ⟨by decide, by decide, by decide⟩

/-- C5 (amended): the dictionary builder (i) keeps only strings meeting the
minimum-length and minimum-occurrence thresholds whose recomputed savings
are strictly positive; (ii) truncates to the maximum entry count when it is
positive (0 = unlimited); (iii) emits entries in the order of the stable
savings-descending sort of the kept candidates (ties keep scan order, not
lexicographic order); and (iv) for every interned string the dictionary
line plus two-character references cost strictly less than emitting every
counted occurrence verbatim. -/
theorem goon_c5_dictionary_builder :
    (∀ (value : GoonValue) (minLen minOcc maxE : Nat) (s : Chars),
        s ∈ (buildDictionary value minLen minOcc maxE).entries →
        minLen ≤ s.length ∧ minOcc ≤ dictCountOf value minLen s ∧
          0 < internedSavings value minLen s) ∧
    (∀ (value : GoonValue) (minLen minOcc maxE : Nat), 0 < maxE →
        (buildDictionary value minLen minOcc maxE).entries.length ≤ maxE) ∧
    (∀ (value : GoonValue) (minLen minOcc maxE : Nat),
        ∃ picked : List DictCand,
          picked.Sublist (sortCandsDesc (keptCandidates (dictCounts value minLen) minOcc)) ∧
          (buildDictionary value minLen minOcc maxE).entries = picked.map DictCand.str ∧
          (sortCandsDesc (keptCandidates (dictCounts value minLen) minOcc)).Pairwise
            (fun a b => b.savings ≤ a.savings)) ∧
    (∀ (value : GoonValue) (minLen minOcc maxE : Nat) (s : Chars),
        s ∈ (buildDictionary value minLen minOcc maxE).entries →
        ((s.length : Int) + 1) + 2 * (dictCountOf value minLen s : Int) <
          (s.length : Int) * (dictCountOf value minLen s : Int)) := by
  refine ⟨fun value minLen minOcc maxE s h => buildDictionary_mem h, ?_, ?_, ?_⟩
  · intro value minLen minOcc maxE hmax
    simp only [buildDictionary]
    exact dictPickLoop_length _ _ hmax _ _ _ (by simp)
  · intro value minLen minOcc maxE
    obtain ⟨p, hsub, hres⟩ := dictPickLoop_sublist (scanStrings minLen value 0 [])
      maxE (sortCandsDesc (keptCandidates (scanStrings minLen value 0 []) minOcc)) [] []
    refine ⟨p, hsub, ?_, sortCandsDesc_pairwise _⟩
    simp only [buildDictionary]
    rw [hres]
    simp
  · intro value minLen minOcc maxE s h
    obtain ⟨-, -, hpos⟩ := buildDictionary_mem h
    rw [internedSavings] at hpos
    have h2 : ((s.length : Int) - 2) * (dictCountOf value minLen s : Int) -
        ((s.length : Int) + 1) =
        (s.length : Int) * (dictCountOf value minLen s : Int) -
          2 * (dictCountOf value minLen s : Int) - (s.length : Int) - 1 := by ring
    rw [h2] at hpos
    linarith

/-- C5 witness: in `vC5` the string `"bbb"` is interned; it meets the
thresholds, the entry cap holds, and its dictionary overhead beats
verbatim emission. -/
theorem goon_c5_dictionary_builder_witness :
    "bbb".toList ∈ (buildDictionary vC5 3 2 8).entries ∧
    (buildDictionary vC5 3 2 8).entries.length ≤ 8 ∧
    (3 ≤ ("bbb".toList).length ∧ 2 ≤ dictCountOf vC5 3 "bbb".toList ∧
      0 < internedSavings vC5 3 "bbb".toList) ∧
    ((("bbb".toList).length : Int) + 1) + 2 * (dictCountOf vC5 3 "bbb".toList : Int) <
      (("bbb".toList).length : Int) * (dictCountOf vC5 3 "bbb".toList : Int) := by
  have hmem : "bbb".toList ∈ (buildDictionary vC5 3 2 8).entries := by decide
  exact ⟨hmem, goon_c5_dictionary_builder.2.1 vC5 3 2 8 (by decide),
    goon_c5_dictionary_builder.1 vC5 3 2 8 _ hmem,
    goon_c5_dictionary_builder.2.2.2 vC5 3 2 8 _ hmem⟩

theorem safeVal_of_isPrimitive {v : GoonValue} (h : isPrimitive v = true) :
    safeVal v = true := by
  cases v <;> simp_all [safeVal, isPrimitive]

theorem isPrimitive_parsePrimitive (s : Chars) (dict : List Chars) :
    isPrimitive (parsePrimitive s dict) = true := by
  unfold parsePrimitive
  split
  · rfl
  split
  · rfl
  split
  · rfl
  split
  · rfl
  split
  · by_cases hd : (!(List.tail s).isEmpty && (List.tail s).all Char.isDigit) = true
    · simp only [hd]
      rw [if_pos trivial]
      split
      · rename_i x v heq
        rw [← Option.some.inj heq]
        split
        · rfl
        · rfl
      · split
        · rfl
        · split
          · split
            · rfl
            · rfl
          · rfl
    · simp only [Bool.not_eq_true] at hd
      simp only [hd, Bool.false_eq_true, if_false]
      split
      · rfl
      · split
        · split
          · rfl
          · rfl
        · rfl
  · split
    · rfl
    · split
      · split
        · rfl
        · rfl
      · rfl

theorem safeVal_parsePrimitive (s : Chars) (dict : List Chars) :
    safeVal (parsePrimitive s dict) = true :=
  safeVal_of_isPrimitive (isPrimitive_parsePrimitive s dict)

theorem safeVal_parseCell (cell : Chars) (dict : List Chars) :
    safeVal (parseCell cell dict).1 = true := by
  unfold parseCell
  repeat' split
  all_goals try exact safeVal_parsePrimitive _ _
  all_goals dsimp only
  repeat' split
  all_goals exact safeVal_parsePrimitive _ _

theorem safeValL_iff : ∀ (xs : List GoonValue),
    safeValL xs = true ↔ ∀ x ∈ xs, safeVal x = true := by
  intro xs
  induction xs with
  | nil => simp [safeValL]
  | cons x xs ih =>
      rw [safeValL, Bool.and_eq_true, ih]
      constructor
      · intro h y hy
        rcases List.mem_cons.mp hy with rfl | hy'
        · exact h.1
        · exact h.2 y hy'
      · intro h
        exact ⟨h x (List.mem_cons_self _ _), fun y hy => h y (List.mem_cons_of_mem _ hy)⟩

theorem safeValF_iff : ∀ (fs : List (Chars × GoonValue)),
    safeValF fs = true ↔ ∀ p ∈ fs, isSafeKey p.1 = true ∧ safeVal p.2 = true := by
  intro fs
  induction fs with
  | nil => simp [safeValF]
  | cons kv fs ih =>
      obtain ⟨k, v⟩ := kv
      rw [safeValF, Bool.and_eq_true, Bool.and_eq_true, ih]
      constructor
      · intro h p hp
        rcases List.mem_cons.mp hp with rfl | hp'
        · exact ⟨h.1.1, h.1.2⟩
        · exact h.2 p hp'
      · intro h
        exact ⟨⟨(h (k, v) (List.mem_cons_self _ _)).1, (h (k, v) (List.mem_cons_self _ _)).2⟩,
          fun p hp => h p (List.mem_cons_of_mem _ hp)⟩

theorem safeValF_setField {obj : List (Chars × GoonValue)} {k : Chars} {v : GoonValue}
    (hobj : safeValF obj = true) (hk : isSafeKey k = true) (hv : safeVal v = true) :
    safeValF (setField obj k v) = true := by
  rw [safeValF_iff] at hobj ⊢
  induction obj with
  | nil =>
      intro p hp
      rw [setField] at hp
      rcases List.mem_singleton.mp hp with rfl
      exact ⟨hk, hv⟩
  | cons kw rest ih =>
      obtain ⟨k', w⟩ := kw
      intro p hp
      rw [setField] at hp
      by_cases hkk : k' = k
      · rw [if_pos hkk] at hp
        rcases List.mem_cons.mp hp with rfl | hp'
        · exact ⟨hkk ▸ hk, hv⟩
        · exact hobj p (List.mem_cons_of_mem _ hp')
      · rw [if_neg hkk] at hp
        rcases List.mem_cons.mp hp with rfl | hp'
        · exact hobj _ (List.mem_cons_self _ _)
        · exact ih (fun q hq => hobj q (List.mem_cons_of_mem _ hq)) p hp'

theorem parseRowLoop_safe (dict : List Chars) (delim : Char) :
    ∀ (s current : Chars) (inQ esc : Bool) (cells : List GoonValue),
      (∀ v ∈ cells, safeVal v = true) →
      ∀ v ∈ parseRowLoop dict delim s current inQ esc cells, safeVal v = true := by
  intro s
  induction s with
  | nil =>
      intro current inQ esc cells hc v hv
      simp only [parseRowLoop] at hv
      split at hv
      · exact hc v hv
      · rcases List.mem_append.mp hv with h | h
        · exact hc v h
        · rw [List.eq_of_mem_replicate h]
          exact safeVal_parseCell _ _
  | cons c rest ih =>
      intro current inQ esc cells hc v hv
      simp only [parseRowLoop] at hv
      split at hv
      · exact ih _ _ _ _ hc v hv
      · split at hv
        · exact ih _ _ _ _ hc v hv
        · split at hv
          · exact ih _ _ _ _ hc v hv
          · split at hv
            · refine ih _ _ _ _ ?_ v hv
              intro w hw
              rcases List.mem_append.mp hw with h | h
              · exact hc w h
              · rw [List.eq_of_mem_replicate h]
                exact safeVal_parseCell _ _
            · exact ih _ _ _ _ hc v hv

theorem parseRow_safe (rowStr : Chars) (dict : List Chars) (delim : Char) :
    ∀ v ∈ parseRow rowStr dict delim, safeVal v = true := by
  intro v hv
  exact parseRowLoop_safe dict delim rowStr [] false false [] (by simp) v hv

theorem get?_getD_safe {l : List GoonValue} (h : ∀ v ∈ l, safeVal v = true) (i : Nat) :
    safeVal ((l.get? i).getD .null) = true := by
  rcases hg : l.get? i with _ | w
  · rfl
  · exact h w (List.get?_mem hg)

theorem getD_eq_get?_getD : ∀ (l : List GoonValue) (i : Nat) (d : GoonValue),
    l.getD i d = (l.get? i).getD d := by
  intro l
  induction l with
  | nil =>
      intro i d
      cases i <;> rfl
  | cons x xs ih =>
      intro i d
      cases i with
      | zero => rfl
      | succ j => exact ih j d

theorem resolveRowValues_safe {fieldsLen : Nat} {cells prev : List GoonValue}
    (hc : ∀ v ∈ cells, safeVal v = true) (hp : ∀ v ∈ prev, safeVal v = true) :
    ∀ v ∈ resolveRowValues fieldsLen cells prev, safeVal v = true := by
  intro v hv
  rw [resolveRowValues] at hv
  rcases List.mem_map.mp hv with ⟨i, _, rfl⟩
  split
  · rw [getD_eq_get?_getD]
    exact get?_getD_safe hp i
  · exact get?_getD_safe hc i

theorem foldl_setField_safe :
    ∀ (l : List (Chars × GoonValue)) (acc : List (Chars × GoonValue)),
      (∀ p ∈ l, isSafeKey p.1 = true ∧ safeVal p.2 = true) → safeValF acc = true →
      safeValF (l.foldl (fun o kv => setField o kv.1 kv.2) acc) = true := by
  intro l
  induction l with
  | nil =>
      intro acc _ h
      exact h
  | cons p rest ih =>
      intro acc hl hacc
      rw [List.foldl_cons]
      exact ih _ (fun q hq => hl q (List.mem_cons_of_mem _ hq))
        (safeValF_setField hacc (hl p (List.mem_cons_self _ _)).1
          (hl p (List.mem_cons_self _ _)).2)

theorem rowObject_safe {fields : List Chars} {rowValues : List GoonValue}
    (hf : ∀ f ∈ fields, isSafeKey f = true) (hv : ∀ v ∈ rowValues, safeVal v = true) :
    safeValF (rowObject fields rowValues) = true := by
  rw [rowObject]
  refine foldl_setField_safe _ _ ?_ rfl
  intro p hp
  obtain ⟨a, b⟩ := p
  exact ⟨hf a (List.of_mem_zip hp).1, hv b (List.of_mem_zip hp).2⟩

theorem parse_safe : ∀ fuel : Nat,
    (∀ ctx v ctx', parseRoot fuel ctx = .ok (v, ctx') → safeVal v = true) ∧
    (∀ ctx b v ctx', parseObject fuel ctx b = .ok (v, ctx') → safeVal v = true) ∧
    (∀ ctx b obj v ctx', safeValF obj = true →
        parseObjLoop fuel ctx b obj = .ok (v, ctx') → safeVal v = true) ∧
    (∀ ctx b fs rows ctx', parseTabularArray fuel ctx b fs = .ok (rows, ctx') →
        ∀ v ∈ rows, safeVal v = true) ∧
    (∀ ctx b fields delim rows prev rows' ctx',
        (∀ f ∈ fields, isSafeKey f = true) →
        (∀ v ∈ rows, safeVal v = true) → (∀ v ∈ prev, safeVal v = true) →
        parseTabRowsLoop fuel ctx b fields delim rows prev = .ok (rows', ctx') →
        ∀ v ∈ rows', safeVal v = true) ∧
    (∀ ctx b items ctx', parseListArray fuel ctx b = .ok (items, ctx') →
        ∀ v ∈ items, safeVal v = true) ∧
    (∀ ctx b items0 items' ctx', (∀ v ∈ items0, safeVal v = true) →
        parseListLoop fuel ctx b items0 = .ok (items', ctx') →
        ∀ v ∈ items', safeVal v = true) ∧
    (∀ ctx mi v ctx', parseNestedValue fuel ctx mi = .ok (v, ctx') → safeVal v = true) := by
  intro fuel
  induction fuel with
  | zero =>
      refine ⟨?_, ?_, ?_, ?_, ?_, ?_, ?_, ?_⟩
      · intro ctx v ctx' h
        exact Except.noConfusion h
      · intro ctx b v ctx' h
        exact Except.noConfusion h
      · intro ctx b obj v ctx' _ h
        exact Except.noConfusion h
      · intro ctx b fs rows ctx' h
        exact Except.noConfusion h
      · intro ctx b fields delim rows prev rows' ctx' _ _ _ h
        exact Except.noConfusion h
      · intro ctx b items ctx' h
        exact Except.noConfusion h
      · intro ctx b items0 items' ctx' _ h
        exact Except.noConfusion h
      · intro ctx mi v ctx' h
        exact Except.noConfusion h
  | succ fuel ih =>
      obtain ⟨ihR, ihO, ihOL, ihT, ihTL, ihL, ihLL, ihN⟩ := ih
      refine ⟨?_, ?_, ?_, ?_, ?_, ?_, ?_, ?_⟩
      -- parseRoot
      · intro ctx v ctx' h
        simp only [parseRoot] at h
        split at h
        · rw [Except.ok.injEq, Prod.mk.injEq] at h
          obtain ⟨rfl, -⟩ := h
          rfl
        · split at h
          · rw [Except.ok.injEq, Prod.mk.injEq] at h
            obtain ⟨rfl, -⟩ := h
            rfl
          · split at h
            · rw [Except.ok.injEq, Prod.mk.injEq] at h
              obtain ⟨rfl, -⟩ := h
              rfl
            · split at h
              · split at h
                · rename_i rows ctx2 heq
                  rw [Except.ok.injEq, Prod.mk.injEq] at h
                  obtain ⟨rfl, -⟩ := h
                  exact (safeValL_iff _).mpr (ihT _ _ _ _ _ heq)
                · exact Except.noConfusion h
              · split at h
                · rw [Except.ok.injEq, Prod.mk.injEq] at h
                  obtain ⟨rfl, -⟩ := h
                  exact (safeValL_iff _).mpr (parseRow_safe _ _ _)
                · split at h
                  · exact ihO _ _ _ _ h
                  · rw [Except.ok.injEq, Prod.mk.injEq] at h
                    obtain ⟨rfl, -⟩ := h
                    exact safeVal_parsePrimitive _ _
      -- parseObject
      · intro ctx b v ctx' h
        simp only [parseObject] at h
        split at h
        · exact Except.noConfusion h
        · split at h
          · rename_i v0 c0 heq
            rw [Except.ok.injEq, Prod.mk.injEq] at h
            obtain ⟨rfl, -⟩ := h
            exact ihOL _ _ [] _ _ rfl heq
          · exact Except.noConfusion h
      -- parseObjLoop
      · intro ctx b obj v ctx' hobj h
        simp only [parseObjLoop] at h
        split at h
        · rw [Except.ok.injEq, Prod.mk.injEq] at h
          obtain ⟨rfl, -⟩ := h
          exact hobj
        · split at h
          · rw [Except.ok.injEq, Prod.mk.injEq] at h
            obtain ⟨rfl, -⟩ := h
            exact hobj
          · split at h
            · exact ihOL _ _ _ _ _ hobj h
            · split at h
              · rename_i kv heq
                refine ihOL _ _ _ _ _ ?_ h
                split
                · rename_i hk
                  exact safeValF_setField hobj hk (safeVal_parsePrimitive _ _)
                · exact hobj
              · split at h
                · rename_i key heq
                  refine ihOL _ _ _ _ _ ?_ h
                  split
                  · rename_i hk
                    exact safeValF_setField hobj hk rfl
                  · exact hobj
                · split at h
                  · rename_i key heq
                    refine ihOL _ _ _ _ _ ?_ h
                    split
                    · rename_i hk
                      exact safeValF_setField hobj hk rfl
                    · exact hobj
                  · split at h
                    · rename_i kf heq
                      split at h
                      · rename_i hk
                        split at h
                        · rename_i rows c2 heq2
                          refine ihOL _ _ _ _ _ ?_ h
                          exact safeValF_setField hobj hk
                            ((safeValL_iff _).mpr (ihT _ _ _ _ _ heq2))
                        · exact Except.noConfusion h
                      · exact ihOL _ _ _ _ _ hobj h
                    · split at h
                      · rename_i kv heq
                        refine ihOL _ _ _ _ _ ?_ h
                        split
                        · rename_i hk
                          exact safeValF_setField hobj hk
                            ((safeValL_iff _).mpr (parseRow_safe _ _ _))
                        · exact hobj
                      · split at h
                        · rename_i key heq
                          split at h
                          · rename_i nextLine heq2
                            split at h
                            · rename_i hcond
                              split at h
                              · rename_i v0 c0 heq3
                                refine ihOL _ _ _ _ _ ?_ h
                                exact safeValF_setField hobj hcond.1
                                  (ihO _ _ _ _ heq3)
                              · exact Except.noConfusion h
                            · refine ihOL _ _ _ _ _ ?_ h
                              split
                              · rename_i hk
                                exact safeValF_setField hobj hk rfl
                              · exact hobj
                          · refine ihOL _ _ _ _ _ ?_ h
                            split
                            · rename_i hk
                              exact safeValF_setField hobj hk rfl
                            · exact hobj
                        · exact ihOL _ _ _ _ _ hobj h
      -- parseTabularArray
      · intro ctx b fs rows ctx' h
        simp only [parseTabularArray] at h
        split at h
        · exact Except.noConfusion h
        · split at h
          · rename_i rows0 c0 heq
            rw [Except.ok.injEq, Prod.mk.injEq] at h
            obtain ⟨rfl, -⟩ := h
            refine ihTL _ _ _ _ _ _ _ _ ?_ (by simp) (by simp) heq
            intro f hf
            exact (List.mem_filter.mp hf).2
          · exact Except.noConfusion h
      -- parseTabRowsLoop
      · intro ctx b fields delim rows prev rows' ctx' hfields hrows hprev h
        simp only [parseTabRowsLoop] at h
        split at h
        · rw [Except.ok.injEq, Prod.mk.injEq] at h
          obtain ⟨rfl, -⟩ := h
          exact hrows
        · split at h
          · rw [Except.ok.injEq, Prod.mk.injEq] at h
            obtain ⟨rfl, -⟩ := h
            exact hrows
          · split at h
            · exact ihTL _ _ _ _ _ _ _ _ hfields hrows hprev h
            · split at h
              · rw [Except.ok.injEq, Prod.mk.injEq] at h
                obtain ⟨rfl, -⟩ := h
                exact hrows
              · refine ihTL _ _ _ _ _ _ _ _ hfields ?_ ?_ h
                · intro w hw
                  rcases List.mem_append.mp hw with h' | h'
                  · exact hrows w h'
                  · rw [List.mem_singleton.mp h']
                    exact rowObject_safe hfields
                      (resolveRowValues_safe (parseRow_safe _ _ _) hprev)
                · exact resolveRowValues_safe (parseRow_safe _ _ _) hprev
      -- parseListArray
      · intro ctx b items ctx' h
        simp only [parseListArray] at h
        split at h
        · exact Except.noConfusion h
        · split at h
          · rename_i items0 c0 heq
            rw [Except.ok.injEq, Prod.mk.injEq] at h
            obtain ⟨rfl, -⟩ := h
            exact ihLL _ _ _ _ _ (by simp) heq
          · exact Except.noConfusion h
      -- parseListLoop
      · intro ctx b items0 items' ctx' hitems h
        simp only [parseListLoop] at h
        split at h
        · rw [Except.ok.injEq, Prod.mk.injEq] at h
          obtain ⟨rfl, -⟩ := h
          exact hitems
        · split at h
          · rw [Except.ok.injEq, Prod.mk.injEq] at h
            obtain ⟨rfl, -⟩ := h
            exact hitems
          · split at h
            · refine ihLL _ _ _ _ _ ?_ h
              intro w hw
              rcases List.mem_append.mp hw with h' | h'
              · exact hitems w h'
              · rw [List.mem_singleton.mp h']
                exact safeVal_parsePrimitive _ _
            · split at h
              · split at h
                · rename_i nextLine heq2
                  split at h
                  · split at h
                    · rename_i v0 c0 heq3
                      refine ihLL _ _ _ _ _ ?_ h
                      intro w hw
                      rcases List.mem_append.mp hw with h' | h'
                      · exact hitems w h'
                      · rw [List.mem_singleton.mp h']
                        exact ihN _ _ _ _ heq3
                    · exact Except.noConfusion h
                  · refine ihLL _ _ _ _ _ ?_ h
                    intro w hw
                    rcases List.mem_append.mp hw with h' | h'
                    · exact hitems w h'
                    · rw [List.mem_singleton.mp h']
                      rfl
                · refine ihLL _ _ _ _ _ ?_ h
                  intro w hw
                  rcases List.mem_append.mp hw with h' | h'
                  · exact hitems w h'
                  · rw [List.mem_singleton.mp h']
                    rfl
              · exact ihLL _ _ _ _ _ hitems h
      -- parseNestedValue
      · intro ctx mi v ctx' h
        simp only [parseNestedValue] at h
        split at h
        · rw [Except.ok.injEq, Prod.mk.injEq] at h
          obtain ⟨rfl, -⟩ := h
          rfl
        · split at h
          · rw [Except.ok.injEq, Prod.mk.injEq] at h
            obtain ⟨rfl, -⟩ := h
            rfl
          · split at h
            · rw [Except.ok.injEq, Prod.mk.injEq] at h
              obtain ⟨rfl, -⟩ := h
              rfl
            · split at h
              · exact ihO _ _ _ _ h
              · split at h
                · split at h
                  · rename_i rows c0 heq
                    rw [Except.ok.injEq, Prod.mk.injEq] at h
                    obtain ⟨rfl, -⟩ := h
                    exact (safeValL_iff _).mpr (ihT _ _ _ _ _ heq)
                  · exact Except.noConfusion h
                · split at h
                  · exact ihO _ _ _ _ h
                  · split at h
                    · exact ihO _ _ _ _ h
                    · rw [Except.ok.injEq, Prod.mk.injEq] at h
                      obtain ⟨rfl, -⟩ := h
                      exact safeVal_parsePrimitive _ _

theorem goonDecode_safe (input : Chars) (v : GoonValue)
    (h : goonDecode input = .ok v) : safeVal v = true := by
  simp only [goonDecode] at h
  split at h
  · exact Except.noConfusion h
  · split at h
    · rw [Except.ok.injEq] at h
      rw [← h]
      rfl
    · split at h
      · split at h
        · rw [Except.ok.injEq] at h
          rw [← h]
          rfl
        · split at h
          · rename_i v0 c0 heq
            rw [Except.ok.injEq] at h
            rw [← h]
            exact (parse_safe _).1 _ _ _ heq
          · exact Except.noConfusion h
      · split at h
        · rw [Except.ok.injEq] at h
          rw [← h]
          rfl
        · split at h
          · rename_i v0 c0 heq
            rw [Except.ok.injEq] at h
            rw [← h]
            exact (parse_safe _).1 _ _ _ heq
          · exact Except.noConfusion h

theorem encodeObject_filter_inv (gas : Nat) (fs : List (Chars × GoonValue)) (depth : Nat)
    (opts : EncodeOptions) (dict : Dictionary) (lines : List Chars) (pk : Option Chars)
    (r : Nat) :
    encodeObject gas (fs.filter (fun kv => isSafeKey kv.1)) depth opts dict lines pk r =
      encodeObject gas fs depth opts dict lines pk r := by
  cases gas with
  | zero => rfl
  | succ g =>
      show encodeObject (g + 1) _ _ _ _ _ _ _ = encodeObject (g + 1) _ _ _ _ _ _ _
      unfold encodeObject
      rw [List.filter_filter]
      simp only [Bool.and_self]

/-- C3: dangerous keys are inert in both directions — (i) encoding an
object is identical to encoding it with every unsafe-keyed field removed,
so a dangerous key is never emitted; (ii) every tabular header field is a
safe key; (iii) each key of the known-dangerous set is rejected by
`isSafeKey`; (iv) every value decode produces satisfies the recursive
all-keys-safe predicate, so no decoded container exposes a dangerous key
(containers are built from scratch, mirroring the null-prototype
construction). -/
theorem goon_c3_dangerous_keys :
    (∀ (gas : Nat) (fs : List (Chars × GoonValue)) (depth : Nat) (opts : EncodeOptions)
        (dict : Dictionary) (lines : List Chars) (pk : Option Chars) (r : Nat),
        encodeObject gas (fs.filter (fun kv => isSafeKey kv.1)) depth opts dict lines pk r =
          encodeObject gas fs depth opts dict lines pk r) ∧
    (∀ (arr : List GoonValue) (k : Chars), k ∈ tabularFields arr → isSafeKey k = true) ∧
    (∀ (k : Chars), k ∈ DANGEROUS_KEYS → isSafeKey k = false) ∧
    (∀ (input : Chars) (v : GoonValue), goonDecode input = .ok v → safeVal v = true) := by
  refine ⟨encodeObject_filter_inv, ?_, ?_, goonDecode_safe⟩
  · intro arr k hk
    exact (List.mem_filter.mp hk).2
  · intro k hk
    simp [isSafeKey]
    exact hk

/-- C3 witness: decoding text that assigns to `__proto__` drops the
dangerous key and the decoded value passes the recursive safety check. -/
theorem goon_c3_dangerous_keys_witness :
    goonDecode "__proto__: evil\nok: good".toList =
      .ok (.obj [("ok".toList, .str "good".toList)]) ∧
    safeVal (.obj [("ok".toList, .str "good".toList)]) = true := by
  have hdec : goonDecode "__proto__: evil\nok: good".toList =
      .ok (.obj [("ok".toList, .str "good".toList)]) := by decide
  exact ⟨hdec, goon_c3_dangerous_keys.2.2.2 _ _ hdec⟩

theorem digitChar_isDigit {k : Nat} (hk : k < 10) : (Nat.digitChar k).isDigit = true := by
  interval_cases k <;> decide

theorem natDigitsAux_digits : ∀ (f n : Nat), ∀ c ∈ natDigitsAux f n, c.isDigit = true := by
  intro f
  induction f with
  | zero =>
      intro n c hc
      simp [natDigitsAux] at hc
  | succ g ih =>
      intro n c hc
      rw [natDigitsAux] at hc
      split at hc
      · rw [List.mem_singleton.mp hc]
        exact digitChar_isDigit (by assumption)
      · rcases List.mem_append.mp hc with h | h
        · exact ih _ c h
        · rw [List.mem_singleton.mp h]
          exact digitChar_isDigit (Nat.mod_lt _ (by norm_num))

theorem natToChars_ne_nil (n : Nat) : natToChars n ≠ [] := by
  rw [natToChars, natDigitsAux]
  split
  · exact List.cons_ne_nil _ _
  · simp

theorem intToChars_ne_caret (n : Int) : intToChars n ≠ ['^'] := by
  cases n with
  | ofNat m =>
      intro h
      have hm : '^' ∈ natToChars m := by
        rw [show intToChars (Int.ofNat m) = natToChars m from rfl] at h
        rw [h]
        exact List.mem_singleton.mpr rfl
      exact absurd (natDigitsAux_digits _ _ _ hm) (by decide)
  | negSucc m =>
      intro h
      rw [show intToChars (Int.negSucc m) = '-' :: natToChars (m + 1) from rfl] at h
      simp at h

theorem quoteString_ne_caret (s : Chars) : quoteString s ≠ ['^'] := by
  rw [quoteString]
  split
  · intro h
    simp at h
  · rename_i hq
    intro h
    rw [h] at hq
    exact hq (by decide)

theorem encodePrimitive_ne_caret (v : GoonValue) (ud : Bool) :
    encodePrimitive v emptyDictionary ud ≠ ['^'] := by
  cases v with
  | null =>
      rw [show encodePrimitive GoonValue.null emptyDictionary ud = ['_'] from rfl]
      decide
  | bool b =>
      cases b
      · rw [show encodePrimitive (GoonValue.bool false) emptyDictionary ud = ['F'] from rfl]
        decide
      · rw [show encodePrimitive (GoonValue.bool true) emptyDictionary ud = ['T'] from rfl]
        decide
  | num n => exact intToChars_ne_caret n
  | str s =>
      rw [encodePrimitive]
      split
      · decide
      · split
        · rw [show lookupAssoc emptyDictionary.lookup s = none from rfl]
          exact quoteString_ne_caret s
        · exact quoteString_ne_caret s
  | arr xs =>
      rw [show encodePrimitive (GoonValue.arr xs) emptyDictionary ud = [] from rfl]
      decide
  | obj fs =>
      rw [show encodePrimitive (GoonValue.obj fs) emptyDictionary ud = [] from rfl]
      decide

theorem tabCell_first (opts : EncodeOptions) (dict : Dictionary) (ucr ud : Bool)
    (dv : Option GoonValue) (v : GoonValue) (hsd : opts.schemaDefaults = false) :
    tabCell opts dict ucr ud dv v none = encodePrimitive v dict ud := by
  rw [tabCell, if_neg (by simp), if_neg (by simp [hsd])]

theorem tabCell_none_ne_caret (opts : EncodeOptions) (ucr ud : Bool)
    (dv : Option GoonValue) (v : GoonValue) :
    tabCell opts emptyDictionary ucr ud dv v none ≠ ['^'] := by
  rw [tabCell, if_neg (by simp)]
  split
  · decide
  · exact encodePrimitive_ne_caret v ud

theorem tabCell_ref (opts : EncodeOptions) (dict : Dictionary) (ud : Bool)
    (dv : Option GoonValue) (v : GoonValue) (hv : v ≠ GoonValue.null) :
    tabCell opts dict true ud dv v (some v) = ['^'] := by
  rw [tabCell, if_pos ⟨rfl, rfl, hv⟩]

theorem map_lookup_self {row : List (Chars × GoonValue)}
    (hnd : (row.map Prod.fst).Nodup) :
    (row.map Prod.fst).map (fun f => (lookupAssoc row f).getD GoonValue.null) =
      row.map Prod.snd := by
  induction row with
  | nil => rfl
  | cons kv rest ih =>
      obtain ⟨k, v⟩ := kv
      rw [List.map_cons, List.nodup_cons] at hnd
      rw [List.map_cons, List.map_cons, List.map_cons]
      congr 1
      · simp [lookupAssoc]
      · have hcong : List.map (fun f => (lookupAssoc ((k, v) :: rest) f).getD GoonValue.null)
            (List.map Prod.fst rest) =
            List.map (fun f => (lookupAssoc rest f).getD GoonValue.null)
            (List.map Prod.fst rest) := by
          apply List.map_congr_left
          intro f hf
          have hk : ¬(k = f) := fun he => hnd.1 (he ▸ hf)
          simp [lookupAssoc, hk]
        rw [hcong, ih hnd.2]

theorem map3_nones {δ : Type} (f : GoonValue → Option GoonValue → Option GoonValue → δ) :
    ∀ (as : List GoonValue),
      map3 f as (List.replicate as.length none) (List.replicate as.length none) =
        as.map (fun a => f a none none) := by
  intro as
  induction as with
  | nil => rfl
  | cons a t ih =>
      rw [List.length_cons, List.replicate_succ]
      rw [show map3 f (a :: t) (none :: List.replicate t.length none)
          (none :: List.replicate t.length none) =
          f a none none :: map3 f t (List.replicate t.length none)
            (List.replicate t.length none) from rfl]
      rw [ih, List.map_cons]

theorem map3_caret {δ : Type} (f : GoonValue → Option GoonValue → Option GoonValue → δ) :
    ∀ (as : List GoonValue) (bs : List (Option GoonValue)) (c : δ),
      as.length = bs.length →
      (∀ a ∈ as, ∀ b, f a b (some a) = c) →
      map3 f as bs (as.map some) = List.replicate as.length c := by
  intro as
  induction as with
  | nil =>
      intro bs c _ _
      cases bs <;> rfl
  | cons a t ih =>
      intro bs c hlen hf
      cases bs with
      | nil => simp at hlen
      | cons b bt =>
          rw [List.map_cons]
          rw [show map3 f (a :: t) (b :: bt) (some a :: t.map some) =
            f a b (some a) :: map3 f t bt (t.map some) from rfl]
          rw [hf a (List.mem_cons_self _ _) b,
            ih bt c (by simpa using hlen) (fun x hx b' => hf x (List.mem_cons_of_mem _ hx) b')]
          rw [List.length_cons, List.replicate_succ]

theorem map_fieldDefault_none (opts : EncodeOptions) (arr : List GoonValue)
    (fields : List Chars) (hsd : opts.schemaDefaults = false) :
    fields.map (fieldDefault opts arr) = List.replicate fields.length none := by
  induction fields with
  | nil => rfl
  | cons f t ih =>
      rw [List.map_cons, List.length_cons, List.replicate_succ, ih]
      rw [fieldDefault, if_neg (by simp [hsd])]

theorem zip_none_map_fst (fields : List Chars) :
    ((fields.zip (List.replicate fields.length (none : Option GoonValue))).map fun fd =>
      match fd.2 with
      | some dv =>
          if isPrimitive dv then fd.1 ++ '=' :: encodePrimitive dv emptyDictionary false
          else fd.1
      | none => fd.1) = fields := by
  induction fields with
  | nil => rfl
  | cons f t ih =>
      rw [List.length_cons, List.replicate_succ, List.zip_cons_cons, List.map_cons, ih]

theorem encodeTabRows_refRows (opts : EncodeOptions) (dict : Dictionary) (ud : Bool)
    (row : List (Chars × GoonValue)) (defaults : List (Option GoonValue))
    (depth : Nat) (hnd : (row.map Prod.fst).Nodup)
    (hnn : ∀ kv ∈ row, kv.2 ≠ GoonValue.null)
    (hlen : defaults.length = row.length)
    (hrn : opts.rowNumbers = false) :
    ∀ (m rowIdx : Nat),
      encodeTabRows opts dict true ud (row.map Prod.fst) defaults depth
        (List.replicate m (GoonValue.obj row)) (some (row.map Prod.snd)) rowIdx =
      List.replicate m
        ((if opts.minimalIndent then [] else repeatChars opts.indent (depth + 1)) ++
          intercalateChar opts.delimiter (List.replicate row.length ['^'])) := by
  intro m
  induction m with
  | zero =>
      intro rowIdx
      rfl
  | succ p ih =>
      intro rowIdx
      rw [List.replicate_succ]
      simp only [encodeTabRows]
      rw [show objFields (GoonValue.obj row) = row from rfl]
      rw [map_lookup_self hnd]
      rw [map3_caret _ _ _ ['^'] (by rw [List.length_map, hlen])
        (fun a ha b => by
          rcases List.mem_map.mp ha with ⟨kv, hkv, rfl⟩
          exact tabCell_ref opts dict ud b kv.2 (hnn kv hkv))]
      simp only [hrn, Bool.false_eq_true, if_false, List.nil_append, List.length_map]
      rw [ih (rowIdx + 1)]
      rw [List.append_nil]
      rw [List.replicate_succ]

theorem map3_nones2 {δ : Type} (f : GoonValue → Option GoonValue → Option GoonValue → δ) :
    ∀ (as : List GoonValue) (k : Nat), as.length = k →
      map3 f as (List.replicate k none) (List.replicate k none) =
        as.map (fun a => f a none none) := by
  intro as
  induction as with
  | nil =>
      intro k _
      cases k <;> rfl
  | cons a t ih =>
      intro k hk
      cases k with
      | zero => simp at hk
      | succ m =>
          rw [List.replicate_succ]
          rw [show map3 f (a :: t) (none :: List.replicate m none)
              (none :: List.replicate m none) =
              f a none none :: map3 f t (List.replicate m none)
                (List.replicate m none) from rfl]
          rw [ih m (by simpa using hk), List.map_cons]

theorem encodeTabRows_table (opts : EncodeOptions) (ud : Bool)
    (row : List (Chars × GoonValue)) (depth : Nat)
    (hnd : (row.map Prod.fst).Nodup)
    (hnn : ∀ kv ∈ row, kv.2 ≠ GoonValue.null)
    (hrn : opts.rowNumbers = false) (hsd : opts.schemaDefaults = false) :
    ∀ n : Nat,
      encodeTabRows opts emptyDictionary true ud (row.map Prod.fst)
        (List.replicate row.length none) depth
        (List.replicate (n + 1) (GoonValue.obj row)) none 0 =
      ((if opts.minimalIndent then [] else repeatChars opts.indent (depth + 1)) ++
        intercalateChar opts.delimiter
          (row.map fun kv => encodePrimitive kv.2 emptyDictionary ud)) ::
      List.replicate n
        ((if opts.minimalIndent then [] else repeatChars opts.indent (depth + 1)) ++
          intercalateChar opts.delimiter (List.replicate row.length ['^'])) := by
  intro n
  rw [List.replicate_succ]
  simp only [encodeTabRows]
  rw [show objFields (GoonValue.obj row) = row from rfl]
  rw [map_lookup_self hnd]
  simp only [List.length_map]
  rw [map3_nones2 _ _ _ (List.length_map _ _)]
  rw [List.map_map]
  rw [List.map_congr_left (fun kv hkv => by
    show tabCell opts emptyDictionary true ud none kv.2 none =
      encodePrimitive kv.2 emptyDictionary ud
    exact tabCell_first opts emptyDictionary true ud none kv.2 hsd)]
  simp only [hrn, Bool.false_eq_true, if_false, List.nil_append]
  rw [encodeTabRows_refRows opts emptyDictionary ud row (List.replicate row.length none)
    depth hnd hnn (List.length_replicate _ _) hrn n 1]
  rw [List.append_nil]

theorem encodeTabularArray_table (k : Chars) (row : List (Chars × GoonValue)) (n : Nat)
    (hrow : row ≠ []) (hkeys : ∀ kv ∈ row, isSafeKey kv.1 = true)
    (hnn : ∀ kv ∈ row, kv.2 ≠ GoonValue.null)
    (hnd : (row.map Prod.fst).Nodup) :
    encodeTabularArray (List.replicate (n + 2) (GoonValue.obj row)) 0 balancedNoDict
      emptyDictionary [] (some k) =
    (k ++ '[' :: natToChars (n + 2) ++ [']'] ++ charLB ::
        intercalateChar ',' (row.map Prod.fst) ++ [charRB, ':']) ::
      ("  ".toList ++ intercalateChar ','
        (row.map fun kv => encodePrimitive kv.2 emptyDictionary true)) ::
      List.replicate (n + 1)
        ("  ".toList ++ intercalateChar ',' (List.replicate row.length ['^'])) := by
  have hfields : tabularFields (List.replicate (n + 2) (GoonValue.obj row)) =
      row.map Prod.fst := by
    rw [tabularFields,
      show (List.replicate (n + 2) (GoonValue.obj row)).headD GoonValue.null =
        GoonValue.obj row from by
          rw [show n + 2 = (n + 1) + 1 from rfl, List.replicate_succ]
          rfl]
    rw [show objFields (GoonValue.obj row) = row from rfl]
    apply List.filter_eq_self.mpr
    intro a ha
    rcases List.mem_map.mp ha with ⟨kv, hkv, rfl⟩
    exact hkeys kv hkv
  have hempty : (row.map Prod.fst).isEmpty = false := by
    cases row with
    | nil => exact absurd rfl hrow
    | cons a t => rfl
  simp only [encodeTabularArray, hfields, hempty, Bool.false_eq_true, if_false,
    show balancedNoDict.footerSummaries = false from rfl,
    show balancedNoDict.autoSort = false from rfl,
    show balancedNoDict.arrayLengths = true from rfl,
    show balancedNoDict.columnRefs = true from rfl,
    show balancedNoDict.maxColumnRefDepth = 1 from rfl,
    show balancedNoDict.maxDictDepth = 2 from rfl,
    show balancedNoDict.minimalIndent = false from rfl,
    show balancedNoDict.delimiter = ',' from rfl,
    show balancedNoDict.indent = "  ".toList from rfl,
    show ((1 : Int) == -1) = false from rfl,
    show ((2 : Int) == -1) = false from rfl,
    show (decide (((0 : Nat) : Int) < 1)) = true from by decide,
    show (decide (((0 : Nat) : Int) + 1 ≤ 2)) = true from by decide,
    Bool.false_and, Bool.true_and, Bool.false_or, if_true,
    List.length_replicate,
    show repeatChars "  ".toList 0 = [] from rfl,
    List.nil_append]
  rw [map_fieldDefault_none balancedNoDict _ _ rfl]
  rw [zip_none_map_fst]
  simp only [List.length_map]
  rw [show List.replicate (n + 2) (GoonValue.obj row) =
    List.replicate ((n + 1) + 1) (GoonValue.obj row) from rfl]
  rw [encodeTabRows_table balancedNoDict true row 0 hnd hnn rfl rfl (n + 1)]
  simp only [show balancedNoDict.minimalIndent = false from rfl, Bool.false_eq_true, if_false,
    show repeatChars balancedNoDict.indent 1 = "  ".toList from by decide,
    show balancedNoDict.delimiter = ',' from rfl]
  simp only [List.append_assoc, List.cons_append]

theorem tableCellOK_primitive {v : GoonValue} (h : tableCellOK v = true) :
    isPrimitive v = true ∧ v ≠ GoonValue.null := by
  cases v <;> simp_all [tableCellOK, isPrimitive]

theorem goodKeyB_safe {kk : Chars} (h : goodKeyB kk = true) : isSafeKey kk = true := by
  rw [goodKeyB, Bool.and_eq_true] at h
  exact h.2

theorem isTabularArray_replicate {row : List (Chars × GoonValue)} (n : Nat)
    (hrow : row ≠ []) (hprim : ∀ kv ∈ row, isPrimitive kv.2 = true)
    (hnd : (row.map Prod.fst).Nodup) :
    isTabularArray (List.replicate (n + 1) (GoonValue.obj row)) = true := by
  rw [List.replicate_succ, isTabularArray]
  have hall : (GoonValue.obj row :: List.replicate n (GoonValue.obj row)).all
      isPlainObject = true := by
    apply List.all_eq_true.mpr
    intro x hx
    rcases List.mem_cons.mp hx with rfl | hx'
    · rfl
    · rw [List.eq_of_mem_replicate hx']
      rfl
  rw [hall]
  simp only [Bool.not_true, Bool.false_eq_true, if_false]
  rw [show objFields (GoonValue.obj row) = row from rfl]
  have hkne : (sortStrs (List.map Prod.fst row)).isEmpty = false := by
    rcases hs : sortStrs (List.map Prod.fst row) with _ | ⟨a, t⟩
    · exact absurd (List.map_eq_nil.mp ((sortStrs_eq_nil _).mp hs)) hrow
    · rfl
  rw [hkne]
  simp only [Bool.false_eq_true, if_false]
  apply List.all_eq_true.mpr
  intro item hitem
  have hio : item = GoonValue.obj row := by
    rcases List.mem_cons.mp hitem with rfl | hx'
    · rfl
    · exact List.eq_of_mem_replicate hx'
  subst hio
  rw [show isPlainObject (GoonValue.obj row) = true from rfl]
  simp only [Bool.not_true, Bool.false_eq_true, if_false]
  rw [show objFields (GoonValue.obj row) = row from rfl]
  rw [if_neg (by simp)]
  apply (zip_all_eq (sortStrs (List.map Prod.fst row)) (sortStrs (List.map Prod.fst row))
    (fun key => match lookupAssoc row key with
      | some v => isPrimitive v
      | none => false) rfl).mpr
  refine ⟨rfl, ?_⟩
  apply List.all_eq_true.mpr
  intro x hx
  rcases List.mem_map.mp ((mem_sortStrs x _).mp hx) with ⟨kv, hkv, rfl⟩
  rw [lookupAssoc_mem_nodup hnd (show (kv.1, kv.2) ∈ row from by simpa using hkv)]
  exact hprim kv hkv

theorem goonEncode_table (k : Chars) (row : List (Chars × GoonValue)) (n : Nat)
    (hk : isSafeKey k = true) (hrow : row ≠ [])
    (hkeys : ∀ kv ∈ row, isSafeKey kv.1 = true)
    (hprim : ∀ kv ∈ row, isPrimitive kv.2 = true)
    (hnn : ∀ kv ∈ row, kv.2 ≠ GoonValue.null)
    (hnd : (row.map Prod.fst).Nodup) :
    goonEncode balancedNoDict (tableVal k row (n + 2)) =
      .ok (List.intercalate ['\n']
        ((k ++ '[' :: natToChars (n + 2) ++ [']'] ++ charLB ::
            intercalateChar ',' (row.map Prod.fst) ++ [charRB, ':']) ::
          ("  ".toList ++ intercalateChar ','
            (row.map fun kv => encodePrimitive kv.2 emptyDictionary true)) ::
          List.replicate (n + 1)
            ("  ".toList ++ intercalateChar ',' (List.replicate row.length ['^'])))) := by
  have harr : ∀ g : Nat, encodeArray (g + 1) (List.replicate (n + 2) (GoonValue.obj row)) 0
      balancedNoDict emptyDictionary [] (some k) 2 =
      .ok ((k ++ '[' :: natToChars (n + 2) ++ [']'] ++ charLB ::
          intercalateChar ',' (row.map Prod.fst) ++ [charRB, ':']) ::
        ("  ".toList ++ intercalateChar ','
          (row.map fun kv => encodePrimitive kv.2 emptyDictionary true)) ::
        List.replicate (n + 1)
          ("  ".toList ++ intercalateChar ',' (List.replicate row.length ['^']))) := by
    intro g
    rw [encodeArray]
    rw [show (List.replicate (n + 2) (GoonValue.obj row)).isEmpty = false from by
      rw [show n + 2 = (n + 1) + 1 from rfl, List.replicate_succ]
      rfl]
    simp only [Bool.false_eq_true, if_false]
    rw [show balancedNoDict.tabularArrays = true from rfl]
    rw [show List.replicate (n + 2) (GoonValue.obj row) =
      List.replicate ((n + 1) + 1) (GoonValue.obj row) from rfl]
    rw [isTabularArray_replicate (n + 1) hrow hprim hnd]
    simp only [Bool.true_and, if_true]
    rw [show List.replicate ((n + 1) + 1) (GoonValue.obj row) =
      List.replicate (n + 2) (GoonValue.obj row) from rfl]
    rw [encodeTabularArray_table k row n hrow hkeys hnn hnd]
  have hentries : ∀ g : Nat, encodeEntries (g + 1 + 1)
      [(k, GoonValue.arr (List.replicate (n + 2) (GoonValue.obj row)))] 0
      balancedNoDict emptyDictionary [] (useDictionaryAt balancedNoDict 0) 1 =
      .ok ((k ++ '[' :: natToChars (n + 2) ++ [']'] ++ charLB ::
          intercalateChar ',' (row.map Prod.fst) ++ [charRB, ':']) ::
        ("  ".toList ++ intercalateChar ','
          (row.map fun kv => encodePrimitive kv.2 emptyDictionary true)) ::
        List.replicate (n + 1)
          ("  ".toList ++ intercalateChar ',' (List.replicate row.length ['^']))) := by
    intro g
    rw [encodeEntries.eq_def]
    dsimp only
    rw [harr g]
    dsimp only
    rw [encodeEntries.eq_def]
  have hobj : ∀ g : Nat, encodeObject (g + 1 + 1 + 1)
      [(k, GoonValue.arr (List.replicate (n + 2) (GoonValue.obj row)))] 0
      balancedNoDict emptyDictionary [] none 1 =
      .ok ((k ++ '[' :: natToChars (n + 2) ++ [']'] ++ charLB ::
          intercalateChar ',' (row.map Prod.fst) ++ [charRB, ':']) ::
        ("  ".toList ++ intercalateChar ','
          (row.map fun kv => encodePrimitive kv.2 emptyDictionary true)) ::
        List.replicate (n + 1)
          ("  ".toList ++ intercalateChar ',' (List.replicate row.length ['^']))) := by
    intro g
    rw [encodeObject]
    rw [if_neg (by norm_num [MAX_RECURSION_DEPTH])]
    simp only [List.filter_cons, hk, if_true, List.filter_nil, List.isEmpty_cons,
      Bool.false_eq_true, if_false]
    exact hentries g
  have hval : ∀ g : Nat, encodeValue (g + 1 + 1 + 1 + 1)
      (GoonValue.obj [(k, GoonValue.arr (List.replicate (n + 2) (GoonValue.obj row)))]) 0
      balancedNoDict emptyDictionary [] none 0 =
      .ok ((k ++ '[' :: natToChars (n + 2) ++ [']'] ++ charLB ::
          intercalateChar ',' (row.map Prod.fst) ++ [charRB, ':']) ::
        ("  ".toList ++ intercalateChar ','
          (row.map fun kv => encodePrimitive kv.2 emptyDictionary true)) ::
        List.replicate (n + 1)
          ("  ".toList ++ intercalateChar ',' (List.replicate row.length ['^']))) := by
    intro g
    rw [encodeValue]
    rw [if_neg (by norm_num [MAX_RECURSION_DEPTH])]
    exact hobj g
  simp only [goonEncode,
    show balancedNoDict.dictionary = false from rfl, Bool.false_eq_true, if_false,
    show emptyDictionary.entries.isEmpty = true from rfl, if_true]
  rw [show tableVal k row (n + 2) =
    GoonValue.obj [(k, GoonValue.arr (List.replicate (n + 2) (GoonValue.obj row)))] from rfl]
  obtain ⟨g, hg⟩ : ∃ g, encodeGas (GoonValue.obj
      [(k, GoonValue.arr (List.replicate (n + 2) (GoonValue.obj row)))]) = g + 1 + 1 + 1 + 1 :=
    ⟨encodeGas (GoonValue.obj
      [(k, GoonValue.arr (List.replicate (n + 2) (GoonValue.obj row)))]) - 4, by
        rw [encodeGas]; omega⟩
  rw [hg]
  rw [hval g]

/-- C7 counterexample: the claim that every cell of each second-and-later
row of an identical-row table is replaced by `^` fails for null cells —
two identical rows whose only cell is null encode with `_`, not `^`, in
the second row (the reference condition requires the value to be
non-null); and for a cell containing the delimiter the decode direction
fails — the literal first row `x,y` is split at the comma by the row
parser, so decoding the encoded text does not regenerate the original
rows. -/
theorem goon_c7_counterexample :
    (goonEncode balancedNoDict vNullRows =
        .ok "t[2]\x7ba\x7d:\n  _\n  _".toList ∧
      ('^' ∉ "t[2]\x7ba\x7d:\n  _\n  _".toList) ∧
      goonDecode "t[2]\x7ba\x7d:\n  _\n  _".toList = .ok vNullRows) ∧
    (goonEncode balancedNoDict vCommas =
        .ok "t[2]\x7ba\x7d:\n  x,y\n  ^".toList ∧
      goonDecode "t[2]\x7ba\x7d:\n  x,y\n  ^".toList = .ok vCommasDec ∧
      vCommasDec ≠ vCommas) :=
  ⟨⟨by decide, by decide, by decide⟩, ⟨by decide, by decide, by decide⟩⟩


theorem digitChar_toNat {k : Nat} (hk : k < 10) : (Nat.digitChar k).toNat - 48 = k := by
  interval_cases k <;> decide

theorem takeWhile_all {p : Char → Bool} :
    ∀ {l : Chars}, l.all p = true → l.takeWhile p = l := by
  intro l
  induction l with
  | nil => intro _; rfl
  | cons c t ih =>
      intro h
      rw [List.all_cons, Bool.and_eq_true] at h
      rw [List.takeWhile_cons, if_pos h.1, ih h.2]

theorem digitsToNat_natDigitsAux : ∀ (f n : Nat), n ≤ f →
    digitsToNat (natDigitsAux f n) = n := by
  intro f
  induction f with
  | zero =>
      intro n h
      have : n = 0 := by omega
      subst this
      rfl
  | succ g ih =>
      intro n h
      rw [natDigitsAux]
      split
      · rw [digitsToNat, List.foldl_cons, List.foldl_nil]
        rw [digitChar_toNat (by assumption)]
        omega
      · rename_i hge
        rw [digitsToNat, List.foldl_append, List.foldl_cons, List.foldl_nil]
        have hdiv : n / 10 ≤ g := by omega
        have := ih (n / 10) hdiv
        rw [digitsToNat] at this
        rw [this, digitChar_toNat (Nat.mod_lt _ (by norm_num))]
        omega

theorem digitsToNat_natToChars (n : Nat) : digitsToNat (natToChars n) = n :=
  digitsToNat_natDigitsAux (n + 1) n (by omega)

theorem natToChars_all_digits (n : Nat) : (natToChars n).all Char.isDigit = true := by
  apply List.all_eq_true.mpr
  intro c hc
  exact natDigitsAux_digits _ _ c hc

theorem natToChars_head_digit (n : Nat) :
    ∀ {c : Char} {cs : Chars}, natToChars n = c :: cs → c.isDigit = true := by
  intro c cs h
  have : c ∈ natToChars n := by
    rw [h]
    exact List.mem_cons_self _ _
  exact natDigitsAux_digits _ _ c this

theorem intFromChars_not_neg {c : Char} {rest : Chars} (hc : ¬c = '-') :
    intFromChars (c :: rest) =
      if (c :: rest).all Char.isDigit then some ((digitsToNat (c :: rest) : Nat) : Int)
      else none := by
  rw [intFromChars.eq_def]
  split
  · rename_i heq
    exact absurd heq (by simp)
  · rename_i heq
    exact absurd (show c = '-' from by injection heq with h1) hc
  · rfl

theorem intFromChars_intToChars (n : Int) : intFromChars (intToChars n) = some n := by
  cases n with
  | ofNat m =>
      rcases hnc : natToChars m with _ | ⟨c, cs⟩
      · exact absurd hnc (natToChars_ne_nil m)
      · have hd : c.isDigit = true := natToChars_head_digit m hnc
        rw [show intToChars (Int.ofNat m) = natToChars m from rfl, hnc]
        rw [intFromChars_not_neg (by intro h; rw [h] at hd; exact absurd hd (by decide))]
        rw [if_pos (by rw [← hnc]; exact natToChars_all_digits m)]
        rw [← hnc, digitsToNat_natToChars]
        rfl
  | negSucc m =>
      rw [show intToChars (Int.negSucc m) = '-' :: natToChars (m + 1) from rfl]
      rw [intFromChars]
      rw [if_pos ⟨natToChars_ne_nil _, natToChars_all_digits _⟩]
      rw [digitsToNat_natToChars]
      rw [Int.negSucc_eq]
      norm_num

theorem isNumberShape_all_digits {c : Char} {cs : Chars}
    (hd : c.isDigit = true) (hall : (c :: cs).all Char.isDigit = true) :
    isNumberShape (c :: cs) = true := by
  rw [isNumberShape.eq_def]
  split
  · rename_i heq
    have : c = '-' := by injection heq with h1
    rw [this] at hd
    exact absurd hd (by decide)
  · dsimp only
    rw [takeWhile_all hall]
    rw [show (c :: cs).drop (c :: cs).length = [] from List.drop_length _]
    rfl

theorem isNumberShape_intToChars (n : Int) : isNumberShape (intToChars n) = true := by
  cases n with
  | ofNat m =>
      rcases hnc : natToChars m with _ | ⟨c, cs⟩
      · exact absurd hnc (natToChars_ne_nil m)
      · rw [show intToChars (Int.ofNat m) = natToChars m from rfl, hnc]
        exact isNumberShape_all_digits (natToChars_head_digit m hnc)
          (hnc ▸ natToChars_all_digits m)
  | negSucc m =>
      rw [show intToChars (Int.negSucc m) = '-' :: natToChars (m + 1) from rfl]
      have key : ∀ (u : Chars), u.all Char.isDigit = true → u ≠ [] →
          isNumberShape ('-' :: u) = true := by
        intro u hall hne
        show (!(u.takeWhile Char.isDigit).isEmpty &&
          ((u.drop (u.takeWhile Char.isDigit).length).isEmpty ||
            match u.drop (u.takeWhile Char.isDigit).length with
            | '.' :: fs => !fs.isEmpty && fs.all Char.isDigit
            | _ => false)) = true
        rw [takeWhile_all hall]
        rw [show u.drop u.length = ([] : Chars) from List.drop_length _]
        rcases u with _ | ⟨c, cs⟩
        · exact absurd rfl hne
        · rfl
      exact key _ (natToChars_all_digits _) (natToChars_ne_nil _)

theorem intToChars_mem (n : Int) :
    ∀ c ∈ intToChars n, c.isDigit = true ∨ c = '-' := by
  intro c hc
  cases n with
  | ofNat m => exact Or.inl (natDigitsAux_digits _ _ c hc)
  | negSucc m =>
      rw [show intToChars (Int.negSucc m) = '-' :: natToChars (m + 1) from rfl] at hc
      rcases List.mem_cons.mp hc with rfl | hc'
      · exact Or.inr rfl
      · exact Or.inl (natDigitsAux_digits _ _ c hc')

theorem intToChars_head_facts (n : Int) :
    intToChars n ≠ ['_'] ∧ intToChars n ≠ ['T'] ∧ intToChars n ≠ ['F'] ∧
      intToChars n ≠ ['~'] ∧ (intToChars n).head? ≠ some '$' ∧
      (intToChars n).head? ≠ some '"' := by
  have hmem := intToChars_mem n
  refine ⟨?_, ?_, ?_, ?_, ?_, ?_⟩
  · intro h
    rcases hmem '_' (h ▸ List.mem_singleton.mpr rfl) with hd | hd <;> exact absurd hd (by decide)
  · intro h
    rcases hmem 'T' (h ▸ List.mem_singleton.mpr rfl) with hd | hd <;> exact absurd hd (by decide)
  · intro h
    rcases hmem 'F' (h ▸ List.mem_singleton.mpr rfl) with hd | hd <;> exact absurd hd (by decide)
  · intro h
    rcases hmem '~' (h ▸ List.mem_singleton.mpr rfl) with hd | hd <;> exact absurd hd (by decide)
  · intro h
    rcases hx : intToChars n with _ | ⟨c, cs⟩
    · rw [hx] at h
      simp at h
    · rw [hx] at h
      rw [List.head?_cons, Option.some.injEq] at h
      rcases hmem c (hx ▸ List.mem_cons_self _ _) with hd | hd
      · rw [h] at hd
        exact absurd hd (by decide)
      · rw [h] at hd
        exact absurd hd (by decide)
  · intro h
    rcases hx : intToChars n with _ | ⟨c, cs⟩
    · rw [hx] at h
      simp at h
    · rw [hx] at h
      rw [List.head?_cons, Option.some.injEq] at h
      rcases hmem c (hx ▸ List.mem_cons_self _ _) with hd | hd
      · rw [h] at hd
        exact absurd hd (by decide)
      · rw [h] at hd
        exact absurd hd (by decide)

theorem parsePrimitive_num (n : Int) (dict : List Chars) :
    parsePrimitive (intToChars n) dict = .num n := by
  obtain ⟨h1, h2, h3, h4, h5, h6⟩ := intToChars_head_facts n
  rw [parsePrimitive]
  rw [if_neg h1, if_neg h2, if_neg h3, if_neg h4]
  rw [show (if (intToChars n).head? = some '$' ∧ 1 < (intToChars n).length then
      (if (!((intToChars n).tail.isEmpty) && (intToChars n).tail.all Char.isDigit) = true then
        some (if h : digitsToNat (intToChars n).tail < dict.length then
          GoonValue.str (dict.get ⟨digitsToNat (intToChars n).tail, h⟩)
        else GoonValue.str (intToChars n))
      else none)
    else none) = (none : Option GoonValue) from by rw [if_neg (fun hc => h5 hc.1)]]
  rw [if_neg (fun hc => h6 hc.1)]
  rw [if_pos (isNumberShape_intToChars n)]
  rw [intFromChars_intToChars n]

theorem unescapeChars_cons_ne {c : Char} (rest : Chars) (hc : ¬c = '\\') :
    unescapeChars (c :: rest) = c :: unescapeChars rest := by
  rw [unescapeChars.eq_def]
  split
  · rename_i heq
    exact absurd heq (by simp)
  · rename_i c' rest' heq
    exact absurd (show c = '\\' from by injection heq with hh) hc
  · rename_i x1 c2 rest2 hno heq
    injection heq with e1 e2
    rw [← e1, ← e2]

theorem unescape_escape : ∀ s : Chars, unescapeChars (escapeChars s) = s := by
  intro s
  induction s with
  | nil => rfl
  | cons c t ih =>
      rw [escapeChars]
      by_cases h1 : c = '\\'
      · subst h1
        rw [show escapeChar '\\' = ['\\', '\\'] from rfl]
        rw [show unescapeChars (['\\', '\\'] ++ escapeChars t) =
          ['\\'] ++ unescapeChars (escapeChars t) from rfl]
        rw [ih]
        rfl
      by_cases h2 : c = '"'
      · subst h2
        rw [show escapeChar '"' = ['\\', '"'] from rfl]
        rw [show unescapeChars (['\\', '"'] ++ escapeChars t) =
          ['"'] ++ unescapeChars (escapeChars t) from rfl]
        rw [ih]
        rfl
      by_cases h3 : c = '\n'
      · subst h3
        rw [show escapeChar '\n' = ['\\', 'n'] from rfl]
        rw [show unescapeChars (['\\', 'n'] ++ escapeChars t) =
          ['\n'] ++ unescapeChars (escapeChars t) from rfl]
        rw [ih]
        rfl
      by_cases h4 : c = '\r'
      · subst h4
        rw [show escapeChar '\r' = ['\\', 'r'] from rfl]
        rw [show unescapeChars (['\\', 'r'] ++ escapeChars t) =
          ['\r'] ++ unescapeChars (escapeChars t) from rfl]
        rw [ih]
        rfl
      by_cases h5 : c = '\t'
      · subst h5
        rw [show escapeChar '\t' = ['\\', 't'] from rfl]
        rw [show unescapeChars (['\\', 't'] ++ escapeChars t) =
          ['\t'] ++ unescapeChars (escapeChars t) from rfl]
        rw [ih]
        rfl
      · rw [show escapeChar c = [c] from by
          rw [escapeChar, if_neg h1, if_neg h2, if_neg h3, if_neg h4, if_neg h5]]
        rw [List.singleton_append]
        rw [unescapeChars_cons_ne _ h1, ih]

theorem needsQuoting_of_head {s : Chars} (hx : s.head? = some '$') :
    needsQuoting s = true := by
  rw [needsQuoting]
  rw [if_neg (by intro he; rw [he] at hx; simp at hx)]
  by_cases h2 : (decide (s = ['T']) || decide (s = ['F']) || decide (s = ['_']) ||
      decide (s = ['~']) || decide (s = ['^'])) = true
  · rw [if_pos h2]
  · rw [if_neg h2]
    rw [if_pos (by
      rw [Bool.or_eq_true]
      exact Or.inl (by rw [decide_eq_true_eq]; exact hx))]

theorem needsQuoting_of_numberShape {s : Chars} (hx : isNumberShape s = true) :
    needsQuoting s = true := by
  rw [needsQuoting]
  have hne : s ≠ [] := by
    intro he
    rw [he] at hx
    exact absurd hx (by decide)
  rw [if_neg hne]
  by_cases h2 : (decide (s = ['T']) || decide (s = ['F']) || decide (s = ['_']) ||
      decide (s = ['~']) || decide (s = ['^'])) = true
  · rw [if_pos h2]
  · rw [if_neg h2]
    by_cases h3 : (decide (s.head? = some '$') || decide (s.head? = some '^')) = true
    · rw [if_pos h3]
    · rw [if_neg h3]
      by_cases h4 : (s.any fun c => decide (c = '|') || decide (c = '\n') ||
          decide (c = '\r') || decide (c = '\t')) = true
      · rw [if_pos h4]
      · rw [if_neg h4]
        rw [if_pos hx]

theorem needsQuoting_false_facts {s : Chars} (h : needsQuoting s = false) :
    s ≠ ['T'] ∧ s ≠ ['F'] ∧ s ≠ ['_'] ∧ s ≠ ['~'] ∧
      s.head? ≠ some '$' ∧ isNumberShape s = false := by
  refine ⟨?_, ?_, ?_, ?_, ?_, ?_⟩
  · intro hx
    subst hx
    exact absurd h (by decide)
  · intro hx
    subst hx
    exact absurd h (by decide)
  · intro hx
    subst hx
    exact absurd h (by decide)
  · intro hx
    subst hx
    exact absurd h (by decide)
  · intro hx
    rw [needsQuoting_of_head hx] at h
    exact absurd h (by decide)
  · by_contra hx
    rw [Bool.not_eq_false] at hx
    rw [needsQuoting_of_numberShape hx] at h
    exact absurd h (by decide)

theorem quoteShaped_false_facts {s : Chars} (h : quoteShaped s = false) :
    ¬(s.head? = some '"' ∧ s.getLast? = some '"' ∧ 2 ≤ s.length) := by
  intro hc
  have htrue : quoteShaped s = true := by
    rw [quoteShaped, Bool.and_eq_true, Bool.and_eq_true]
    exact ⟨⟨by rw [decide_eq_true_eq]; exact hc.1,
      by rw [decide_eq_true_eq]; exact hc.2.1⟩,
      by rw [decide_eq_true_eq]; exact hc.2.2⟩
  rw [htrue] at h
  exact absurd h (by decide)

theorem parsePrimitive_quoted (s : Chars) (dict : List Chars) :
    parsePrimitive ('"' :: escapeChars s ++ ['"']) dict = .str s := by
  have hlen : ('"' :: escapeChars s ++ ['"']).length = (escapeChars s).length + 2 := by
    simp
  have hne1 : ('"' :: escapeChars s ++ ['"']) ≠ ['_'] := by
    intro hx
    have := congrArg List.length hx
    rw [hlen] at this
    simp at this
  have hne2 : ('"' :: escapeChars s ++ ['"']) ≠ ['T'] := by
    intro hx
    have := congrArg List.length hx
    rw [hlen] at this
    simp at this
  have hne3 : ('"' :: escapeChars s ++ ['"']) ≠ ['F'] := by
    intro hx
    have := congrArg List.length hx
    rw [hlen] at this
    simp at this
  have hne4 : ('"' :: escapeChars s ++ ['"']) ≠ ['~'] := by
    intro hx
    have := congrArg List.length hx
    rw [hlen] at this
    simp at this
  rw [parsePrimitive]
  rw [if_neg hne1, if_neg hne2, if_neg hne3, if_neg hne4]
  have hhead : ('"' :: escapeChars s ++ ['"']).head? = some '"' := rfl
  rw [show (if ('"' :: escapeChars s ++ ['"']).head? = some '$' ∧
      1 < ('"' :: escapeChars s ++ ['"']).length then
      (if (!(('"' :: escapeChars s ++ ['"']).tail.isEmpty) &&
          ('"' :: escapeChars s ++ ['"']).tail.all Char.isDigit) = true then
        some (if h : digitsToNat ('"' :: escapeChars s ++ ['"']).tail < dict.length then
          GoonValue.str (dict.get ⟨digitsToNat ('"' :: escapeChars s ++ ['"']).tail, h⟩)
        else GoonValue.str ('"' :: escapeChars s ++ ['"']))
      else none)
    else none) = (none : Option GoonValue) from by
      rw [if_neg (by
        intro hc
        rw [hhead] at hc
        exact absurd hc.1 (by simp)
        )]]
  have hlast : ('"' :: escapeChars s ++ ['"']).getLast? = some '"' := by
    rw [show ('"' :: escapeChars s ++ ['"']) = ('"' :: escapeChars s) ++ ['"'] from by simp]
    rw [List.getLast?_concat]
  rw [if_pos ⟨hhead, hlast, by rw [hlen]; omega⟩]
  rw [unquoteString, if_pos ⟨hhead, hlast⟩]
  rw [show ('"' :: escapeChars s ++ ['"']).drop 1 = escapeChars s ++ ['"'] from rfl]
  rw [show (escapeChars s ++ ['"']).dropLast = escapeChars s from by
    rw [List.dropLast_concat]]
  rw [unescape_escape]

theorem parsePrimitive_plain {s : Chars} (hnq : needsQuoting s = false)
    (hqs : quoteShaped s = false) (dict : List Chars) :
    parsePrimitive s dict = .str s := by
  obtain ⟨hT, hF, hU, hTi, hD, hN⟩ := needsQuoting_false_facts hnq
  rw [parsePrimitive]
  rw [if_neg hU, if_neg hT, if_neg hF, if_neg hTi]
  rw [show (if s.head? = some '$' ∧ 1 < s.length then
      (if (!(s.tail.isEmpty) && s.tail.all Char.isDigit) = true then
        some (if h : digitsToNat s.tail < dict.length then
          GoonValue.str (dict.get ⟨digitsToNat s.tail, h⟩)
        else GoonValue.str s)
      else none)
    else none) = (none : Option GoonValue) from by
      rw [if_neg (fun hc => hD hc.1)]]
  rw [if_neg (quoteShaped_false_facts hqs)]
  rw [if_neg (by rw [hN]; exact Bool.false_ne_true)]

theorem encodePrimitive_empty_ud (v : GoonValue) (ud : Bool) :
    encodePrimitive v emptyDictionary ud = encodePrimitive v emptyDictionary false := by
  cases v <;> cases ud <;> rfl

theorem parsePrimitive_encodePrimitive {v : GoonValue} (hv : goodPrimB v = true)
    (dict : List Chars) :
    parsePrimitive (encodePrimitive v emptyDictionary false) dict = v := by
  cases v with
  | null => rfl
  | bool b => cases b <;> rfl
  | num n => exact parsePrimitive_num n dict
  | str s =>
      rcases hs : s with _ | ⟨c, cs⟩
      · rfl
      · rw [← hs]
        have hsne : ¬(s = []) := by
          rw [hs]
          exact List.cons_ne_nil _ _
        rw [show encodePrimitive (GoonValue.str s) emptyDictionary false =
          quoteString s from by
            rw [encodePrimitive, if_neg hsne, if_neg (by simp)]]
        rw [quoteString]
        by_cases hq : needsQuoting s = true
        · rw [if_pos hq]
          exact parsePrimitive_quoted s dict
        · rw [Bool.not_eq_true] at hq
          rw [if_neg (by rw [hq]; exact Bool.false_ne_true)]
          rw [goodPrimB] at hv
          rw [goodStrB, Bool.or_eq_true, Bool.or_eq_true] at hv
          rcases hv with (he | hnq) | hplain
          · rw [hs] at he
            simp at he
          · rw [hq] at hnq
            simp at hnq
          · rw [Bool.and_eq_true] at hplain
            apply parsePrimitive_plain hq _ dict
            rw [Bool.not_eq_true'] at hplain
            exact hplain.2
  | arr xs => simp [goodPrimB] at hv
  | obj fs => simp [goodPrimB] at hv

theorem bumpCount_not_mem {s : Chars} : ∀ {l : List (Chars × Nat)},
    s ∉ l.map Prod.fst → bumpCount l s = l ++ [(s, 1)] := by
  intro l
  induction l with
  | nil =>
      intro _
      rfl
  | cons kv rest ih =>
      obtain ⟨k, n⟩ := kv
      intro h
      rw [List.map_cons, List.mem_cons] at h
      push_neg at h
      rw [bumpCount, if_neg (fun he => h.1 he.symm)]
      rw [ih h.2]
      rfl

theorem scanF_flat :
    ∀ (fs : List (Chars × GoonValue)) (minLen depth : Nat) (acc : List (Chars × Nat)),
      (∀ kv ∈ fs, isPrimitive kv.2 = true) →
      (∀ p ∈ acc, p.2 = 1) →
      (∀ kv ∈ fs, ∀ t, kv.2 = .str t → t ∉ acc.map Prod.fst) →
      (fs.filterMap fun kv => match kv.2 with | .str u => some u | _ => none).Nodup →
      ∀ p ∈ scanStringsF minLen fs depth acc, p.2 = 1 := by
  intro fs
  induction fs with
  | nil =>
      intro minLen depth acc _ hacc _ _ p hp
      exact hacc p hp
  | cons kv rest ih =>
      obtain ⟨k, v⟩ := kv
      intro minLen depth acc hprim hacc hdisj hnd p hp
      rw [scanStringsF] at hp
      cases v with
      | null =>
          refine ih minLen depth acc (fun q hq => hprim q (List.mem_cons_of_mem _ hq))
            hacc (fun q hq t ht => hdisj q (List.mem_cons_of_mem _ hq) t ht) ?_ p hp
          simpa using hnd
      | bool b =>
          refine ih minLen depth acc (fun q hq => hprim q (List.mem_cons_of_mem _ hq))
            hacc (fun q hq t ht => hdisj q (List.mem_cons_of_mem _ hq) t ht) ?_ p hp
          simpa using hnd
      | num n =>
          refine ih minLen depth acc (fun q hq => hprim q (List.mem_cons_of_mem _ hq))
            hacc (fun q hq t ht => hdisj q (List.mem_cons_of_mem _ hq) t ht) ?_ p hp
          simpa using hnd
      | str t =>
          rw [List.filterMap_cons] at hnd
          simp only [List.nodup_cons] at hnd
          rw [show scanStrings minLen (GoonValue.str t) depth acc =
            (if MAX_RECURSION_DEPTH < depth then acc
             else if minLen ≤ t.length then bumpCount acc t else acc) from by
            rw [scanStrings]] at hp
          have hnotin : t ∉ acc.map Prod.fst :=
            hdisj (k, GoonValue.str t) (List.mem_cons_self _ _) t rfl
          have hstep : ∀ (acc2 : List (Chars × Nat)),
              (∀ q ∈ acc2, q.2 = 1) →
              (∀ q ∈ rest, ∀ u, q.2 = .str u → u ∉ acc2.map Prod.fst) →
              p ∈ scanStringsF minLen rest depth acc2 → p.2 = 1 := by
            intro acc2 h1 h2 hp2
            exact ih minLen depth acc2
              (fun q hq => hprim q (List.mem_cons_of_mem _ hq)) h1 h2 hnd.2 p hp2
          split at hp
          · exact hstep acc hacc
              (fun q hq u hu => hdisj q (List.mem_cons_of_mem _ hq) u hu) hp
          · split at hp
            · rw [bumpCount_not_mem hnotin] at hp
              refine hstep (acc ++ [(t, 1)]) ?_ ?_ hp
              · intro q hq
                rcases List.mem_append.mp hq with h' | h'
                · exact hacc q h'
                · rw [List.mem_singleton.mp h']
              · intro q hq u hu hmem
                rw [List.map_append, List.mem_append] at hmem
                rcases hmem with h' | h'
                · exact hdisj q (List.mem_cons_of_mem _ hq) u hu h'
                · rw [List.mem_singleton.mp h'] at hu
                  exact hnd.1 (List.mem_filterMap.mpr ⟨q, hq, by rw [hu]⟩)
            · exact hstep acc hacc
                (fun q hq u hu => hdisj q (List.mem_cons_of_mem _ hq) u hu) hp
      | arr xs =>
          have h0 := hprim (k, GoonValue.arr xs) (List.mem_cons_self _ _)
          rw [show isPrimitive (GoonValue.arr xs) = false from rfl] at h0
          exact absurd h0 (by decide)
      | obj gfs =>
          have h0 := hprim (k, GoonValue.obj gfs) (List.mem_cons_self _ _)
          rw [show isPrimitive (GoonValue.obj gfs) = false from rfl] at h0
          exact absurd h0 (by decide)

theorem candRefLength_ge_two (i : Nat) : 2 ≤ candRefLength i := by
  rw [candRefLength]
  split
  · omega
  · split
    · omega
    · omega

theorem buildDictionary_flat (fs : List (Chars × GoonValue))
    (minLen minOcc maxE : Nat)
    (hprim : ∀ kv ∈ fs, isPrimitive kv.2 = true)
    (hnds : (fs.filterMap fun kv =>
      match kv.2 with | .str u => some u | _ => none).Nodup) :
    buildDictionary (GoonValue.obj fs) minLen minOcc maxE = emptyDictionary := by
  have hone : ∀ p ∈ scanStrings minLen (GoonValue.obj fs) 0 [], p.2 = 1 := by
    intro p hp
    rw [show scanStrings minLen (GoonValue.obj fs) 0 [] =
      scanStringsF minLen fs 1 [] from by
        rw [scanStrings, if_neg (by rw [MAX_RECURSION_DEPTH]; omega)]] at hp
    exact scanF_flat fs minLen 1 [] hprim (by simp) (by simp) hnds p hp
  have hkept : keptCandidates (scanStrings minLen (GoonValue.obj fs) 0 []) minOcc = [] := by
    rw [keptCandidates]
    rw [List.filter_eq_nil_iff]
    intro c hc
    rw [dictCandidates] at hc
    rcases List.mem_map.mp hc with ⟨q, hq, rfl⟩
    have hqc : q.2 ∈ (scanStrings minLen (GoonValue.obj fs) 0 []).filter
        (fun kv => minOcc ≤ kv.2) := mem_enumFrom_snd _ 0 q hq
    have hcount : q.2.2 = 1 :=
      hone q.2 (List.mem_filter.mp hqc).1
    simp only [decide_eq_true_eq]
    rw [hcount]
    have hrl := candRefLength_ge_two q.1
    have : ((q.2.1.length : Int) - candRefLength q.1) * (1 : Nat) -
        ((q.2.1.length : Int) + 1) = -(candRefLength q.1 : Int) - 1 := by
      push_cast
      ring
    rw [this]
    rw [DICT_LINE_OVERHEAD_CHARS]
    intro hlt
    have : (2 : Int) ≤ candRefLength q.1 := by exact_mod_cast hrl
    omega
  rw [buildDictionary]
  rw [hkept]
  rfl

theorem length_le_gvSizeF : ∀ (fs : List (Chars × GoonValue)), fs.length ≤ gvSizeF fs := by
  intro fs
  induction fs with
  | nil => exact Nat.le_refl 0
  | cons kv rest ih =>
      obtain ⟨k, v⟩ := kv
      rw [List.length_cons, gvSizeF]
      omega

theorem encodeEntries_flat (opts : EncodeOptions) (ud : Bool) (r : Nat) :
    ∀ (fs : List (Chars × GoonValue)) (g : Nat) (lines0 : List Chars),
      fs.length ≤ g →
      (∀ kv ∈ fs, isPrimitive kv.2 = true) →
      encodeEntries (g + 1) fs 0 opts emptyDictionary lines0 ud r =
        .ok (lines0 ++ fs.map encLine) := by
  intro fs
  induction fs with
  | nil =>
      intro g lines0 _ _
      rw [encodeEntries.eq_def]
      dsimp only
      rw [List.map_nil, List.append_nil]
  | cons kv rest ih =>
      obtain ⟨k, v⟩ := kv
      intro g lines0 hg hprim
      obtain ⟨g', rfl⟩ : ∃ g', g = g' + 1 := ⟨g - 1, by
        rw [List.length_cons] at hg
        omega⟩
      have hv := hprim (k, v) (List.mem_cons_self _ _)
      have hrest : rest.length ≤ g' := by
        rw [List.length_cons] at hg
        omega
      have hstep : ∀ (enc : Chars),
          enc = encodePrimitive v emptyDictionary ud →
          encodeEntries (g' + 1) rest 0 opts emptyDictionary
            (lines0 ++ [repeatChars opts.indent 0 ++ k ++ ':' :: ' ' :: enc]) ud r =
          .ok (lines0 ++ ((k, v) :: rest).map encLine) := by
        intro enc henc
        rw [ih g' _ hrest (fun q hq => hprim q (List.mem_cons_of_mem _ hq))]
        rw [henc, encodePrimitive_empty_ud]
        rw [show repeatChars opts.indent 0 = [] from rfl, List.nil_append]
        rw [List.map_cons]
        rw [show encLine (k, v) = k ++ ':' :: ' ' ::
          encodePrimitive v emptyDictionary false from rfl]
        rw [List.append_assoc, List.singleton_append]
      cases v with
      | null =>
          rw [encodeEntries.eq_def]
          dsimp only
          exact hstep _ rfl
      | bool b =>
          rw [encodeEntries.eq_def]
          dsimp only
          exact hstep _ rfl
      | num n =>
          rw [encodeEntries.eq_def]
          dsimp only
          exact hstep _ rfl
      | str t =>
          rw [encodeEntries.eq_def]
          dsimp only
          exact hstep _ rfl
      | arr xs =>
          rw [show isPrimitive (GoonValue.arr xs) = false from rfl] at hv
          exact absurd hv (by decide)
      | obj gfs =>
          rw [show isPrimitive (GoonValue.obj gfs) = false from rfl] at hv
          exact absurd hv (by decide)

theorem goonEncode_flat (opts : EncodeOptions) (fs : List (Chars × GoonValue))
    (hne : fs ≠ [])
    (hsafe : ∀ kv ∈ fs, isSafeKey kv.1 = true)
    (hprim : ∀ kv ∈ fs, isPrimitive kv.2 = true)
    (hnds : (fs.filterMap fun kv =>
      match kv.2 with | .str u => some u | _ => none).Nodup) :
    goonEncode opts (GoonValue.obj fs) = .ok (flatText fs) := by
  have hdict : (if opts.dictionary then
      buildDictionary (GoonValue.obj fs) opts.minDictLength opts.minDictOccurrences
        opts.maxDictEntries else emptyDictionary) = emptyDictionary := by
    split
    · exact buildDictionary_flat fs _ _ _ hprim hnds
    · rfl
  simp only [goonEncode]
  rw [hdict]
  rw [show (if emptyDictionary.entries.isEmpty = true then ([] : List Chars)
    else [dictLineChars emptyDictionary.entries]) = [] from rfl]
  obtain ⟨g, hg⟩ : ∃ g, encodeGas (GoonValue.obj fs) = ((fs.length + g) + 1) + 1 + 1 :=
    ⟨encodeGas (GoonValue.obj fs) - fs.length - 3, by
      rw [encodeGas, gvSize]
      have := length_le_gvSizeF fs
      omega⟩
  rw [hg]
  rw [encodeValue]
  rw [if_neg (by norm_num [MAX_RECURSION_DEPTH])]
  dsimp only
  rw [encodeObject.eq_def]
  dsimp only
  rw [if_neg (by norm_num [MAX_RECURSION_DEPTH])]
  rw [List.filter_eq_self.mpr (fun kv hkv => hsafe kv hkv)]
  rw [show fs.isEmpty = false from by
    rcases fs with _ | ⟨kv, rest⟩
    · exact absurd rfl hne
    · rfl]
  simp only [Bool.false_eq_true, if_false]
  rw [encodeEntries_flat opts _ (0 + 1) fs (fs.length + g) [] (by omega) hprim]
  rw [List.nil_append, flatText]

theorem wordDot_ne {c X : Char} (hc : isWordDotChar c = true)
    (hX : isWordDotChar X = false) : c ≠ X := by
  intro he
  rw [he, hX] at hc
  exact absurd hc (by decide)

theorem isJsSpace_of_wordDot {c : Char} (hc : isWordDotChar c = true) :
    isJsSpace c = false := by
  by_contra hx
  rw [Bool.not_eq_false] at hx
  rw [isJsSpace] at hx
  simp only [Bool.or_eq_true, decide_eq_true_eq] at hx
  rcases hx with ((((h | h) | h) | h) | h) | h <;>
    (rw [h] at hc; exact absurd hc (by decide))

theorem dropWhile_cons_false {p : Char → Bool} :
    ∀ {l : Chars} {c : Char} {t : Chars}, l.dropWhile p = c :: t → p c = false := by
  intro l
  induction l with
  | nil =>
      intro c t h
      simp at h
  | cons a l' ih =>
      intro c t h
      rw [List.dropWhile_cons] at h
      split at h
      · exact ih h
      · rw [List.cons.injEq] at h
        rw [← h.1]
        rename_i hpa
        exact Bool.not_eq_true _ |>.mp hpa

theorem jsTrim_eq_self {s : Chars} {c d : Char}
    (hh : s.head? = some c) (hc : isJsSpace c = false)
    (hl : s.getLast? = some d) (hd : isJsSpace d = false) : jsTrim s = s := by
  rw [jsTrim]
  have h1 : s.dropWhile isJsSpace = s := by
    rcases s with _ | ⟨a, t⟩
    · rfl
    · rw [List.head?_cons, Option.some.injEq] at hh
      rw [List.dropWhile_cons, if_neg (by rw [hh, hc]; exact Bool.false_ne_true)]
  rw [h1]
  have h2 : s.reverse.dropWhile isJsSpace = s.reverse := by
    rcases hr : s.reverse with _ | ⟨a, t⟩
    · rfl
    · have : s.getLast? = some a := by
        rw [← List.head?_reverse, hr, List.head?_cons]
      rw [hl] at this
      rw [Option.some.injEq] at this
      rw [List.dropWhile_cons, if_neg (by rw [← this, hd]; exact Bool.false_ne_true)]
  rw [h2, List.reverse_reverse]

theorem jsTrim_self_head {s : Chars} {c : Char} {t : Chars}
    (hs : jsTrim s = s) (he : s = c :: t) : isJsSpace c = false := by
  by_contra hx
  rw [Bool.not_eq_false] at hx
  have hlen : (jsTrim s).length < s.length := by
    rw [jsTrim]
    have hdwlen : ∀ (u : Chars), (u.dropWhile isJsSpace).length ≤ u.length := by
      intro u
      induction u with
      | nil => exact Nat.le_refl 0
      | cons b u' ihu =>
          rw [List.dropWhile_cons]
          split
          · rw [List.length_cons]
            omega
          · exact Nat.le_refl _
    have h1 : (s.dropWhile isJsSpace).length < s.length := by
      rw [he, List.dropWhile_cons, if_pos hx]
      have := hdwlen t
      rw [List.length_cons]
      omega
    have h2 := hdwlen (s.dropWhile isJsSpace).reverse
    rw [List.length_reverse]
    rw [List.length_reverse] at h2
    omega
  rw [hs] at hlen
  omega

theorem jsTrim_self_last {s : Chars} {d : Char}
    (hs : jsTrim s = s) (hne : s ≠ []) (hl : s.getLast? = some d) :
    isJsSpace d = false := by
  rcases hr : s.reverse with _ | ⟨a, t⟩
  · exact absurd (by simpa using congrArg List.reverse hr) hne
  · have ha : a = d := by
      have hh := List.head?_reverse s
      rw [hr, List.head?_cons, hl] at hh
      exact Option.some.inj hh
    have h2 : (s.dropWhile isJsSpace).reverse.dropWhile isJsSpace = s.reverse := by
      have hcongr := congrArg List.reverse hs
      rw [jsTrim, List.reverse_reverse] at hcongr
      exact hcongr
    rw [hr] at h2
    have hfalse := dropWhile_cons_false h2
    rw [ha] at hfalse
    exact hfalse

theorem isJsSpace_digit {c : Char} (hc : c.isDigit = true) : isJsSpace c = false := by
  by_contra hx
  rw [Bool.not_eq_false, isJsSpace] at hx
  simp only [Bool.or_eq_true, decide_eq_true_eq] at hx
  rcases hx with ((((h | h) | h) | h) | h) | h <;>
    (rw [h] at hc; exact absurd hc (by decide))

theorem newline_not_mem_escapeChars (s : Chars) : '\n' ∉ escapeChars s := by
  induction s with
  | nil => simp [escapeChars]
  | cons c t ih =>
      rw [escapeChars]
      intro hmem
      rcases List.mem_append.mp hmem with h | h
      · rw [escapeChar] at h
        by_cases h1 : c = '\\'
        · rw [if_pos h1] at h
          simp at h
        · rw [if_neg h1] at h
          by_cases h2 : c = '"'
          · rw [if_pos h2] at h
            simp at h
          · rw [if_neg h2] at h
            by_cases h3 : c = '\n'
            · rw [if_pos h3] at h
              simp at h
            · rw [if_neg h3] at h
              by_cases h4 : c = '\r'
              · rw [if_pos h4] at h
                simp at h
              · rw [if_neg h4] at h
                by_cases h5 : c = '\t'
                · rw [if_pos h5] at h
                  simp at h
                · rw [if_neg h5] at h
                  exact h3 (List.mem_singleton.mp h).symm
      · exact ih h

theorem needsQuoting_of_mem_nl {s : Chars} (h : '\n' ∈ s) : needsQuoting s = true := by
  rw [needsQuoting]
  rw [if_neg (by intro he; rw [he] at h; simp at h)]
  by_cases h2 : (decide (s = ['T']) || decide (s = ['F']) || decide (s = ['_']) ||
      decide (s = ['~']) || decide (s = ['^'])) = true
  · rw [if_pos h2]
  · rw [if_neg h2]
    by_cases h3 : (decide (s.head? = some '$') || decide (s.head? = some '^')) = true
    · rw [if_pos h3]
    · rw [if_neg h3]
      rw [if_pos (by
        rw [List.any_eq_true]
        exact ⟨'\n', h, by decide⟩)]

theorem enc_facts {v : GoonValue} (hv : goodPrimB v = true) :
    (∃ c t, encodePrimitive v emptyDictionary false = c :: t ∧ isJsSpace c = false) ∧
    (∀ d, (encodePrimitive v emptyDictionary false).getLast? = some d →
      isJsSpace d = false) ∧
    '\n' ∉ encodePrimitive v emptyDictionary false := by
  cases v with
  | null =>
      refine ⟨⟨'_', [], rfl, by decide⟩, ?_, by decide⟩
      intro d hd
      rw [show (encodePrimitive GoonValue.null emptyDictionary false) = ['_'] from rfl] at hd
      rw [show (['_'] : Chars).getLast? = some '_' from rfl] at hd
      rw [← Option.some.inj hd]
      decide
  | bool b =>
      cases b
      · refine ⟨⟨'F', [], rfl, by decide⟩, ?_, by decide⟩
        intro d hd
        rw [show (encodePrimitive (GoonValue.bool false) emptyDictionary false) =
          ['F'] from rfl] at hd
        rw [show (['F'] : Chars).getLast? = some 'F' from rfl] at hd
        rw [← Option.some.inj hd]
        decide
      · refine ⟨⟨'T', [], rfl, by decide⟩, ?_, by decide⟩
        intro d hd
        rw [show (encodePrimitive (GoonValue.bool true) emptyDictionary false) =
          ['T'] from rfl] at hd
        rw [show (['T'] : Chars).getLast? = some 'T' from rfl] at hd
        rw [← Option.some.inj hd]
        decide
  | num n =>
      have hmem := intToChars_mem n
      have hshape : encodePrimitive (GoonValue.num n) emptyDictionary false =
          intToChars n := rfl
      rw [hshape]
      have hne : intToChars n ≠ [] := by
        cases n with
        | ofNat m =>
            rw [show intToChars (Int.ofNat m) = natToChars m from rfl]
            exact natToChars_ne_nil m
        | negSucc m =>
            rw [show intToChars (Int.negSucc m) = '-' :: natToChars (m + 1) from rfl]
            exact List.cons_ne_nil _ _
      refine ⟨?_, ?_, ?_⟩
      · rcases hx : intToChars n with _ | ⟨c, t⟩
        · exact absurd hx hne
        · refine ⟨c, t, rfl, ?_⟩
          rcases hmem c (hx ▸ List.mem_cons_self _ _) with hd | hd
          · exact isJsSpace_digit hd
          · rw [hd]
            decide
      · intro d hd
        have hdm : d ∈ intToChars n := by
          rcases List.mem_getLast?_eq_getLast (Option.mem_def.mpr hd) with ⟨h, hx⟩
          rw [hx]
          exact List.getLast_mem h
        rcases hmem d hdm with h' | h'
        · exact isJsSpace_digit h'
        · rw [h']
          decide
      · intro hmem2
        rcases hmem '\n' hmem2 with h' | h' <;> exact absurd h' (by decide)
  | str s =>
      rcases hs : s with _ | ⟨c0, t0⟩
      · refine ⟨⟨'~', [], rfl, by decide⟩, ?_, by decide⟩
        intro d hd
        rw [show (encodePrimitive (GoonValue.str []) emptyDictionary false) =
          ['~'] from rfl] at hd
        rw [show (['~'] : Chars).getLast? = some '~' from rfl] at hd
        rw [← Option.some.inj hd]
        decide
      · rw [← hs]
        have hsne : ¬(s = []) := by
          rw [hs]
          exact List.cons_ne_nil _ _
        have hshape : encodePrimitive (GoonValue.str s) emptyDictionary false =
            quoteString s := by
          rw [encodePrimitive, if_neg hsne, if_neg (by simp)]
        rw [hshape, quoteString]
        by_cases hq : needsQuoting s = true
        · rw [if_pos hq]
          refine ⟨⟨'"', escapeChars s ++ ['"'], rfl, by decide⟩, ?_, ?_⟩
          · intro d hd
            rw [show ('"' :: escapeChars s ++ ['"']) = ('"' :: escapeChars s) ++ ['"']
              from by simp, List.getLast?_concat] at hd
            rw [← Option.some.inj hd]
            decide
          · intro hmem2
            rcases List.mem_cons.mp hmem2 with h' | h'
            · exact absurd h'.symm (by decide)
            · rcases List.mem_append.mp h' with h'' | h''
              · exact newline_not_mem_escapeChars s h''
              · rw [List.mem_singleton.mp h''] at hmem2
                exact absurd (List.mem_singleton.mp h'') (by decide)
        · rw [Bool.not_eq_true] at hq
          rw [if_neg (by rw [hq]; exact Bool.false_ne_true)]
          rw [goodPrimB, goodStrB, Bool.or_eq_true, Bool.or_eq_true] at hv
          rcases hv with (he | hnq) | hplain
          · rw [hs] at he
            simp at he
          · rw [hq] at hnq
            simp at hnq
          · rw [Bool.and_eq_true] at hplain
            have htrim : jsTrim s = s := by
              have := hplain.1
              rwa [decide_eq_true_eq] at this
            refine ⟨⟨c0, t0, hs, jsTrim_self_head htrim hs⟩, ?_, ?_⟩
            · intro d hd
              exact jsTrim_self_last htrim hsne hd
            · intro hmem2
              rw [needsQuoting_of_mem_nl hmem2] at hq
              exact absurd hq (by decide)
  | arr xs => simp [goodPrimB] at hv
  | obj fs => simp [goodPrimB] at hv

theorem wordDotSpan_keyColon {k : Chars} (rest : Chars)
    (hk : k.all isWordDotChar = true) :
    wordDotSpan (k ++ ':' :: rest) = (k, ':' :: rest) := by
  induction k with
  | nil =>
      rw [List.nil_append, wordDotSpan]
      rw [List.takeWhile_cons, List.dropWhile_cons]
      rw [show isWordDotChar ':' = false from by decide]
      simp
  | cons c t ih =>
      rw [List.all_cons, Bool.and_eq_true] at hk
      have h2 := ih hk.2
      rw [wordDotSpan, Prod.mk.injEq] at h2
      rw [List.cons_append, wordDotSpan]
      rw [List.takeWhile_cons, List.dropWhile_cons, hk.1]
      rw [if_pos rfl]
      rw [h2.1, h2.2]
      rw [if_pos rfl]

theorem keyValueMatch_key {k rem : Chars} (hk1 : k.isEmpty = false)
    (hk2 : k.all isWordDotChar = true) (hrem : rem.isEmpty = false) :
    keyValueMatch (k ++ ':' :: rem) = some (k, rem) := by
  simp only [keyValueMatch]
  rw [wordDotSpan_keyColon rem hk2]
  show (if k.isEmpty = true then none
    else if rem.isEmpty = true then none else some (k, rem)) = some (k, rem)
  rw [hk1, hrem]
  simp

theorem headerTail_word {c : Char} {t : Chars} (hc : isWordDotChar c = true) :
    headerTail (c :: t) = none := by
  have h1 : c ≠ '[' := wordDot_ne hc (by decide)
  have h2 : c ≠ charLB := wordDot_ne hc (by decide)
  simp only [headerTail]
  split
  · rename_i heq
    split at heq
    · rename_i r heq2
      injection heq2 with hch _
      exact absurd hch h1
    · exact absurd heq (by simp)
  · rename_i r2 heq
    split at heq
    · rename_i r heq2
      injection heq2 with hch _
      exact absurd hch h1
    · rw [← Option.some.inj heq]
      split
      · rename_i c' r3 heq2
        injection heq2 with h3 h4
        rw [if_neg (by rw [← h3]; exact h2)]
      · rename_i heq2
        exact absurd heq2 (by simp)

theorem standaloneSimpleArrMatch_word {c : Char} {t : Chars}
    (hc : isWordDotChar c = true) :
    standaloneSimpleArrMatch (c :: t) = none := by
  have h1 : c ≠ '[' := wordDot_ne hc (by decide)
  rw [standaloneSimpleArrMatch.eq_def]
  split
  · rename_i heq
    injection heq with hch _
    exact absurd hch h1
  · rfl

theorem looksLikeObjectLine_key {k rem : Chars} (hk1 : k.isEmpty = false)
    (hk2 : k.all isWordDotChar = true) :
    looksLikeObjectLine (k ++ ':' :: rem) = true := by
  simp only [looksLikeObjectLine]
  rw [wordDotSpan_keyColon rem hk2]
  rw [Bool.and_eq_true]
  refine ⟨by rw [hk1]; rfl, rfl⟩

theorem dollarPrefix_word {c : Char} {t : Chars} (hc : isWordDotChar c = true) :
    "$:".toList.isPrefixOf (c :: t) = false := by
  have h1 : c ≠ '$' := wordDot_ne hc (by decide)
  show ((('$' : Char) == c) && ([':'] : Chars).isPrefixOf t) = false
  rw [show (('$' : Char) == c) = false from beq_eq_false_iff_ne.mpr (Ne.symm h1)]
  rw [Bool.false_and]

theorem detectIndent_cons_nonspace {c : Char} {t : Chars} {rest : List Chars}
    (hc : isJsSpace c = false) :
    detectIndent ((c :: t) :: rest) = detectIndent rest := by
  rw [detectIndent.eq_def]
  show (if isJsSpace c = true then
      if c = '\t' then ['\t']
      else List.replicate (min ((c :: t).takeWhile (fun x => x = ' ')).length 8) ' '
    else detectIndent rest) = detectIndent rest
  rw [hc]
  rw [if_neg (by simp)]

theorem getIndentLevel_nonspace {c : Char} {t indent : Chars}
    (hc : isJsSpace c = false) (hi : indent = "  ".toList) :
    getIndentLevel (c :: t) indent = 0 := by
  rw [hi, getIndentLevel]
  rw [if_neg (by simp)]
  rw [show (c :: t : Chars).length = t.length + 1 from by
    rw [List.length_cons]]
  rw [indentLevelAux]
  rw [if_neg ?_]
  intro hpre
  rw [show ("  ".toList : Chars) = ' ' :: [' '] from rfl] at hpre
  rw [show (' ' :: [' '] : Chars).isPrefixOf (c :: t) =
    (((' ' : Char) == c) && ([' '] : Chars).isPrefixOf t) from rfl] at hpre
  rw [Bool.and_eq_true] at hpre
  have := beq_iff_eq.mp hpre.1
  rw [← this] at hc
  exact absurd hc (by decide)

theorem setField_not_mem {α : Type} {obj : List (Chars × α)} {k : Chars} {v : α}
    (h : k ∉ obj.map Prod.fst) : setField obj k v = obj ++ [(k, v)] := by
  induction obj with
  | nil => rfl
  | cons kv rest ih =>
      rcases kv with ⟨k0, w0⟩
      rw [List.map_cons, List.mem_cons] at h
      push_neg at h
      rw [setField, if_neg ?_, ih h.2, List.cons_append]
      intro he
      exact h.1 he.symm

theorem jsTrim_space {enc : Chars} {c : Char} {t : Chars}
    (he : enc = c :: t) (hc : isJsSpace c = false)
    (hd : ∀ d, enc.getLast? = some d → isJsSpace d = false) :
    jsTrim (' ' :: enc) = enc := by
  rw [jsTrim]
  rw [show (' ' :: enc).dropWhile isJsSpace = enc.dropWhile isJsSpace from by
    rw [List.dropWhile_cons, if_pos (by decide)]]
  rw [show enc.dropWhile isJsSpace = enc from by
    rw [he, List.dropWhile_cons, if_neg (by rw [hc]; exact Bool.false_ne_true)]]
  have hne : enc ≠ [] := by
    rw [he]
    exact List.cons_ne_nil _ _
  rcases hr : enc.reverse with _ | ⟨a, u⟩
  · exact absurd (by simpa using congrArg List.reverse hr) hne
  · have ha : enc.getLast? = some a := by
      have hh := List.head?_reverse enc
      rw [hr, List.head?_cons] at hh
      exact hh.symm
    have hfa := hd a ha
    rw [List.dropWhile_cons, if_neg (by rw [hfa]; exact Bool.false_ne_true)]
    rw [← hr, List.reverse_reverse]

theorem goodKey_facts {k : Chars} (hk : goodKeyB k = true) :
    (∃ c t, k = c :: t ∧ isWordDotChar c = true) ∧
    k.all isWordDotChar = true ∧ k.isEmpty = false ∧ isSafeKey k = true := by
  rw [goodKeyB, Bool.and_eq_true, Bool.and_eq_true] at hk
  have hke : k.isEmpty = false := by
    have := hk.1.1
    rwa [Bool.not_eq_true'] at this
  refine ⟨?_, hk.1.2, hke, hk.2⟩
  rcases hs : k with _ | ⟨c, t⟩
  · rw [hs] at hke
    exact absurd hke (by decide)
  · refine ⟨c, t, rfl, ?_⟩
    have := hk.1.2
    rw [hs, List.all_cons, Bool.and_eq_true] at this
    exact this.1

theorem not_mem_of_all_wordDot {k : Chars} {X : Char}
    (hk : k.all isWordDotChar = true) (hX : isWordDotChar X = false) : X ∉ k := by
  intro hmem
  rw [List.all_eq_true] at hk
  have := hk X hmem
  rw [hX] at this
  exact absurd this (by decide)

theorem encLine_facts {k : Chars} {v : GoonValue}
    (hk : goodKeyB k = true) (hv : goodPrimB v = true) :
    (∃ c t, encLine (k, v) = c :: t ∧ isWordDotChar c = true) ∧
    jsTrim (encLine (k, v)) = encLine (k, v) ∧
    '\n' ∉ encLine (k, v) := by
  obtain ⟨⟨c, kt, hkc, hcw⟩, hall, hke, hsafe⟩ := goodKey_facts hk
  obtain ⟨⟨e0, et, he, he0⟩, hlast, hnl⟩ := enc_facts hv
  have hshape : encLine (k, v) = c :: (kt ++ ':' :: ' ' ::
      encodePrimitive v emptyDictionary false) := by
    rw [encLine, hkc, List.cons_append]
  refine ⟨⟨c, _, hshape, hcw⟩, ?_, ?_⟩
  · have hEne : encodePrimitive v emptyDictionary false ≠ [] := by
      rw [he]
      exact List.cons_ne_nil _ _
    have hh : (encLine (k, v)).head? = some c := by
      rw [hshape, List.head?_cons]
    have hlq : (encLine (k, v)).getLast? =
        (encodePrimitive v emptyDictionary false).getLast? := by
      rw [encLine]
      rw [show (':' :: ' ' :: encodePrimitive v emptyDictionary false) =
        [':', ' '] ++ encodePrimitive v emptyDictionary false from rfl]
      rw [← List.append_assoc]
      exact List.getLast?_append_of_ne_nil _ hEne
    rcases hgl : (encodePrimitive v emptyDictionary false).getLast? with _ | d
    · rw [he, List.getLast?_eq_getLast_of_ne_nil (List.cons_ne_nil e0 et)] at hgl
      exact absurd hgl (by simp)
    · refine jsTrim_eq_self hh (isJsSpace_of_wordDot hcw) ?_ (hlast d hgl)
      rw [hlq, hgl]
  · rw [encLine]
    intro hmem
    rcases List.mem_append.mp hmem with hmk | hmr
    · exact not_mem_of_all_wordDot hall (by decide) hmk
    · rcases List.mem_cons.mp hmr with h1 | h1
      · exact absurd h1.symm (by decide)
      · rcases List.mem_cons.mp h1 with h2 | h2
        · exact absurd h2.symm (by decide)
        · exact hnl h2

theorem flatCtx_get (lines : List Chars) (i : Nat) :
    (flatCtx lines i).lines.get? (flatCtx lines i).index = lines.get? i := rfl

theorem bumpCtx_flatCtx (lines : List Chars) (i : Nat) :
    bumpCtx (flatCtx lines i) = flatCtx lines (i + 1) := rfl

theorem parseObjLoop_flat :
    ∀ (rest : List (Chars × GoonValue)) (pre : List Chars) (f : Nat)
      (obj : List (Chars × GoonValue)),
      (∀ kv ∈ rest, goodKeyB kv.1 = true ∧ goodPrimB kv.2 = true) →
      (∀ kv ∈ rest, kv.1 ∉ obj.map Prod.fst) →
      (rest.map Prod.fst).Nodup →
      rest.length < f →
      parseObjLoop f (flatCtx (pre ++ rest.map encLine) pre.length) 0 obj =
        .ok (.obj (obj ++ rest),
          flatCtx (pre ++ rest.map encLine) (pre.length + rest.length)) := by
  intro rest
  induction rest with
  | nil =>
      intro pre f obj hgood hnk hnd hf
      obtain ⟨f', rfl⟩ : ∃ f', f = f' + 1 := ⟨f - 1, by omega⟩
      rw [List.map_nil, List.append_nil, List.append_nil, Nat.add_zero]
      show parseObjLoop (f' + 1) _ _ _ = _
      unfold parseObjLoop
      rw [flatCtx_get]
      rw [List.get?_eq_none.mpr (Nat.le_refl _)]
      rfl
  | cons kv rest' ih =>
      intro pre f obj hgood hnk hnd hf
      rcases kv with ⟨k, v⟩
      have hkv := hgood (k, v) (List.mem_cons_self _ _)
      obtain ⟨⟨c0, t0, hkc, hcw⟩, hall, hke, hsafe⟩ := goodKey_facts hkv.1
      obtain ⟨⟨e0, et, he, he0⟩, hlastE, hnlE⟩ := enc_facts hkv.2
      obtain ⟨⟨lc, lt, hlshape, hlcw⟩, hltrim, hlnl⟩ := encLine_facts hkv.1 hkv.2
      obtain ⟨f', rfl⟩ : ∃ f', f = f' + 1 := ⟨f - 1, by omega⟩
      rw [List.map_cons]
      have hget : (pre ++ encLine (k, v) :: rest'.map encLine).get? pre.length =
          some (encLine (k, v)) := by
        rw [List.get?_append_right (Nat.le_refl _), Nat.sub_self]
        rfl
      have hind : getIndentLevel (encLine (k, v)) ("  ".toList) = 0 := by
        rw [hlshape]
        exact getIndentLevel_nonspace (isJsSpace_of_wordDot hlcw) rfl
      have hkvm : keyValueMatch (encLine (k, v)) =
          some (k, ' ' :: encodePrimitive v emptyDictionary false) :=
        keyValueMatch_key hke hall rfl
      have hcell : parsePrimitive
          (jsTrim (' ' :: encodePrimitive v emptyDictionary false)) [] = v := by
        rw [jsTrim_space he he0 hlastE]
        exact parsePrimitive_encodePrimitive hkv.2 []
      have hsetf : setField obj k v = obj ++ [(k, v)] :=
        setField_not_mem (hnk (k, v) (List.mem_cons_self _ _))
      rw [List.map_cons, List.nodup_cons] at hnd
      show parseObjLoop (f' + 1) _ _ _ = _
      unfold parseObjLoop
      rw [flatCtx_get, hget]
      simp only [show (flatCtx (pre ++ encLine (k, v) :: rest'.map encLine)
          pre.length).indent = "  ".toList from rfl,
        show (flatCtx (pre ++ encLine (k, v) :: rest'.map encLine)
          pre.length).dictionary = ([] : List Chars) from rfl,
        hind, hltrim, hkvm, hcell, hsafe, hsetf,
        Nat.cast_zero, lt_self_iff_false, if_false, eq_self_iff_true, if_true,
        bumpCtx_flatCtx]
      have harr : pre ++ encLine (k, v) :: rest'.map encLine =
          (pre ++ [encLine (k, v)]) ++ rest'.map encLine := by
        rw [List.append_assoc, List.singleton_append]
      have hidx : pre.length + 1 = (pre ++ [encLine (k, v)]).length := by
        rw [List.length_append, List.length_cons, List.length_nil]
      rw [harr, hidx]
      have hg' : ∀ kv' ∈ rest', goodKeyB kv'.1 = true ∧ goodPrimB kv'.2 = true :=
        fun kv' h' => hgood kv' (List.mem_cons_of_mem _ h')
      have hn' : ∀ kv' ∈ rest', kv'.1 ∉ (obj ++ [(k, v)]).map Prod.fst := by
        intro kv' h' hmem
        rw [List.map_append] at hmem
        rcases List.mem_append.mp hmem with h1 | h1
        · exact hnk kv' (List.mem_cons_of_mem _ h') h1
        · have hk' : kv'.1 = k := by simpa using h1
          have hmm : kv'.1 ∈ rest'.map Prod.fst := List.mem_map_of_mem Prod.fst h'
          rw [hk'] at hmm
          exact hnd.1 hmm
      have hf' : rest'.length < f' := by
        rw [List.length_cons] at hf
        omega
      rw [ih (pre ++ [encLine (k, v)]) f' (obj ++ [(k, v)]) hg' hn' hnd.2 hf']
      have hlen2 : (pre ++ [encLine (k, v)]).length + rest'.length =
          pre.length + ((k, v) :: rest').length := by
        rw [List.length_append, List.length_cons, List.length_nil, List.length_cons]
        omega
      rw [hlen2, List.append_assoc, List.singleton_append]

theorem rootCtx_bump (lines : List Chars) :
    ({ rootCtx lines with depth := (rootCtx lines).depth + 1 } : ParseCtx) =
      flatCtx lines 0 := rfl

theorem detectIndent_encLines (fs : List (Chars × GoonValue))
    (h : ∀ kv ∈ fs, goodKeyB kv.1 = true ∧ goodPrimB kv.2 = true) :
    detectIndent (fs.map encLine) = "  ".toList := by
  induction fs with
  | nil => rfl
  | cons kv rest ih =>
      have hkv := h kv (List.mem_cons_self _ _)
      obtain ⟨⟨lc, lt, hlshape, hlcw⟩, _, _⟩ := encLine_facts hkv.1 hkv.2
      rw [List.map_cons, hlshape,
        detectIndent_cons_nonspace (isJsSpace_of_wordDot hlcw)]
      exact ih (fun kv' h' => h kv' (List.mem_cons_of_mem _ h'))

theorem goonDecode_flat (k0 : Chars) (v0 : GoonValue) (fs' : List (Chars × GoonValue))
    (hok : flatObjOK ((k0, v0) :: fs'))
    (hsize : utf8ByteLen (flatText ((k0, v0) :: fs')) ≤ MAX_INPUT_SIZE) :
    goonDecode (flatText ((k0, v0) :: fs')) = .ok (.obj ((k0, v0) :: fs')) := by
  obtain ⟨hgood, hndk, hnds⟩ := hok
  have hkv0 := hgood (k0, v0) (List.mem_cons_self _ _)
  obtain ⟨⟨lc, lt, hs, hcw⟩, htr, hnl0⟩ := encLine_facts hkv0.1 hkv0.2
  have hlinesFacts : ∀ l ∈ ((k0, v0) :: fs').map encLine,
      jsTrim l = l ∧ '\n' ∉ l ∧ ∃ c t, l = c :: t := by
    intro l hl
    obtain ⟨kv, hkv, rfl⟩ := List.mem_map.mp hl
    obtain ⟨⟨c, t, hsh, _⟩, htr', hnl'⟩ := encLine_facts (hgood kv hkv).1 (hgood kv hkv).2
    exact ⟨htr', hnl', c, t, hsh⟩
  have hsplit : splitOnChar '\n' (flatText ((k0, v0) :: fs')) =
      ((k0, v0) :: fs').map encLine := by
    rw [flatText]
    exact splitOnChar_intercalate '\n' _
      (by rw [List.map_cons]; exact List.cons_ne_nil _ _)
      (fun l hl => (hlinesFacts l hl).2.1)
  have hfilter : (((k0, v0) :: fs').map encLine).filter
      (fun l => !(jsTrim l).isEmpty) = ((k0, v0) :: fs').map encLine := by
    rw [List.filter_eq_self]
    intro l hl
    obtain ⟨htr', _, c, t, hsh⟩ := hlinesFacts l hl
    rw [htr', hsh]
    rfl
  have hdet : detectIndent (((k0, v0) :: fs').map encLine) = "  ".toList :=
    detectIndent_encLines _ hgood
  have hdollar : "$:".toList.isPrefixOf (encLine (k0, v0)) = false := by
    rw [hs]
    exact dollarPrefix_word hcw
  have hfuel : decodeFuel (encLine (k0, v0) :: fs'.map encLine) =
      (8 * fs'.length + 262) + 1 + 1 := by
    rw [decodeFuel, List.length_cons, List.length_map]
    omega
  have hglt : ((k0, v0) :: fs').length < 8 * fs'.length + 262 := by
    rw [List.length_cons]
    omega
  have hloop := parseObjLoop_flat ((k0, v0) :: fs') [] (8 * fs'.length + 262) []
    hgood (by intro kv h hmem; simp at hmem) hndk hglt
  rw [List.nil_append, List.nil_append, List.length_nil, List.map_cons] at hloop
  have hne1 : ¬(encLine (k0, v0) = [charLB, charRB]) := by
    intro hh
    rw [hs] at hh
    injection hh with h1 _
    exact wordDot_ne hcw (by decide) h1
  have hne2 : ¬(encLine (k0, v0) = ['[', ']']) := by
    intro hh
    rw [hs] at hh
    injection hh with h1 _
    exact wordDot_ne hcw (by decide) h1
  have h3 : standaloneTabularMatch (encLine (k0, v0)) = none := by
    rw [hs, standaloneTabularMatch]
    exact headerTail_word hcw
  have h4 : standaloneSimpleArrMatch (encLine (k0, v0)) = none := by
    rw [hs]
    exact standaloneSimpleArrMatch_word hcw
  have h5 : looksLikeObjectLine (encLine (k0, v0)) = true :=
    looksLikeObjectLine_key (goodKey_facts hkv0.1).2.2.1 (goodKey_facts hkv0.1).2.1
  have hobj : parseObject (8 * fs'.length + 262 + 1)
      (rootCtx (encLine (k0, v0) :: fs'.map encLine)) 0 =
      .ok (.obj ((k0, v0) :: fs'),
        { flatCtx (encLine (k0, v0) :: fs'.map encLine) (0 + ((k0, v0) :: fs').length) with depth := 0 }) := by
    show parseObject (8 * fs'.length + 262 + 1) _ _ = _
    unfold parseObject
    rw [if_neg (by intro hcontra; rw [show (rootCtx (encLine (k0, v0) :: fs'.map encLine)).depth = 0 from rfl, MAX_RECURSION_DEPTH] at hcontra; omega)]
    rw [rootCtx_bump, hloop]
    rfl
  have hroot : parseRoot (8 * fs'.length + 262 + 1 + 1)
      (rootCtx (encLine (k0, v0) :: fs'.map encLine)) =
      .ok (.obj ((k0, v0) :: fs'),
        { flatCtx (encLine (k0, v0) :: fs'.map encLine) (0 + ((k0, v0) :: fs').length) with depth := 0 }) := by
    unfold parseRoot
    rw [show (rootCtx (encLine (k0, v0) :: fs'.map encLine)).lines.get? (rootCtx (encLine (k0, v0) :: fs'.map encLine)).index = some (encLine (k0, v0)) from rfl]
    simp only [htr]
    rw [if_neg hne1, if_neg hne2]
    simp only [h3, h4, h5, if_true]
    exact hobj
  simp only [goonDecode]
  rw [if_neg (by omega)]
  rw [hsplit, hfilter, List.map_cons]
  simp only [hdollar, Bool.false_eq_true, if_false]
  rw [if_neg (by simp : ¬ (encLine (k0, v0) :: fs'.map encLine).length ≤ 0)]
  rw [show detectIndent (encLine (k0, v0) :: fs'.map encLine) = "  ".toList from by rw [← List.map_cons]; exact hdet]
  rw [hfuel]
  rw [show (ParseCtx.mk (encLine (k0, v0) :: fs'.map encLine) 0 [] "  ".toList 0) = rootCtx (encLine (k0, v0) :: fs'.map encLine) from rfl]
  rw [hroot]

theorem lookupAssoc_some_mem {α : Type} :
    ∀ {l : List (Chars × α)} {s : Chars} {r : α},
      lookupAssoc l s = some r → r ∈ l.map Prod.snd := by
  intro l
  induction l with
  | nil =>
      intro s r h
      simp [lookupAssoc] at h
  | cons kv rest ih =>
      intro s r h
      rcases kv with ⟨k, v⟩
      rw [lookupAssoc] at h
      split at h
      · rw [List.map_cons, ← Option.some.inj h]
        exact List.mem_cons_self _ _
      · exact List.mem_cons_of_mem _ (ih h)

theorem dictPickLoop_lookup_refs (counts : List (Chars × Nat)) (maxE : Nat) :
    ∀ (cands : List DictCand) (entries : List Chars) (lookup : List (Chars × Chars)),
      (∀ p ∈ lookup, ∃ i, p.2 = refToken i) →
      ∀ p ∈ (dictPickLoop counts maxE cands entries lookup).lookup,
        ∃ i, p.2 = refToken i := by
  intro cands
  induction cands with
  | nil =>
      intro entries lookup h p hp
      exact h p hp
  | cons c rest ih =>
      intro entries lookup h p hp
      simp only [dictPickLoop] at hp
      split at hp
      · exact h p hp
      · split at hp
        · refine ih _ _ ?_ p hp
          intro q hq
          rcases List.mem_append.mp hq with h1 | h1
          · exact h q h1
          · rw [List.mem_singleton.mp h1]
            exact ⟨entries.length, rfl⟩
        · exact ih _ _ h p hp

theorem buildDictionary_lookup_refs (value : GoonValue) (a b c : Nat) :
    ∀ p ∈ (buildDictionary value a b c).lookup, ∃ i, p.2 = refToken i :=
  dictPickLoop_lookup_refs (scanStrings a value 0 []) c
    (sortCandsDesc (keptCandidates (scanStrings a value 0 []) b)) [] []
    (by intro p hp; simp at hp)

theorem refToken_ne_caret (i : Nat) : refToken i ≠ ['^'] := by
  rw [refToken]
  intro h
  injection h with h1 _
  exact absurd h1 (by decide)

theorem encodePrimitive_built_ne_caret (value : GoonValue) (a b c : Nat)
    (v : GoonValue) (ud : Bool) :
    encodePrimitive v (buildDictionary value a b c) ud ≠ ['^'] := by
  cases v with
  | null =>
      rw [show encodePrimitive GoonValue.null (buildDictionary value a b c) ud =
        ['_'] from rfl]
      decide
  | bool bb =>
      cases bb
      · rw [show encodePrimitive (GoonValue.bool false) (buildDictionary value a b c) ud =
          ['F'] from rfl]
        decide
      · rw [show encodePrimitive (GoonValue.bool true) (buildDictionary value a b c) ud =
          ['T'] from rfl]
        decide
  | num n => exact intToChars_ne_caret n
  | str s =>
      rw [encodePrimitive]
      split
      · decide
      · split
        · split
          · rename_i ref heq
            obtain ⟨q, hq, hq2⟩ := List.mem_map.mp (lookupAssoc_some_mem heq)
            obtain ⟨i, hi⟩ := buildDictionary_lookup_refs value a b c q hq
            rw [← hq2, hi]
            exact refToken_ne_caret i
          · exact quoteString_ne_caret s
        · exact quoteString_ne_caret s
  | arr xs =>
      rw [show encodePrimitive (GoonValue.arr xs) (buildDictionary value a b c) ud =
        [] from rfl]
      decide
  | obj fs =>
      rw [show encodePrimitive (GoonValue.obj fs) (buildDictionary value a b c) ud =
        [] from rfl]
      decide

theorem tabCell_built_none_ne_caret (opts : EncodeOptions) (value : GoonValue)
    (a b c : Nat) (ucr ud : Bool) (dv : Option GoonValue) (v : GoonValue) :
    tabCell opts (buildDictionary value a b c) ucr ud dv v none ≠ ['^'] := by
  rw [tabCell, if_neg (by simp)]
  split
  · decide
  · exact encodePrimitive_built_ne_caret value a b c v ud

theorem tabEncClass_ne {c X : Char} (h : tableChar c = true ∨ c = '~')
    (hX : tableChar X = false) (hX2 : X ≠ '~') : c ≠ X := by
  intro he
  subst he
  rcases h with h | h
  · rw [hX] at h
    exact absurd h (by decide)
  · exact hX2 h

theorem tabEncClass_space {c : Char} (h : tableChar c = true ∨ c = '~')
    (hne : c ≠ ' ') : isJsSpace c = false := by
  by_contra hx
  rw [Bool.not_eq_false, isJsSpace] at hx
  simp only [Bool.or_eq_true, decide_eq_true_eq] at hx
  rcases hx with ((((h1 | h1) | h1) | h1) | h1) | h1
  · exact hne h1
  all_goals
    (subst h1
     rcases h with h | h
     · exact absurd h (by decide)
     · exact absurd h (by decide))

theorem tabEnc_facts {v : GoonValue} (hv : tableCellOK v = true) :
    encodePrimitive v emptyDictionary true ≠ [] ∧
    (∀ c ∈ encodePrimitive v emptyDictionary true, tableChar c = true ∨ c = '~') ∧
    (encodePrimitive v emptyDictionary true).head? ≠ some ' ' ∧
    (encodePrimitive v emptyDictionary true).getLast? ≠ some ' ' := by
  cases v with
  | null => simp [tableCellOK] at hv
  | bool b => cases b <;> exact ⟨by decide, by decide, by decide, by decide⟩
  | num n =>
      have hmem := intToChars_mem n
      have hshape : encodePrimitive (GoonValue.num n) emptyDictionary true =
          intToChars n := rfl
      rw [hshape]
      have hcls : ∀ c ∈ intToChars n, tableChar c = true ∨ c = '~' := by
        intro c hc
        rcases hmem c hc with h | h
        · left
          rw [tableChar, Char.isAlphanum, h]
          simp
        · left
          rw [h]
          decide
      refine ⟨?_, hcls, ?_, ?_⟩
      · cases n with
        | ofNat m =>
            rw [show intToChars (Int.ofNat m) = natToChars m from rfl]
            exact natToChars_ne_nil m
        | negSucc m =>
            rw [show intToChars (Int.negSucc m) = '-' :: natToChars (m + 1) from rfl]
            exact List.cons_ne_nil _ _
      · intro hh
        have hm : ' ' ∈ intToChars n := List.mem_of_mem_head? (Option.mem_def.mpr hh)
        rcases hmem ' ' hm with h | h
        · exact absurd h (by decide)
        · exact absurd h (by decide)
      · intro hh
        have hm : ' ' ∈ intToChars n := by
          rcases List.mem_getLast?_eq_getLast (Option.mem_def.mpr hh) with ⟨hx, heq⟩
          rw [heq]
          exact List.getLast_mem hx
        rcases hmem ' ' hm with h | h
        · exact absurd h (by decide)
        · exact absurd h (by decide)
  | str s =>
      rw [tableCellOK, Bool.or_eq_true] at hv
      rcases hv with h1 | h1
      · have hse : s = [] := by simpa using h1
        subst hse
        exact ⟨by decide, by decide, by decide, by decide⟩
      · rw [Bool.and_eq_true, Bool.and_eq_true, Bool.and_eq_true] at h1
        obtain ⟨⟨⟨hnq, hall⟩, hhd⟩, hlst⟩ := h1
        rw [Bool.not_eq_true'] at hnq
        rw [decide_eq_true_eq] at hhd hlst
        by_cases hse : s = []
        · subst hse
          exact ⟨by decide, by decide, by decide, by decide⟩
        · have hshape : encodePrimitive (GoonValue.str s) emptyDictionary true =
              s := by
            rw [encodePrimitive, if_neg hse]
            rw [show (if true = true then
                match lookupAssoc emptyDictionary.lookup s with
                | some ref => ref
                | none => quoteString s
              else quoteString s) = quoteString s from rfl]
            rw [quoteString, if_neg (by rw [hnq]; exact Bool.false_ne_true)]
          rw [hshape]
          refine ⟨hse, ?_, hhd, hlst⟩
          intro c hc
          left
          rw [List.all_eq_true] at hall
          exact hall c hc
  | arr xs => simp [tableCellOK] at hv
  | obj fs => simp [tableCellOK] at hv

theorem tableCellOK_goodPrim {v : GoonValue} (h : tableCellOK v = true) :
    goodPrimB v = true := by
  cases v with
  | null => simp [tableCellOK] at h
  | bool b => rfl
  | num n => exact h
  | str s =>
      rw [tableCellOK, Bool.or_eq_true] at h
      rw [goodPrimB, goodStrB]
      rcases h with h1 | h1
      · rw [h1]
        rfl
      · rw [Bool.and_eq_true, Bool.and_eq_true, Bool.and_eq_true] at h1
        obtain ⟨⟨⟨hnq, hall⟩, hhd⟩, hlst⟩ := h1
        rw [Bool.not_eq_true'] at hnq
        rw [decide_eq_true_eq] at hhd hlst
        have hcls : ∀ c ∈ s, tableChar c = true ∨ c = '~' := by
          intro c hc
          left
          rw [List.all_eq_true] at hall
          exact hall c hc
        have htrim : jsTrim s = s := by
          rcases hs : s with _ | ⟨c, t⟩
          · rfl
          · rw [← hs]
            have hcmem : c ∈ s := by
              rw [hs]
              exact List.mem_cons_self _ _
            have hcne : c ≠ ' ' := by
              intro he
              rw [hs, he] at hhd
              exact hhd rfl
            have hne : s ≠ [] := by
              rw [hs]
              exact List.cons_ne_nil _ _
            rcases hgl : s.getLast? with _ | d
            · rw [List.getLast?_eq_getLast_of_ne_nil hne] at hgl
              exact absurd hgl (by simp)
            · have hdm : d ∈ s := by
                rcases List.mem_getLast?_eq_getLast (Option.mem_def.mpr hgl) with ⟨hx, heq⟩
                rw [heq]
                exact List.getLast_mem hx
              have hdne : d ≠ ' ' := by
                intro he
                rw [he] at hgl
                exact hlst hgl
              exact jsTrim_eq_self (by rw [hs, List.head?_cons])
                (tabEncClass_space (hcls c hcmem) hcne) hgl
                (tabEncClass_space (hcls d hdm) hdne)
        have hqs : quoteShaped s = false := by
          rw [quoteShaped]
          rcases hs : s with _ | ⟨c, t⟩
          · rfl
          · have hcne : c ≠ '"' := by
              have hcmem : c ∈ s := by
                rw [hs]
                exact List.mem_cons_self _ _
              exact tabEncClass_ne (hcls c hcmem) (by decide) (by decide)
            rw [List.head?_cons]
            rw [show (decide ((some c : Option Char) = some '"')) = false from by
              rw [decide_eq_false_iff_not]
              intro he
              exact hcne (Option.some.inj he)]
            rfl
        rw [htrim, hqs]
        simp
  | arr xs => simp [tableCellOK] at h
  | obj fs => simp [tableCellOK] at h

theorem lastStarIndex_none {s : Chars} (h : '*' ∉ s) : lastStarIndex s = none := by
  rw [lastStarIndex]
  have hall : s.reverse.takeWhile (fun c => c ≠ '*') = s.reverse := by
    apply takeWhile_all
    rw [List.all_eq_true]
    intro c hc
    rw [decide_eq_true_eq]
    intro he
    rw [he] at hc
    exact h (List.mem_reverse.mp hc)
  rw [hall, List.drop_length]
  rw [if_neg (by simp)]

theorem parseCell_no_star {cell : Chars} (dict : List Chars) (h : '*' ∉ cell) :
    parseCell cell dict = (parsePrimitive cell dict, 1) := by
  simp only [parseCell, lastStarIndex_none h, ite_self]

theorem parsePrimitive_caret (dict : List Chars) :
    parsePrimitive ['^'] dict = .str ['^'] := rfl

theorem parseCell_tabEnc {v : GoonValue} (hv : tableCellOK v = true)
    (dict : List Chars) :
    parseCell (encodePrimitive v emptyDictionary true) dict = (v, 1) := by
  have hstar : '*' ∉ encodePrimitive v emptyDictionary true := by
    intro hm
    rcases (tabEnc_facts hv).2.1 '*' hm with h | h
    · exact absurd h (by decide)
    · exact absurd h (by decide)
  rw [parseCell_no_star dict hstar]
  rw [encodePrimitive_empty_ud]
  rw [parsePrimitive_encodePrimitive (tableCellOK_goodPrim hv) dict]

theorem parseRowLoop_chars (dict : List Chars) (d : Char) :
    ∀ (e : Chars) (rest current : Chars) (cells : List GoonValue),
      (∀ c ∈ e, c ≠ d ∧ c ≠ '"' ∧ c ≠ '\\') →
      parseRowLoop dict d (e ++ rest) current false false cells =
        parseRowLoop dict d rest (current ++ e) false false cells := by
  intro e
  induction e with
  | nil =>
      intro rest current cells h
      rw [List.nil_append, List.append_nil]
  | cons c e' ih =>
      intro rest current cells h
      have hc := h c (List.mem_cons_self _ _)
      rw [List.cons_append, parseRowLoop]
      rw [if_neg (by simp)]
      rw [if_neg (by simp)]
      rw [if_neg hc.2.1]
      rw [if_neg (by intro hx; exact hc.1 hx.1)]
      rw [ih rest (current ++ [c]) cells (fun x hx => h x (List.mem_cons_of_mem _ hx))]
      rw [List.append_assoc, List.singleton_append]

theorem parseRowLoop_delim (dict : List Chars) (d : Char) (hd : d ≠ '"')
    (rest current : Chars) (cells : List GoonValue) :
    parseRowLoop dict d (d :: rest) current false false cells =
      parseRowLoop dict d rest [] false false
        (cells ++ List.replicate (parseCell (jsTrim current) dict).2
          (parseCell (jsTrim current) dict).1) := by
  rw [parseRowLoop]
  rw [if_neg (by simp)]
  rw [if_neg (by simp)]
  rw [if_neg hd]
  rw [if_pos ⟨rfl, rfl⟩]

theorem parseRowLoop_last (dict : List Chars) (d : Char) (current : Chars)
    (cells : List GoonValue) (hne : (jsTrim current).isEmpty = false) :
    parseRowLoop dict d [] current false false cells =
      cells ++ List.replicate (parseCell (jsTrim current) dict).2
        (parseCell (jsTrim current) dict).1 := by
  simp only [parseRowLoop]
  rw [if_neg (by rw [hne]; exact Bool.false_ne_true)]

theorem isEmpty_false_of_ne_nil {s : Chars} (h : s ≠ []) : s.isEmpty = false := by
  rcases s with _ | ⟨c, t⟩
  · exact absurd rfl h
  · rfl

theorem parseRow_pairs (dict : List Chars) :
    ∀ (ps : List (Chars × GoonValue)) (cells : List GoonValue),
      (∀ p ∈ ps, p.1 ≠ [] ∧ jsTrim p.1 = p.1 ∧
        (∀ ch ∈ p.1, ch ≠ ',' ∧ ch ≠ '"' ∧ ch ≠ '\\') ∧
        parseCell p.1 dict = (p.2, 1)) →
      parseRowLoop dict ',' (intercalateChar ',' (ps.map Prod.fst)) [] false false cells =
        cells ++ ps.map Prod.snd := by
  intro ps
  induction ps with
  | nil =>
      intro cells h
      rw [List.map_nil]
      rw [show intercalateChar ',' [] = [] from rfl]
      simp only [parseRowLoop]
      rw [if_pos (show List.isEmpty (jsTrim ([] : Chars)) = true from rfl),
        List.map_nil, List.append_nil]
  | cons p tl ih =>
      intro cells h
      have hp := h p (List.mem_cons_self _ _)
      cases tl with
      | nil =>
          rw [List.map_cons, List.map_nil]
          rw [show intercalateChar ',' [p.1] = p.1 from by
            rw [intercalateChar]
            simp [List.intercalate, List.intersperse]]
          rw [show p.1 = p.1 ++ [] from (List.append_nil _).symm]
          rw [parseRowLoop_chars dict ',' p.1 [] [] cells hp.2.2.1]
          rw [List.nil_append]
          rw [parseRowLoop_last dict ',' p.1 cells
            (by rw [hp.2.1]; exact isEmpty_false_of_ne_nil hp.1)]
          rw [hp.2.1, hp.2.2.2]
          rw [List.map_cons, List.map_nil]
          rfl
      | cons q tl' =>
          rw [List.map_cons]
          rw [show intercalateChar ',' (p.1 :: (q :: tl').map Prod.fst) =
            p.1 ++ [','] ++ intercalateChar ',' ((q :: tl').map Prod.fst) from by
              rw [intercalateChar, List.map_cons, intercalate_cons_cons, intercalateChar]]
          rw [List.append_assoc, List.singleton_append]
          rw [parseRowLoop_chars dict ',' p.1 _ [] cells hp.2.2.1]
          rw [List.nil_append]
          rw [parseRowLoop_delim dict ',' (by decide) _ p.1 cells]
          rw [hp.2.1, hp.2.2.2]
          rw [ih _ (fun x hx => h x (List.mem_cons_of_mem _ hx))]
          rw [show List.replicate 1 p.2 = [p.2] from rfl]
          rw [List.append_assoc, List.singleton_append]
          rw [List.map_cons, List.map_cons, List.map_cons]

theorem jsTrim_of_class {s : Chars} (hne : s ≠ [])
    (hcls : ∀ c ∈ s, tableChar c = true ∨ c = '~')
    (hhd : s.head? ≠ some ' ') (hlst : s.getLast? ≠ some ' ') : jsTrim s = s := by
  rcases hs : s with _ | ⟨c, t⟩
  · rfl
  · rw [← hs]
    rcases hgl : s.getLast? with _ | dd
    · rw [List.getLast?_eq_getLast_of_ne_nil hne] at hgl
      exact absurd hgl (by simp)
    · have hcm : c ∈ s := by
        rw [hs]
        exact List.mem_cons_self _ _
      have hcne : c ≠ ' ' := by
        intro he
        rw [hs, List.head?_cons, he] at hhd
        exact hhd rfl
      have hdm : dd ∈ s := by
        rcases List.mem_getLast?_eq_getLast (Option.mem_def.mpr hgl) with ⟨hx, heq⟩
        rw [heq]
        exact List.getLast_mem hx
      have hdne : dd ≠ ' ' := by
        intro he
        rw [he] at hgl
        exact hlst hgl
      exact jsTrim_eq_self (by rw [hs, List.head?_cons])
        (tabEncClass_space (hcls c hcm) hcne) hgl
        (tabEncClass_space (hcls dd hdm) hdne)

theorem parseRow_tabRow1 (row : List (Chars × GoonValue)) (dict : List Chars)
    (hcells : ∀ kv ∈ row, tableCellOK kv.2 = true) :
    parseRow (intercalateChar ','
        (row.map fun kv => encodePrimitive kv.2 emptyDictionary true)) dict ',' =
      row.map Prod.snd := by
  rw [parseRow]
  have hmap : (row.map fun kv => encodePrimitive kv.2 emptyDictionary true) =
      (row.map fun kv =>
        (encodePrimitive kv.2 emptyDictionary true, kv.2)).map Prod.fst := by
    rw [List.map_map]
    rfl
  rw [hmap]
  rw [parseRow_pairs dict _ [] ?_]
  · rw [List.nil_append, List.map_map]
    rfl
  · intro p hp
    rcases List.mem_map.mp hp with ⟨kv, hkv, rfl⟩
    obtain ⟨hne, hcls, hhd, hlst⟩ := tabEnc_facts (hcells kv hkv)
    refine ⟨hne, jsTrim_of_class hne hcls hhd hlst, ?_, parseCell_tabEnc (hcells kv hkv) dict⟩
    intro ch hch
    exact ⟨tabEncClass_ne (hcls ch hch) (by decide) (by decide),
      tabEncClass_ne (hcls ch hch) (by decide) (by decide),
      tabEncClass_ne (hcls ch hch) (by decide) (by decide)⟩

theorem parseRow_carets (m : Nat) (dict : List Chars) :
    parseRow (intercalateChar ',' (List.replicate m ['^'])) dict ',' =
      List.replicate m (GoonValue.str ['^']) := by
  rw [parseRow]
  have hmap : (List.replicate m (['^'] : Chars)) =
      (List.replicate m ((['^'] : Chars), GoonValue.str ['^'])).map Prod.fst := by
    rw [List.map_replicate]
  rw [hmap]
  rw [parseRow_pairs dict _ [] ?_]
  · rw [List.nil_append, List.map_replicate]
  · intro p hp
    rw [List.eq_of_mem_replicate hp]
    refine ⟨by simp, rfl, ?_, ?_⟩
    · intro ch hch
      rw [List.mem_singleton.mp hch]
      exact ⟨by decide, by decide, by decide⟩
    · rw [parseCell_no_star dict (by decide), parsePrimitive_caret]

theorem range_map_get {α : Type} (d : α) :
    ∀ (l : List α), (List.range l.length).map (fun i => (l.get? i).getD d) = l := by
  intro l
  induction l with
  | nil => rfl
  | cons a t ih =>
      rw [List.length_cons, List.range_succ_eq_map, List.map_cons]
      congr 1
      rw [List.map_map]
      have hfun : ((fun i => (((a :: t).get? i).getD d)) ∘ (fun i => i + 1)) =
          (fun i => ((t.get? i).getD d)) := by
        funext i
        rfl
      rw [hfun, ih]

theorem get?_replicate_lt {α : Type} (a : α) : ∀ {n i : Nat}, i < n →
    (List.replicate n a).get? i = some a := by
  intro n
  induction n with
  | zero =>
      intro i hi
      omega
  | succ n' ih =>
      intro i hi
      rw [List.replicate_succ]
      cases i with
      | zero => rfl
      | succ i' =>
          rw [show (a :: List.replicate n' a).get? (i' + 1) =
            (List.replicate n' a).get? i' from rfl]
          exact ih (by omega)

theorem resolveRowValues_nil_prev (m : Nat) (cells : List GoonValue)
    (hlen : cells.length = m) :
    resolveRowValues m cells [] = cells := by
  rw [resolveRowValues]
  rw [List.map_congr_left (fun i _ => by
    rw [if_neg (by intro hx; rcases hx with ⟨_, hx2⟩; simp at hx2)])]
  rw [← hlen]
  exact range_map_get GoonValue.null cells

theorem resolveRowValues_caret (m : Nat) (prev : List GoonValue)
    (hlen : prev.length = m) :
    resolveRowValues m (List.replicate m (GoonValue.str ['^'])) prev = prev := by
  rw [resolveRowValues]
  have hstep : ∀ i ∈ List.range m,
      (if (List.replicate m (GoonValue.str ['^'])).get? i =
            some (GoonValue.str ['^']) ∧ i < prev.length then
          prev.getD i GoonValue.null
        else ((List.replicate m (GoonValue.str ['^'])).get? i).getD GoonValue.null) =
      (prev.get? i).getD GoonValue.null := by
    intro i hi
    have him : i < m := List.mem_range.mp hi
    rw [if_pos ⟨get?_replicate_lt _ him, by rw [hlen]; exact him⟩]
    rw [getD_eq_get?_getD]
  rw [List.map_congr_left hstep]
  rw [← hlen]
  exact range_map_get GoonValue.null prev

theorem foldl_setField_append {α : Type} :
    ∀ (l acc : List (Chars × α)),
      (∀ p ∈ l, p.1 ∉ acc.map Prod.fst) →
      (l.map Prod.fst).Nodup →
      l.foldl (fun o kv => setField o kv.1 kv.2) acc = acc ++ l := by
  intro l
  induction l with
  | nil =>
      intro acc _ _
      rw [List.foldl_nil, List.append_nil]
  | cons kv rest ih =>
      intro acc hna hnd
      rw [List.foldl_cons]
      rw [setField_not_mem (hna kv (List.mem_cons_self _ _))]
      rw [List.map_cons, List.nodup_cons] at hnd
      rw [ih (acc ++ [kv]) ?_ hnd.2]
      · rw [List.append_assoc, List.singleton_append]
      · intro p hp hmem
        rw [List.map_append, List.mem_append] at hmem
        rcases hmem with h1 | h1
        · exact hna p (List.mem_cons_of_mem _ hp) h1
        · have hp1 : p.1 = kv.1 := by simpa using h1
          have hm2 := List.mem_map_of_mem Prod.fst hp
          rw [hp1] at hm2
          exact hnd.1 hm2

theorem zip_fst_snd {α β : Type} : ∀ (l : List (α × β)),
    (l.map Prod.fst).zip (l.map Prod.snd) = l := by
  intro l
  induction l with
  | nil => rfl
  | cons p t ih =>
      rw [List.map_cons, List.map_cons, List.zip_cons_cons, ih]

theorem rowObject_self (row : List (Chars × GoonValue))
    (hnd : (row.map Prod.fst).Nodup) :
    rowObject (row.map Prod.fst) (row.map Prod.snd) = row := by
  rw [rowObject, zip_fst_snd]
  rw [foldl_setField_append row [] (by intro p _ hmem; simp at hmem) hnd]
  rw [List.nil_append]

theorem takeWhile_append_not {p : Char → Bool} :
    ∀ {a : Chars} {X : Char} (rest : Chars),
      a.all p = true → p X = false →
      (a ++ X :: rest).takeWhile p = a ∧ (a ++ X :: rest).dropWhile p = X :: rest := by
  intro a
  induction a with
  | nil =>
      intro X rest _ hX
      rw [List.nil_append, List.takeWhile_cons, List.dropWhile_cons, hX]
      exact ⟨rfl, rfl⟩
  | cons c t ih =>
      intro X rest ha hX
      rw [List.all_cons, Bool.and_eq_true] at ha
      have h2 := ih rest ha.2 hX
      rw [List.cons_append, List.takeWhile_cons, List.dropWhile_cons, ha.1]
      rw [if_pos rfl, if_pos rfl, h2.1, h2.2]
      exact ⟨rfl, rfl⟩

theorem wordDotSpan_keyX {X : Char} (hX : isWordDotChar X = false)
    {k : Chars} (rest : Chars) (hk : k.all isWordDotChar = true) :
    wordDotSpan (k ++ X :: rest) = (k, X :: rest) := by
  obtain ⟨h1, h2⟩ := takeWhile_append_not rest hk hX
  rw [wordDotSpan, h1, h2]

theorem keyValueMatch_keyX {X : Char} (hX : isWordDotChar X = false)
    (hXc : X ≠ ':') {k : Chars} (rest : Chars) (hk1 : k.isEmpty = false)
    (hk2 : k.all isWordDotChar = true) :
    keyValueMatch (k ++ X :: rest) = none := by
  simp only [keyValueMatch]
  rw [wordDotSpan_keyX hX rest hk2]
  rw [show ((k, X :: rest).1.isEmpty) = k.isEmpty from rfl, hk1]
  simp only [Bool.false_eq_true, if_false]
  split
  · rename_i rem heq
    injection heq with hc _
    exact absurd hc hXc
  · rfl

theorem emptyContainerMatch_keyX {X : Char} (hX : isWordDotChar X = false)
    (o cc : Char) {k : Chars} (rest : Chars) (hk2 : k.all isWordDotChar = true)
    (hne : X :: rest ≠ [o, cc]) :
    emptyContainerMatch o cc (k ++ X :: rest) = none := by
  simp only [emptyContainerMatch]
  rw [wordDotSpan_keyX hX rest hk2]
  show (if k.isEmpty = true then none
    else if X :: rest = [o, cc] then some k else none) = none
  by_cases hke : k.isEmpty = true
  · rw [if_pos hke]
  · rw [if_neg hke, if_neg hne]

theorem headerTail_header {ds fieldsStr : Chars}
    (hds : ds.all Char.isDigit = true) (hfne : fieldsStr ≠ [])
    (hfnb : charRB ∉ fieldsStr) :
    headerTail ('[' :: (ds ++ ']' :: (charLB :: (fieldsStr ++ [charRB, ':'])))) =
      some fieldsStr := by
  have htk1 := takeWhile_append_not (p := Char.isDigit) (X := ']')
    (charLB :: (fieldsStr ++ [charRB, ':'])) hds (by decide)
  have htk2 := takeWhile_append_not (p := fun x => x ≠ charRB) [':']
    (a := fieldsStr) (X := charRB)
    (by rw [List.all_eq_true]
        intro x hx
        rw [decide_eq_true_eq]
        intro he
        rw [he] at hx
        exact hfnb hx)
    (by simp)
  have hfe : fieldsStr.isEmpty = false := by
    rcases fieldsStr with _ | ⟨c, t⟩
    · exact absurd rfl hfne
    · rfl
  simp only [headerTail]
  split
  · rename_i heq
    split at heq
    · rename_i r heq2
      exact absurd heq (by simp)
    · rename_i hx
      refine absurd ?_ (hx (charLB :: (fieldsStr ++ [charRB, ':'])))
      rw [htk1.1, List.drop_left]
  · rename_i r2 heq
    split at heq
    · rename_i r heq2
      rw [htk1.1, List.drop_left] at heq2
      injection heq2 with _ hr
      rw [← Option.some.inj heq, ← hr]
      split
      · rename_i c r3 heq3
        injection heq3 with hc hr3
        subst hc
        subst hr3
        rw [if_pos rfl]
        rw [htk2.1]
        rw [hfe]
        simp only [Bool.false_eq_true, if_false]
        rw [List.drop_left]
        show (if charRB = charRB ∧ ':' = ':' then some fieldsStr else none) =
          some fieldsStr
        rw [if_pos ⟨rfl, rfl⟩]
      · rename_i heq3
        exact absurd heq3 (by simp)
    · rename_i hx
      exact absurd heq (by simp)

theorem tabularMatch_header {k ds fieldsStr : Chars}
    (hk1 : k.isEmpty = false) (hk2 : k.all isWordDotChar = true)
    (hds : ds.all Char.isDigit = true) (hfne : fieldsStr ≠ [])
    (hfnb : charRB ∉ fieldsStr) :
    tabularMatch (k ++ '[' :: (ds ++ ']' :: (charLB :: (fieldsStr ++ [charRB, ':'])))) =
      some (k, fieldsStr) := by
  simp only [tabularMatch]
  rw [wordDotSpan_keyX (by decide) _ hk2]
  show (if k.isEmpty = true then none
    else match headerTail ('[' :: (ds ++ ']' :: (charLB :: (fieldsStr ++ [charRB, ':'])))) with
    | some content => some (k, content)
    | none => none) = some (k, fieldsStr)
  rw [hk1]
  simp only [Bool.false_eq_true, if_false]
  rw [headerTail_header hds hfne hfnb]

theorem looksLikeObjectLine_bracket {k : Chars} (rest : Chars)
    (hk1 : k.isEmpty = false) (hk2 : k.all isWordDotChar = true) :
    looksLikeObjectLine (k ++ '[' :: rest) = true := by
  simp only [looksLikeObjectLine]
  rw [wordDotSpan_keyX (by decide) rest hk2]
  rw [Bool.and_eq_true]
  refine ⟨by rw [show (k, '[' :: rest).1.isEmpty = k.isEmpty from rfl, hk1]; rfl, rfl⟩

theorem dropWhile_mem {p : Char → Bool} :
    ∀ {l : Chars} {c : Char} {t : Chars}, l.dropWhile p = c :: t → c ∈ l := by
  intro l
  induction l with
  | nil =>
      intro c t h
      simp at h
  | cons a l' ih =>
      intro c t h
      rw [List.dropWhile_cons] at h
      split at h
      · exact List.mem_cons_of_mem _ (ih h)
      · rw [List.cons.injEq] at h
        rw [h.1]
        exact List.mem_cons_self _ _

theorem looksLikeKeyStart_none {s : Chars}
    (h : ∀ ch ∈ s, ch ≠ ':' ∧ ch ≠ '[' ∧ ch ≠ charLB) :
    looksLikeKeyStart s = false := by
  simp only [looksLikeKeyStart, wordDotSpan]
  rcases hd : s.dropWhile isWordDotChar with _ | ⟨c, t⟩
  · rw [Bool.and_eq_false_iff]
    right
    rfl
  · have hc := h c (dropWhile_mem hd)
    rw [Bool.and_eq_false_iff]
    right
    show (decide (c = ':') || decide (c = '[') || decide (c = charLB)) = false
    rw [decide_eq_false_iff_not.mpr hc.1, decide_eq_false_iff_not.mpr hc.2.1,
      decide_eq_false_iff_not.mpr hc.2.2]
    rfl

theorem dollarPrefix_ne {c : Char} {t : Chars} (h1 : c ≠ '$') :
    "$:".toList.isPrefixOf (c :: t) = false := by
  show ((('$' : Char) == c) && ([':'] : Chars).isPrefixOf t) = false
  rw [show (('$' : Char) == c) = false from beq_eq_false_iff_ne.mpr (Ne.symm h1)]
  rw [Bool.false_and]

theorem countDelims_plain : ∀ (s : Chars) (c0 p0 t0 : Nat),
    ('"' ∉ s) → ('|' ∉ s) → ('\t' ∉ s) →
    ∃ c', countDelims s false c0 p0 t0 = (c', p0, t0) := by
  intro s
  induction s with
  | nil =>
      intro c0 p0 t0 _ _ _
      exact ⟨c0, rfl⟩
  | cons ch rest ih =>
      intro c0 p0 t0 h1 h2 h3
      have hq : ch ≠ '"' := fun he => h1 (he ▸ List.mem_cons_self _ _)
      have hp : ch ≠ '|' := fun he => h2 (he ▸ List.mem_cons_self _ _)
      have ht : ch ≠ '\t' := fun he => h3 (he ▸ List.mem_cons_self _ _)
      have h1' : '"' ∉ rest := fun hm => h1 (List.mem_cons_of_mem _ hm)
      have h2' : '|' ∉ rest := fun hm => h2 (List.mem_cons_of_mem _ hm)
      have h3' : '\t' ∉ rest := fun hm => h3 (List.mem_cons_of_mem _ hm)
      simp only [countDelims]
      rw [if_neg hq]
      by_cases hc : ch = ','
      · rw [if_pos ⟨rfl, hc⟩]
        exact ih (c0 + 1) p0 t0 h1' h2' h3'
      · rw [if_neg (fun hx => hc hx.2)]
        rw [if_neg (fun hx => hp hx.2)]
        rw [if_neg (fun hx => ht hx.2)]
        exact ih c0 p0 t0 h1' h2' h3'

theorem detectDelimiter_comma {s : Chars} (h1 : '"' ∉ s) (h2 : '|' ∉ s)
    (h3 : '\t' ∉ s) : detectDelimiter s = ',' := by
  obtain ⟨c', hc⟩ := countDelims_plain s 0 0 0 h1 h2 h3
  simp only [detectDelimiter]
  rw [hc]
  rw [if_neg (fun hx => absurd hx.1 (by omega : ¬((0 : Nat) > 0)))]
  rw [if_neg (by show ¬((0 : Nat) > c'); omega)]

theorem getIndentLevel_two_space {c : Char} (t : Chars)
    (hc : isJsSpace c = false) :
    getIndentLevel (' ' :: ' ' :: c :: t) "  ".toList = 1 := by
  rw [getIndentLevel]
  rw [if_neg (by simp)]
  rw [show (' ' :: ' ' :: c :: t : Chars).length = t.length + 3 from by
    simp only [List.length_cons]]
  rw [show t.length + 3 = (t.length + 2) + 1 from rfl]
  rw [indentLevelAux]
  rw [if_pos (show ("  ".toList.isPrefixOf (' ' :: ' ' :: c :: t)) = true from rfl)]
  rw [show (' ' :: ' ' :: c :: t : Chars).drop ("  ".toList.length) = c :: t from rfl]
  rw [show t.length + 2 = (t.length + 1) + 1 from rfl]
  rw [indentLevelAux]
  rw [if_neg ?_]
  intro hpre
  rw [show ("  ".toList : Chars).isPrefixOf (c :: t) =
    (((' ' : Char) == c) && ([' '] : Chars).isPrefixOf t) from rfl] at hpre
  rw [Bool.and_eq_true] at hpre
  have hsp := beq_iff_eq.mp hpre.1
  rw [← hsp] at hc
  exact absurd hc (by decide)

theorem detectIndent_two_space {c : Char} (t : Chars) (rest : List Chars)
    (hc : c ≠ ' ') :
    detectIndent ((' ' :: ' ' :: c :: t) :: rest) = "  ".toList := by
  rw [detectIndent.eq_def]
  show (if isJsSpace ' ' = true then
      if (' ' : Char) = '\t' then ['\t']
      else List.replicate
        (min ((' ' :: ' ' :: c :: t).takeWhile (fun x => x = ' ')).length 8) ' '
    else detectIndent rest) = "  ".toList
  rw [if_pos (by decide), if_neg (by decide)]
  rw [List.takeWhile_cons, if_pos (by decide), List.takeWhile_cons,
    if_pos (by decide), List.takeWhile_cons, if_neg (by simp [hc])]
  rfl

theorem jsTrim_two_space {X : Chars} {c : Char} {t : Chars}
    (he : X = c :: t) (hcx : isJsSpace c = false)
    (hd : ∀ d, X.getLast? = some d → isJsSpace d = false) :
    jsTrim (' ' :: ' ' :: X) = X := by
  rw [jsTrim]
  rw [show (' ' :: ' ' :: X).dropWhile isJsSpace = X.dropWhile isJsSpace from by
    rw [List.dropWhile_cons, if_pos (by decide), List.dropWhile_cons,
      if_pos (by decide)]]
  rw [show X.dropWhile isJsSpace = X from by
    rw [he, List.dropWhile_cons, if_neg (by rw [hcx]; exact Bool.false_ne_true)]]
  have hne : X ≠ [] := by
    rw [he]
    exact List.cons_ne_nil _ _
  rcases hr : X.reverse with _ | ⟨a, u⟩
  · exact absurd (by simpa using congrArg List.reverse hr) hne
  · have ha : X.getLast? = some a := by
      have hh := List.head?_reverse X
      rw [hr, List.head?_cons] at hh
      exact hh.symm
    have hfa := hd a ha
    rw [List.dropWhile_cons, if_neg (by rw [hfa]; exact Bool.false_ne_true)]
    rw [← hr, List.reverse_reverse]

theorem getLast?_cons_ne {α : Type} {a : α} {l : List α} (h : l ≠ []) :
    (a :: l).getLast? = l.getLast? := by
  rw [show (a :: l) = [a] ++ l from rfl]
  exact List.getLast?_append_of_ne_nil _ h

theorem mem_intercalateChar {d : Char} :
    ∀ {fields : List Chars} {ch : Char},
      ch ∈ intercalateChar d fields → ch = d ∨ ∃ f ∈ fields, ch ∈ f := by
  intro fields
  induction fields with
  | nil =>
      intro ch h
      simp [intercalateChar, List.intercalate] at h
  | cons a t ih =>
      intro ch h
      cases t with
      | nil =>
          rw [show intercalateChar d [a] = a from by
            simp [intercalateChar, List.intercalate, List.intersperse]] at h
          exact Or.inr ⟨a, List.mem_cons_self _ _, h⟩
      | cons b t' =>
          rw [intercalateChar, intercalate_cons_cons] at h
          rw [List.append_assoc] at h
          rcases List.mem_append.mp h with h1 | h1
          · exact Or.inr ⟨a, List.mem_cons_self _ _, h1⟩
          · rcases List.mem_append.mp h1 with h2 | h2
            · exact Or.inl (List.mem_singleton.mp h2)
            · rcases ih h2 with h3 | ⟨f, hf, hm⟩
              · exact Or.inl h3
              · exact Or.inr ⟨f, List.mem_cons_of_mem _ hf, hm⟩

theorem intercalateChar_head {d : Char} (x : Chars) (xs : List Chars) :
    ∃ u, intercalateChar d (x :: xs) = x ++ u := by
  cases xs with
  | nil =>
      refine ⟨[], ?_⟩
      rw [List.append_nil]
      simp [intercalateChar, List.intercalate, List.intersperse]
  | cons b t =>
      refine ⟨[d] ++ intercalateChar d (b :: t), ?_⟩
      rw [intercalateChar, intercalate_cons_cons, List.append_assoc, intercalateChar]

theorem intercalateChar_last {d : Char} :
    ∀ (xs : List Chars) (x : Chars), (∀ y ∈ x :: xs, y ≠ []) →
      intercalateChar d (x :: xs) ≠ [] ∧
      ∃ z, (x :: xs).getLast? = some z ∧
        (intercalateChar d (x :: xs)).getLast? = z.getLast? := by
  intro xs
  induction xs with
  | nil =>
      intro x h
      rw [show intercalateChar d [x] = x from by
        simp [intercalateChar, List.intercalate, List.intersperse]]
      refine ⟨h x (List.mem_cons_self _ _), x, rfl, rfl⟩
  | cons b t ih =>
      intro x h
      obtain ⟨hne, z, hz1, hz2⟩ := ih b (fun y hy => h y (List.mem_cons_of_mem _ hy))
      rw [intercalateChar, intercalate_cons_cons, List.append_assoc]
      constructor
      · intro hempty
        rcases List.append_eq_nil.mp hempty with ⟨hx, _⟩
        exact h x (List.mem_cons_self _ _) hx
      · refine ⟨z, ?_, ?_⟩
        · rw [getLast?_cons_ne (List.cons_ne_nil _ _), hz1]
        · rw [List.getLast?_append_of_ne_nil _ (by simp : ([d] ++
            List.intercalate [d] (b :: t) : Chars) ≠ [])]
          rw [List.getLast?_append_of_ne_nil _ ?_]
          · rw [← intercalateChar]
            exact hz2
          · rw [← intercalateChar]
            exact hne

theorem fields_facts {row : List (Chars × GoonValue)} (hrow : tableRowOK row) :
    row.map Prod.fst ≠ [] ∧
    (∀ f ∈ row.map Prod.fst, f ≠ [] ∧ f.all isWordDotChar = true ∧
      isSafeKey f = true) := by
  obtain ⟨hne, hkv, _⟩ := hrow
  constructor
  · intro h
    exact hne (List.map_eq_nil.mp h)
  · intro f hf
    rcases List.mem_map.mp hf with ⟨kv, hkvm, rfl⟩
    obtain ⟨⟨c, t, hc, _⟩, hall, hke, hsafe⟩ := goodKey_facts (hkv kv hkvm).1
    exact ⟨by rw [hc]; exact List.cons_ne_nil _ _, hall, hsafe⟩

theorem fieldsStr_class {row : List (Chars × GoonValue)} (hrow : tableRowOK row) :
    ∀ ch ∈ intercalateChar ',' (row.map Prod.fst),
      isWordDotChar ch = true ∨ ch = ',' := by
  intro ch hch
  rcases mem_intercalateChar hch with h | ⟨f, hf, hm⟩
  · exact Or.inr h
  · obtain ⟨_, hall, _⟩ := (fields_facts hrow).2 f hf
    rw [List.all_eq_true] at hall
    exact Or.inl (hall ch hm)

theorem fieldsStr_not_mem {row : List (Chars × GoonValue)} (hrow : tableRowOK row)
    {X : Char} (hX : isWordDotChar X = false) (hX2 : X ≠ ',') :
    X ∉ intercalateChar ',' (row.map Prod.fst) := by
  intro hm
  rcases fieldsStr_class hrow X hm with h | h
  · rw [hX] at h
    exact absurd h (by decide)
  · exact hX2 h

theorem fieldsStr_ne_nil {row : List (Chars × GoonValue)} (hrow : tableRowOK row) :
    intercalateChar ',' (row.map Prod.fst) ≠ [] := by
  obtain ⟨hne, hfacts⟩ := fields_facts hrow
  rcases hm : row.map Prod.fst with _ | ⟨f, fs⟩
  · exact absurd hm hne
  · exact (intercalateChar_last fs f (by
      intro y hy
      rw [← hm] at hy
      exact (hfacts y hy).1)).1

theorem splitFields {row : List (Chars × GoonValue)} (hrow : tableRowOK row) :
    (splitOnChar ',' (intercalateChar ',' (row.map Prod.fst))).filter isSafeKey =
      row.map Prod.fst := by
  obtain ⟨hne', hfacts⟩ := fields_facts hrow
  rw [intercalateChar]
  rw [splitOnChar_intercalate ',' _ hne' ?_]
  · apply List.filter_eq_self.mpr
    intro f hf
    exact (hfacts f hf).2.2
  · intro f hf hm
    obtain ⟨_, hall, _⟩ := hfacts f hf
    rw [List.all_eq_true] at hall
    exact absurd (hall ',' hm) (by decide)

theorem detectDelim_fields {row : List (Chars × GoonValue)} (hrow : tableRowOK row) :
    detectDelimiter (intercalateChar ',' (row.map Prod.fst)) = ',' :=
  detectDelimiter_comma (fieldsStr_not_mem hrow (by decide) (by decide))
    (fieldsStr_not_mem hrow (by decide) (by decide))
    (fieldsStr_not_mem hrow (by decide) (by decide))

theorem tableHeader_shape (k : Chars) (fields : List Chars) (N : Nat) :
    tableHeader k fields N = k ++ '[' :: (natToChars N ++ ']' ::
      (charLB :: (intercalateChar ',' fields ++ [charRB, ':']))) := by
  rw [tableHeader]
  simp only [List.append_assoc, List.cons_append, List.singleton_append,
    List.nil_append]

theorem tabularMatch_tableHeader {k : Chars} {row : List (Chars × GoonValue)}
    (n : Nat) (hk : goodKeyB k = true) (hrow : tableRowOK row) :
    tabularMatch (tableHeader k (row.map Prod.fst) (n + 2)) =
      some (k, intercalateChar ',' (row.map Prod.fst)) := by
  obtain ⟨_, hall, hke, _⟩ := goodKey_facts hk
  rw [tableHeader_shape]
  exact tabularMatch_header hke hall (natToChars_all_digits (n + 2))
    (fieldsStr_ne_nil hrow) (fieldsStr_not_mem hrow (by decide) (by decide))

theorem keyValueMatch_tableHeader {k : Chars} (fields : List Chars) (N : Nat)
    (hk : goodKeyB k = true) :
    keyValueMatch (tableHeader k fields N) = none := by
  obtain ⟨_, hall, hke, _⟩ := goodKey_facts hk
  rw [tableHeader_shape]
  exact keyValueMatch_keyX (by decide) (by decide) _ hke hall

theorem emptyContainerLB_tableHeader {k : Chars} (fields : List Chars) (N : Nat)
    (hk : goodKeyB k = true) :
    emptyContainerMatch charLB charRB (tableHeader k fields N) = none := by
  obtain ⟨_, hall, _, _⟩ := goodKey_facts hk
  rw [tableHeader_shape]
  refine emptyContainerMatch_keyX (by decide) charLB charRB _ hall ?_
  intro hh
  injection hh with h1 _
  exact absurd h1 (by decide)

theorem emptyContainerBk_tableHeader {k : Chars} (fields : List Chars) (N : Nat)
    (hk : goodKeyB k = true) :
    emptyContainerMatch '[' ']' (tableHeader k fields N) = none := by
  obtain ⟨_, hall, _, _⟩ := goodKey_facts hk
  rw [tableHeader_shape]
  refine emptyContainerMatch_keyX (by decide) '[' ']' _ hall ?_
  intro hh
  injection hh with _ h2
  have hlen := congrArg List.length h2
  simp only [List.length_append, List.length_cons, List.length_nil] at hlen
  have := length_pos_of_ne_nil (natToChars_ne_nil N)
  omega

theorem looksLikeObjectLine_tableHeader {k : Chars} (fields : List Chars) (N : Nat)
    (hk : goodKeyB k = true) :
    looksLikeObjectLine (tableHeader k fields N) = true := by
  obtain ⟨_, hall, hke, _⟩ := goodKey_facts hk
  rw [tableHeader_shape]
  exact looksLikeObjectLine_bracket _ hke hall

theorem tableHeader_last (k : Chars) (fields : List Chars) (N : Nat) :
    (tableHeader k fields N).getLast? = some ':' := by
  rw [tableHeader_shape]
  rw [List.getLast?_append_of_ne_nil _ (List.cons_ne_nil _ _)]
  rw [getLast?_cons_ne (by simp)]
  rw [List.getLast?_append_of_ne_nil _ (List.cons_ne_nil _ _)]
  rw [getLast?_cons_ne (by simp)]
  rw [getLast?_cons_ne (by simp)]
  rw [List.getLast?_append_of_ne_nil _ (by simp)]
  rfl

theorem tableHeader_head {k : Chars} (fields : List Chars) (N : Nat)
    (hk : goodKeyB k = true) :
    ∃ c t, tableHeader k fields N = c :: t ∧ isWordDotChar c = true := by
  obtain ⟨⟨c, t, hc, hcw⟩, _, _, _⟩ := goodKey_facts hk
  refine ⟨c, t ++ '[' :: (natToChars N ++ ']' ::
    (charLB :: (intercalateChar ',' fields ++ [charRB, ':']))), ?_, hcw⟩
  rw [tableHeader_shape, hc, List.cons_append]

theorem tableHeader_trim {k : Chars} (fields : List Chars) (N : Nat)
    (hk : goodKeyB k = true) :
    jsTrim (tableHeader k fields N) = tableHeader k fields N := by
  obtain ⟨c, t, hc, hcw⟩ := tableHeader_head fields N hk
  exact jsTrim_eq_self (by rw [hc, List.head?_cons]) (isJsSpace_of_wordDot hcw)
    (tableHeader_last k fields N) (by decide)

theorem tableHeader_no_newline {k : Chars} {row : List (Chars × GoonValue)}
    (n : Nat) (hk : goodKeyB k = true) (hrow : tableRowOK row) :
    '\n' ∉ tableHeader k (row.map Prod.fst) (n + 2) := by
  rw [tableHeader_shape]
  intro hm
  rcases List.mem_append.mp hm with h1 | h1
  · exact not_mem_of_all_wordDot (goodKey_facts hk).2.1 (by decide) h1
  · rcases List.mem_cons.mp h1 with h2 | h2
    · exact absurd h2 (by decide)
    · rcases List.mem_append.mp h2 with h3 | h3
      · have := natToChars_all_digits (n + 2)
        rw [List.all_eq_true] at this
        exact absurd (this '\n' h3) (by decide)
      · rcases List.mem_cons.mp h3 with h4 | h4
        · exact absurd h4 (by decide)
        · rcases List.mem_cons.mp h4 with h5 | h5
          · exact absurd h5 (by decide)
          · rcases List.mem_append.mp h5 with h6 | h6
            · rcases fieldsStr_class hrow '\n' h6 with h7 | h7
              · exact absurd h7 (by decide)
              · exact absurd h7 (by decide)
            · rcases List.mem_cons.mp h6 with h7 | h7
              · exact absurd h7 (by decide)
              · exact absurd (List.mem_singleton.mp h7) (by decide)

theorem tableHeader_not_lbrb {k : Chars} (fields : List Chars) (N : Nat)
    (hk : goodKeyB k = true) :
    ¬(tableHeader k fields N = [charLB, charRB]) ∧
    ¬(tableHeader k fields N = ['[', ']']) ∧
    standaloneTabularMatch (tableHeader k fields N) = none ∧
    standaloneSimpleArrMatch (tableHeader k fields N) = none ∧
    "$:".toList.isPrefixOf (tableHeader k fields N) = false ∧
    getIndentLevel (tableHeader k fields N) "  ".toList = 0 := by
  obtain ⟨c, t, hc, hcw⟩ := tableHeader_head fields N hk
  refine ⟨?_, ?_, ?_, ?_, ?_, ?_⟩
  · intro hh
    rw [hc] at hh
    injection hh with h1 _
    exact wordDot_ne hcw (by decide) h1
  · intro hh
    rw [hc] at hh
    injection hh with h1 _
    exact wordDot_ne hcw (by decide) h1
  · rw [hc, standaloneTabularMatch]
    exact headerTail_word hcw
  · rw [hc]
    exact standaloneSimpleArrMatch_word hcw
  · rw [hc]
    exact dollarPrefix_ne (wordDot_ne hcw (by decide))
  · rw [hc]
    exact getIndentLevel_nonspace (isJsSpace_of_wordDot hcw) rfl

theorem cellClass_ne {c X : Char} (h : tableChar c = true ∨ c = '~' ∨ c = '^')
    (hX : tableChar X = false) (hX2 : X ≠ '~') (hX3 : X ≠ '^') : c ≠ X := by
  intro he
  subst he
  rcases h with h | h | h
  · rw [hX] at h
    exact absurd h (by decide)
  · exact hX2 h
  · exact hX3 h

theorem cellClass_space {c : Char} (h : tableChar c = true ∨ c = '~' ∨ c = '^')
    (hne : c ≠ ' ') : isJsSpace c = false := by
  rcases h with h | h | h
  · exact tabEncClass_space (Or.inl h) hne
  · exact tabEncClass_space (Or.inr h) hne
  · subst h
    decide

theorem mem_of_getLast?_some {z : Chars} {d : Char} (h : z.getLast? = some d) :
    d ∈ z := by
  rcases List.mem_getLast?_eq_getLast (Option.mem_def.mpr h) with ⟨hx, heq⟩
  rw [heq]
  exact List.getLast_mem hx

theorem rowLine_facts {encs : List Chars} {e0 : Chars} {es : List Chars}
    (hshape : encs = e0 :: es)
    (hne : ∀ y ∈ encs, y ≠ [])
    (hcls : ∀ y ∈ encs, ∀ ch ∈ y, tableChar ch = true ∨ ch = '~' ∨ ch = '^')
    (hhd : ∀ y ∈ encs, y.head? ≠ some ' ')
    (hlst : ∀ y ∈ encs, y.getLast? ≠ some ' ') :
    (∃ c1 t1, intercalateChar ',' encs = c1 :: t1 ∧ isJsSpace c1 = false) ∧
    jsTrim ("  ".toList ++ intercalateChar ',' encs) = intercalateChar ',' encs ∧
    '\n' ∉ ("  ".toList ++ intercalateChar ',' encs) ∧
    getIndentLevel ("  ".toList ++ intercalateChar ',' encs) "  ".toList = 1 ∧
    looksLikeNewKeyLine (intercalateChar ',' encs) = false ∧
    (intercalateChar ',' encs).isEmpty = false := by
  subst hshape
  have he0m : e0 ∈ e0 :: es := List.mem_cons_self _ _
  obtain ⟨u, hu⟩ := intercalateChar_head (d := ',') e0 es
  obtain ⟨c1, t0, he0⟩ : ∃ c t, e0 = c :: t := by
    rcases hx : e0 with _ | ⟨c, t⟩
    · exact absurd hx (hne e0 he0m)
    · exact ⟨c, t, rfl⟩
  have hc1cls : tableChar c1 = true ∨ c1 = '~' ∨ c1 = '^' :=
    hcls e0 he0m c1 (by rw [he0]; exact List.mem_cons_self _ _)
  have hc1ne : c1 ≠ ' ' := by
    intro he
    have hh := hhd e0 he0m
    rw [he0, List.head?_cons, he] at hh
    exact hh rfl
  have hc1sp : isJsSpace c1 = false := cellClass_space hc1cls hc1ne
  have hhead : intercalateChar ',' (e0 :: es) = c1 :: (t0 ++ u) := by
    rw [hu, he0, List.cons_append]
  obtain ⟨hIne, z, hz1, hz2⟩ := intercalateChar_last (d := ',') es e0 hne
  have hzm : z ∈ e0 :: es := by
    rcases List.mem_getLast?_eq_getLast (Option.mem_def.mpr hz1) with ⟨hx, heq⟩
    rw [heq]
    exact List.getLast_mem hx
  have hlastf : ∀ d, (intercalateChar ',' (e0 :: es)).getLast? = some d →
      isJsSpace d = false := by
    intro d hd
    rw [hz2] at hd
    have hdm : d ∈ z := mem_of_getLast?_some hd
    have hdcls := hcls z hzm d hdm
    have hdne : d ≠ ' ' := by
      intro he
      have hh := hlst z hzm
      rw [← he] at hh
      exact hh hd
    exact cellClass_space hdcls hdne
  have hclsI : ∀ ch ∈ intercalateChar ',' (e0 :: es),
      (tableChar ch = true ∨ ch = '~' ∨ ch = '^') ∨ ch = ',' := by
    intro ch hch
    rcases mem_intercalateChar hch with h | ⟨f, hf, hm⟩
    · exact Or.inr h
    · exact Or.inl (hcls f hf ch hm)
  refine ⟨⟨c1, t0 ++ u, hhead, hc1sp⟩, ?_, ?_, ?_, ?_, ?_⟩
  · rw [show ("  ".toList ++ intercalateChar ',' (e0 :: es)) =
      ' ' :: ' ' :: intercalateChar ',' (e0 :: es) from rfl]
    exact jsTrim_two_space hhead hc1sp hlastf
  · intro hm
    rcases List.mem_append.mp hm with h1 | h1
    · exact absurd h1 (by decide)
    · rcases hclsI '\n' h1 with h2 | h2
      · exact (cellClass_ne h2 (by decide) (by decide) (by decide)) rfl
      · exact absurd h2 (by decide)
  · rw [show ("  ".toList ++ intercalateChar ',' (e0 :: es)) =
      ' ' :: ' ' :: intercalateChar ',' (e0 :: es) from rfl, hhead]
    exact getIndentLevel_two_space _ hc1sp
  · rw [looksLikeNewKeyLine]
    rw [looksLikeKeyStart_none ?_]
    · rw [hhead]
      rw [dollarPrefix_ne (cellClass_ne hc1cls (by decide) (by decide) (by decide))]
      rfl
    · intro ch hch
      rcases hclsI ch hch with h2 | h2
      · exact ⟨cellClass_ne h2 (by decide) (by decide) (by decide),
          cellClass_ne h2 (by decide) (by decide) (by decide),
          cellClass_ne h2 (by decide) (by decide) (by decide)⟩
      · subst h2
        exact ⟨by decide, by decide, by decide⟩
  · rw [hhead]
    rfl

theorem bumpCtx_tabCtx (L : List Chars) (i : Nat) :
    bumpCtx (tabCtx L i) = tabCtx L (i + 1) := rfl

theorem tabCtx_of_flat (L : List Chars) :
    bumpCtx ({ flatCtx L 0 with depth := (flatCtx L 0).depth + 1 } : ParseCtx) =
      tabCtx L 1 := rfl

theorem tabCtx_down (L : List Chars) (i : Nat) :
    ({ tabCtx L i with depth := (tabCtx L i).depth - 1 } : ParseCtx) =
      flatCtx L i := rfl

theorem tableRowRef_def (m : Nat) :
    tableRowRef m = "  ".toList ++ intercalateChar ',' (List.replicate m ['^']) := rfl

theorem tableRow1_def (row : List (Chars × GoonValue)) :
    tableRow1 row = "  ".toList ++ intercalateChar ','
      (row.map fun kv => encodePrimitive kv.2 emptyDictionary true) := rfl

theorem tableRow1_facts {row : List (Chars × GoonValue)} (hrow : tableRowOK row) :
    (∃ c1 t1, intercalateChar ','
        (row.map fun kv => encodePrimitive kv.2 emptyDictionary true) = c1 :: t1 ∧
      isJsSpace c1 = false) ∧
    jsTrim ("  ".toList ++ intercalateChar ','
        (row.map fun kv => encodePrimitive kv.2 emptyDictionary true)) =
      intercalateChar ',' (row.map fun kv => encodePrimitive kv.2 emptyDictionary true) ∧
    '\n' ∉ ("  ".toList ++ intercalateChar ','
        (row.map fun kv => encodePrimitive kv.2 emptyDictionary true)) ∧
    getIndentLevel ("  ".toList ++ intercalateChar ','
        (row.map fun kv => encodePrimitive kv.2 emptyDictionary true)) "  ".toList = 1 ∧
    looksLikeNewKeyLine (intercalateChar ','
        (row.map fun kv => encodePrimitive kv.2 emptyDictionary true)) = false ∧
    (intercalateChar ','
        (row.map fun kv => encodePrimitive kv.2 emptyDictionary true)).isEmpty = false := by
  obtain ⟨hne, hkv, hnd⟩ := hrow
  obtain ⟨kv0, row', hrw⟩ : ∃ kv0 row', row = kv0 :: row' := by
    rcases hx : row with _ | ⟨a, b⟩
    · exact absurd hx hne
    · exact ⟨a, b, rfl⟩
  apply @rowLine_facts _ (encodePrimitive kv0.2 emptyDictionary true)
    (row'.map fun kv => encodePrimitive kv.2 emptyDictionary true)
  · rw [hrw, List.map_cons]
  · intro y hy
    rcases List.mem_map.mp hy with ⟨kv, hm, rfl⟩
    exact (tabEnc_facts (hkv kv hm).2).1
  · intro y hy ch hch
    rcases List.mem_map.mp hy with ⟨kv, hm, rfl⟩
    rcases (tabEnc_facts (hkv kv hm).2).2.1 ch hch with h | h
    · exact Or.inl h
    · exact Or.inr (Or.inl h)
  · intro y hy
    rcases List.mem_map.mp hy with ⟨kv, hm, rfl⟩
    exact (tabEnc_facts (hkv kv hm).2).2.2.1
  · intro y hy
    rcases List.mem_map.mp hy with ⟨kv, hm, rfl⟩
    exact (tabEnc_facts (hkv kv hm).2).2.2.2

theorem tableRowRef_facts {m : Nat} (hm : 1 ≤ m) :
    (∃ c1 t1, intercalateChar ',' (List.replicate m ['^']) = c1 :: t1 ∧
      isJsSpace c1 = false) ∧
    jsTrim ("  ".toList ++ intercalateChar ',' (List.replicate m ['^'])) =
      intercalateChar ',' (List.replicate m ['^']) ∧
    '\n' ∉ ("  ".toList ++ intercalateChar ',' (List.replicate m ['^'])) ∧
    getIndentLevel ("  ".toList ++ intercalateChar ','
      (List.replicate m ['^'])) "  ".toList = 1 ∧
    looksLikeNewKeyLine (intercalateChar ',' (List.replicate m ['^'])) = false ∧
    (intercalateChar ',' (List.replicate m ['^'])).isEmpty = false := by
  obtain ⟨m', rfl⟩ : ∃ m', m = m' + 1 := ⟨m - 1, by omega⟩
  apply @rowLine_facts _ ['^'] (List.replicate m' ['^'])
  · rw [List.replicate_succ]
  · intro y hy
    rw [List.eq_of_mem_replicate hy]
    simp
  · intro y hy ch hch
    rw [List.eq_of_mem_replicate hy] at hch
    rw [List.mem_singleton.mp hch]
    exact Or.inr (Or.inr rfl)
  · intro y hy
    rw [List.eq_of_mem_replicate hy]
    decide
  · intro y hy
    rw [List.eq_of_mem_replicate hy]
    decide

theorem parseTabRowsLoop_end {L : List Chars} {i : Nat} (hget : L.get? i = none)
    (g : Nat) (b : Int) (fields : List Chars) (d : Char)
    (rows prev : List GoonValue) :
    parseTabRowsLoop (g + 1) (tabCtx L i) b fields d rows prev =
      .ok (rows, tabCtx L i) := by
  show parseTabRowsLoop (g + 1) _ _ _ _ _ _ = _
  unfold parseTabRowsLoop
  rw [show (tabCtx L i).lines.get? (tabCtx L i).index = L.get? i from rfl, hget]

theorem parseTabRowsLoop_step {L : List Chars} {i : Nat} {X : Chars}
    (hget : L.get? i = some ("  ".toList ++ X))
    (htrim : jsTrim ("  ".toList ++ X) = X)
    (hind : getIndentLevel ("  ".toList ++ X) "  ".toList = 1)
    (hnk : looksLikeNewKeyLine X = false)
    (hXne : X.isEmpty = false)
    (g : Nat) (fields : List Chars) (rows prev : List GoonValue) :
    parseTabRowsLoop (g + 1) (tabCtx L i) 0 fields ',' rows prev =
      parseTabRowsLoop g (tabCtx L (i + 1)) 0 fields ','
        (rows ++ [.obj (rowObject fields
          (resolveRowValues fields.length (parseRow X [] ',') prev))])
        (resolveRowValues fields.length (parseRow X [] ',') prev) := by
  show parseTabRowsLoop (g + 1) _ _ _ _ _ _ = _
  unfold parseTabRowsLoop
  rw [show (tabCtx L i).lines.get? (tabCtx L i).index = L.get? i from rfl, hget]
  simp only [show (tabCtx L i).indent = "  ".toList from rfl,
    show (tabCtx L i).dictionary = ([] : List Chars) from rfl,
    hind, htrim, hXne, hnk, Nat.cast_one, bumpCtx_tabCtx]
  rw [if_neg (by norm_num)]
  simp only [Bool.false_eq_true, if_false]
  conv_lhs => rw [parseTabRowsLoop.eq_def]
  rfl

theorem parseTabRowsLoop_carets {L : List Chars} {row : List (Chars × GoonValue)}
    (hrow : tableRowOK row) (N : Nat) (hN : L.length = N)
    (hget : ∀ i, 2 ≤ i → i < N → L.get? i = some (tableRowRef row.length)) :
    ∀ j, j ≤ N - 2 → 2 ≤ N - j → ∀ g rows, j < g →
      parseTabRowsLoop g (tabCtx L (N - j)) 0 (row.map Prod.fst) ',' rows
        (row.map Prod.snd) =
      .ok (rows ++ List.replicate j (GoonValue.obj row), tabCtx L N) := by
  have hm : 1 ≤ row.length := by
    obtain ⟨hne, _, _⟩ := hrow
    rcases hx : row with _ | ⟨a, b⟩
    · exact absurd hx hne
    · rw [List.length_cons]
      omega
  obtain ⟨hH, hTr, hNL, hIn, hNK, hNE⟩ := tableRowRef_facts hm
  intro j
  induction j with
  | zero =>
      intro _ _ g rows hg
      obtain ⟨g', rfl⟩ : ∃ g', g = g' + 1 := ⟨g - 1, by omega⟩
      rw [Nat.sub_zero, show List.replicate 0 (GoonValue.obj row) = [] from rfl,
        List.append_nil]
      exact parseTabRowsLoop_end
        (List.get?_eq_none.mpr (by rw [hN])) g' 0 _ ',' rows _
  | succ j' ih =>
      intro hj hge g rows hg
      obtain ⟨g', rfl⟩ : ∃ g', g = g' + 1 := ⟨g - 1, by omega⟩
      have hgi : L.get? (N - (j' + 1)) = some (tableRowRef row.length) :=
        hget _ hge (by omega)
      rw [tableRowRef_def] at hgi
      rw [parseTabRowsLoop_step hgi hTr hIn hNK hNE g' _ rows _]
      rw [parseRow_carets row.length []]
      rw [List.length_map]
      rw [resolveRowValues_caret row.length (row.map Prod.snd) (List.length_map _ _)]
      rw [rowObject_self row hrow.2.2]
      rw [show N - (j' + 1) + 1 = N - j' from by omega]
      rw [ih (by omega) (by omega) g' (rows ++ [GoonValue.obj row]) (by omega)]
      rw [List.append_assoc, List.singleton_append, ← List.replicate_succ]

theorem get?_cons_cons {α : Type} (a b : α) (l : List α) (i : Nat) :
    (a :: b :: l).get? (i + 2) = l.get? i := rfl

theorem parseTabularArray_table {k : Chars} {row : List (Chars × GoonValue)}
    (n : Nat) (hrow : tableRowOK row) (g : Nat) (hg : n + 3 < g) :
    parseTabularArray (g + 1)
      (flatCtx (tableHeader k (row.map Prod.fst) (n + 2) :: tableRow1 row ::
        List.replicate (n + 1) (tableRowRef row.length)) 0) 0
      (intercalateChar ',' (row.map Prod.fst)) =
      .ok (List.replicate (n + 2) (GoonValue.obj row),
        flatCtx (tableHeader k (row.map Prod.fst) (n + 2) :: tableRow1 row ::
          List.replicate (n + 1) (tableRowRef row.length)) (n + 3)) := by
  obtain ⟨g1, rfl⟩ : ∃ g1, g = g1 + 1 := ⟨g - 1, by omega⟩
  obtain ⟨hH1, hTr1, hNL1, hIn1, hNK1, hNE1⟩ := tableRow1_facts hrow
  have hcells : ∀ kv ∈ row, tableCellOK kv.2 = true :=
    fun kv hm => (hrow.2.1 kv hm).2
  have hlen : (tableHeader k (row.map Prod.fst) (n + 2) :: tableRow1 row ::
      List.replicate (n + 1) (tableRowRef row.length)).length = n + 3 := by
    rw [List.length_cons, List.length_cons, List.length_replicate]
  have hgetR : ∀ i, 2 ≤ i → i < n + 3 →
      (tableHeader k (row.map Prod.fst) (n + 2) :: tableRow1 row ::
        List.replicate (n + 1) (tableRowRef row.length)).get? i =
        some (tableRowRef row.length) := by
    intro i h2 h3
    obtain ⟨i', rfl⟩ : ∃ i', i = i' + 2 := ⟨i - 2, by omega⟩
    rw [get?_cons_cons]
    exact get?_replicate_lt _ (by omega)
  have hc := parseTabRowsLoop_carets hrow (n + 3) hlen hgetR (n + 1)
    (by omega) (by omega) g1 [GoonValue.obj row] (by omega)
  rw [show n + 3 - (n + 1) = 2 from by omega] at hc
  show parseTabularArray (g1 + 1 + 1) _ _ _ = _
  rw [parseTabularArray.eq_def]
  dsimp only
  rw [if_neg (by
    intro hx
    rw [show (flatCtx (tableHeader k (row.map Prod.fst) (n + 2) :: tableRow1 row ::
      List.replicate (n + 1) (tableRowRef row.length)) 0).depth = 1 from rfl,
      MAX_RECURSION_DEPTH] at hx
    omega)]
  simp only [detectDelim_fields hrow, splitFields hrow, tabCtx_of_flat]
  rw [parseTabRowsLoop_step (show (tableHeader k (row.map Prod.fst) (n + 2) ::
    tableRow1 row :: List.replicate (n + 1) (tableRowRef row.length)).get? 1 =
    some ("  ".toList ++ intercalateChar ','
      (row.map fun kv => encodePrimitive kv.2 emptyDictionary true)) from rfl)
    hTr1 hIn1 hNK1 hNE1 g1 _ [] []]
  rw [parseRow_tabRow1 row [] hcells]
  rw [List.length_map]
  rw [resolveRowValues_nil_prev row.length (row.map Prod.snd) (List.length_map _ _)]
  rw [rowObject_self row hrow.2.2]
  rw [List.nil_append]
  rw [show (1 : Nat) + 1 = 2 from rfl]
  rw [hc]
  rw [List.singleton_append, ← List.replicate_succ]
  rfl

theorem parseObjLoop_table {k : Chars} {row : List (Chars × GoonValue)} (n : Nat)
    (hk : goodKeyB k = true) (hrow : tableRowOK row) (g : Nat) (hg : n + 6 < g) :
    parseObjLoop g
      (flatCtx (tableHeader k (row.map Prod.fst) (n + 2) :: tableRow1 row ::
        List.replicate (n + 1) (tableRowRef row.length)) 0) 0 [] =
      .ok (.obj [(k, .arr (List.replicate (n + 2) (GoonValue.obj row)))],
        flatCtx (tableHeader k (row.map Prod.fst) (n + 2) :: tableRow1 row ::
          List.replicate (n + 1) (tableRowRef row.length)) (n + 3)) := by
  obtain ⟨g2, rfl⟩ : ∃ g2, g = g2 + 1 + 1 := ⟨g - 2, by omega⟩
  obtain ⟨hne1, hne2, hstm, hsam, hdp, hil⟩ :=
    tableHeader_not_lbrb (row.map Prod.fst) (n + 2) hk
  have htm := tabularMatch_tableHeader n hk hrow
  have hkvm := keyValueMatch_tableHeader (row.map Prod.fst) (n + 2) hk
  have hec1 := emptyContainerLB_tableHeader (row.map Prod.fst) (n + 2) hk
  have hec2 := emptyContainerBk_tableHeader (row.map Prod.fst) (n + 2) hk
  have htr := tableHeader_trim (row.map Prod.fst) (n + 2) hk
  have hsafe := (goodKey_facts hk).2.2.2
  have hlen : (tableHeader k (row.map Prod.fst) (n + 2) :: tableRow1 row ::
      List.replicate (n + 1) (tableRowRef row.length)).length = n + 3 := by
    rw [List.length_cons, List.length_cons, List.length_replicate]
  show parseObjLoop (g2 + 1 + 1) _ _ _ = _
  rw [parseObjLoop.eq_def]
  dsimp only
  rw [flatCtx_get]
  rw [show (tableHeader k (row.map Prod.fst) (n + 2) :: tableRow1 row ::
    List.replicate (n + 1) (tableRowRef row.length)).get? 0 =
    some (tableHeader k (row.map Prod.fst) (n + 2)) from rfl]
  simp only [show (flatCtx (tableHeader k (row.map Prod.fst) (n + 2) ::
      tableRow1 row :: List.replicate (n + 1) (tableRowRef row.length)) 0).indent =
      "  ".toList from rfl,
    show (flatCtx (tableHeader k (row.map Prod.fst) (n + 2) :: tableRow1 row ::
      List.replicate (n + 1) (tableRowRef row.length)) 0).dictionary =
      ([] : List Chars) from rfl,
    hil, htr, hkvm, hec1, hec2, htm, hsafe, Nat.cast_zero, lt_self_iff_false,
    if_false, eq_self_iff_true, if_true]
  rw [parseTabularArray_table n hrow g2 (by omega)]
  dsimp only
  rw [show setField [] k (GoonValue.arr (List.replicate (n + 2) (GoonValue.obj row))) =
    [(k, GoonValue.arr (List.replicate (n + 2) (GoonValue.obj row)))] from rfl]
  rw [parseObjLoop.eq_def]
  dsimp only
  rw [flatCtx_get]
  rw [List.get?_eq_none.mpr (by rw [hlen])]

theorem goonDecode_table {k : Chars} {row : List (Chars × GoonValue)} (n : Nat)
    (hk : goodKeyB k = true) (hrow : tableRowOK row)
    (hsize : utf8ByteLen (tableText k row n) ≤ MAX_INPUT_SIZE) :
    goonDecode (tableText k row n) = .ok (tableVal k row (n + 2)) := by
  obtain ⟨hH1, hTr1, hNL1, hIn1, hNK1, hNE1⟩ := tableRow1_facts hrow
  have hm1 : 1 ≤ row.length := by
    obtain ⟨hne', _, _⟩ := hrow
    rcases hx : row with _ | ⟨a, b⟩
    · exact absurd hx hne'
    · rw [List.length_cons]
      omega
  obtain ⟨hHr, hTrR, hNLr, hInR, hNKr, hNEr⟩ := tableRowRef_facts hm1
  obtain ⟨hne1, hne2, hstm, hsam, hdp, hil⟩ :=
    tableHeader_not_lbrb (row.map Prod.fst) (n + 2) hk
  have htr := tableHeader_trim (row.map Prod.fst) (n + 2) hk
  obtain ⟨hc, ht, hhc, hhcw⟩ := tableHeader_head (row.map Prod.fst) (n + 2) hk
  have hlen : (tableHeader k (row.map Prod.fst) (n + 2) :: tableRow1 row ::
      List.replicate (n + 1) (tableRowRef row.length)).length = n + 3 := by
    rw [List.length_cons, List.length_cons, List.length_replicate]
  have hnl : ∀ l ∈ (tableHeader k (row.map Prod.fst) (n + 2) :: tableRow1 row ::
      List.replicate (n + 1) (tableRowRef row.length)), '\n' ∉ l := by
    intro l hl
    rcases List.mem_cons.mp hl with rfl | hl2
    · exact tableHeader_no_newline n hk hrow
    · rcases List.mem_cons.mp hl2 with rfl | hl3
      · rw [tableRow1_def]
        exact hNL1
      · rw [List.eq_of_mem_replicate hl3, tableRowRef_def]
        exact hNLr
  have hsplit : splitOnChar '\n' (tableText k row n) =
      tableHeader k (row.map Prod.fst) (n + 2) :: tableRow1 row ::
        List.replicate (n + 1) (tableRowRef row.length) := by
    rw [tableText]
    exact splitOnChar_intercalate '\n' _ (List.cons_ne_nil _ _) hnl
  have hfilter : (tableHeader k (row.map Prod.fst) (n + 2) :: tableRow1 row ::
      List.replicate (n + 1) (tableRowRef row.length)).filter
        (fun l => !(jsTrim l).isEmpty) =
      tableHeader k (row.map Prod.fst) (n + 2) :: tableRow1 row ::
        List.replicate (n + 1) (tableRowRef row.length) := by
    rw [List.filter_eq_self]
    intro l hl
    rcases List.mem_cons.mp hl with rfl | hl2
    · rw [htr, hhc]
      rfl
    · rcases List.mem_cons.mp hl2 with rfl | hl3
      · rw [tableRow1_def, hTr1, hNE1]
        rfl
      · rw [List.eq_of_mem_replicate hl3, tableRowRef_def, hTrR, hNEr]
        rfl
  have hdet : detectIndent (tableHeader k (row.map Prod.fst) (n + 2) ::
      tableRow1 row :: List.replicate (n + 1) (tableRowRef row.length)) =
      "  ".toList := by
    rw [hhc, detectIndent_cons_nonspace (isJsSpace_of_wordDot hhcw)]
    obtain ⟨c1, t1, hct, hc1sp⟩ := hH1
    rw [tableRow1_def, hct]
    rw [show ("  ".toList ++ c1 :: t1) = ' ' :: ' ' :: c1 :: t1 from rfl]
    exact detectIndent_two_space t1 _ (by
      intro he
      rw [he] at hc1sp
      exact absurd hc1sp (by decide))
  have hfuel : decodeFuel (tableHeader k (row.map Prod.fst) (n + 2) ::
      tableRow1 row :: List.replicate (n + 1) (tableRowRef row.length)) =
      (8 * n + 278) + 1 + 1 := by
    rw [decodeFuel, hlen]
    omega
  have hobj : parseObject (8 * n + 278 + 1)
      (rootCtx (tableHeader k (row.map Prod.fst) (n + 2) :: tableRow1 row ::
        List.replicate (n + 1) (tableRowRef row.length))) 0 =
      .ok (.obj [(k, .arr (List.replicate (n + 2) (GoonValue.obj row)))],
        { flatCtx (tableHeader k (row.map Prod.fst) (n + 2) :: tableRow1 row :: List.replicate (n + 1) (tableRowRef row.length)) (n + 3) with depth := 0 }) := by
    show parseObject (8 * n + 278 + 1) _ _ = _
    unfold parseObject
    rw [if_neg (by
      intro hcontra
      rw [show (rootCtx (tableHeader k (row.map Prod.fst) (n + 2) :: tableRow1 row ::
        List.replicate (n + 1) (tableRowRef row.length))).depth = 0 from rfl,
        MAX_RECURSION_DEPTH] at hcontra
      omega)]
    rw [rootCtx_bump]
    rw [parseObjLoop_table n hk hrow (8 * n + 278) (by omega)]
    rfl
  have hroot : parseRoot (8 * n + 278 + 1 + 1)
      (rootCtx (tableHeader k (row.map Prod.fst) (n + 2) :: tableRow1 row ::
        List.replicate (n + 1) (tableRowRef row.length))) =
      .ok (.obj [(k, .arr (List.replicate (n + 2) (GoonValue.obj row)))],
        { flatCtx (tableHeader k (row.map Prod.fst) (n + 2) :: tableRow1 row :: List.replicate (n + 1) (tableRowRef row.length)) (n + 3) with depth := 0 }) := by
    unfold parseRoot
    rw [show (rootCtx (tableHeader k (row.map Prod.fst) (n + 2) :: tableRow1 row ::
      List.replicate (n + 1) (tableRowRef row.length))).lines.get?
      (rootCtx (tableHeader k (row.map Prod.fst) (n + 2) :: tableRow1 row ::
        List.replicate (n + 1) (tableRowRef row.length))).index =
      some (tableHeader k (row.map Prod.fst) (n + 2)) from rfl]
    simp only [htr]
    rw [if_neg hne1, if_neg hne2]
    simp only [hstm, hsam, looksLikeObjectLine_tableHeader (row.map Prod.fst) (n + 2) hk,
      if_true]
    exact hobj
  simp only [goonDecode]
  rw [if_neg (by omega)]
  rw [hsplit, hfilter]
  simp only [hdp, Bool.false_eq_true, if_false]
  rw [if_neg (by
    rw [hlen]
    omega)]
  rw [hdet, hfuel]
  rw [show (ParseCtx.mk (tableHeader k (row.map Prod.fst) (n + 2) :: tableRow1 row :: List.replicate (n + 1) (tableRowRef row.length)) 0 [] "  ".toList 0) = rootCtx (tableHeader k (row.map Prod.fst) (n + 2) :: tableRow1 row :: List.replicate (n + 1) (tableRowRef row.length)) from rfl]
  rw [hroot]
  rfl

/-- C7 (amended): with column references enabled — (i) a first-row cell
(no previous row) is never the reference marker `^`, both with the empty
dictionary and with any dictionary the encoder builds; (ii) for every
table of N ≥ 2 identical rows under a safe key, with safe column keys,
non-null primitive cells and distinct column names, the balanced encoder
with the dictionary disabled emits a header, one literal first row, and
N−1 rows in which every cell is `^`; (iii) whenever the cells are also
delimiter-transparent and the encoded text is within the input-size
limit, decoding that text regenerates the original N identical rows;
(iv) in the concrete two-row `\x7bdate, c\x7d` scenario the second row
encodes as `^,^` and decoding regenerates the two identical objects. -/
theorem goon_c7_column_refs :
    (∀ (opts : EncodeOptions) (ucr ud : Bool) (dv : Option GoonValue) (v : GoonValue),
        tabCell opts emptyDictionary ucr ud dv v none ≠ ['^']) ∧
    (∀ (opts : EncodeOptions) (value : GoonValue) (a b c : Nat) (ucr ud : Bool)
        (dv : Option GoonValue) (v : GoonValue),
        tabCell opts (buildDictionary value a b c) ucr ud dv v none ≠ ['^']) ∧
    (∀ (k : Chars) (row : List (Chars × GoonValue)) (n : Nat),
        isSafeKey k = true → row ≠ [] →
        (∀ kv ∈ row, isSafeKey kv.1 = true ∧ isPrimitive kv.2 = true ∧
          kv.2 ≠ GoonValue.null) →
        (row.map Prod.fst).Nodup →
        goonEncode balancedNoDict (tableVal k row (n + 2)) =
          .ok (List.intercalate ['\n']
            ((k ++ '[' :: natToChars (n + 2) ++ [']'] ++ charLB ::
                intercalateChar ',' (row.map Prod.fst) ++ [charRB, ':']) ::
              ("  ".toList ++ intercalateChar ','
                (row.map fun kv => encodePrimitive kv.2 emptyDictionary true)) ::
              List.replicate (n + 1)
                ("  ".toList ++ intercalateChar ','
                  (List.replicate row.length ['^']))))) ∧
    (∀ (k : Chars) (row : List (Chars × GoonValue)) (n : Nat) (t : Chars),
        goodKeyB k = true → tableRowOK row →
        goonEncode balancedNoDict (tableVal k row (n + 2)) = .ok t →
        utf8ByteLen t ≤ MAX_INPUT_SIZE →
        goonDecode t = .ok (tableVal k row (n + 2))) ∧
    goonEncode balancedNoDict vOrders =
      .ok "orders[2]\x7bdate,c\x7d:\n  2024-01,Acme\n  ^,^".toList ∧
    goonDecode "orders[2]\x7bdate,c\x7d:\n  2024-01,Acme\n  ^,^".toList = .ok vOrders := by
  refine ⟨tabCell_none_ne_caret, tabCell_built_none_ne_caret, ?_, ?_, by decide, by decide⟩
  · intro k row n hk hne hcells hnd
    exact goonEncode_table k row n hk hne (fun kv hkv => (hcells kv hkv).1)
      (fun kv hkv => (hcells kv hkv).2.1) (fun kv hkv => (hcells kv hkv).2.2) hnd
  · intro k row n t hk hrow henc hsize
    have henc2 : goonEncode balancedNoDict (tableVal k row (n + 2)) =
        .ok (tableText k row n) := by
      obtain ⟨hne, hcells, hnd⟩ := hrow
      exact goonEncode_table k row n (goodKeyB_safe hk) hne
        (fun kv hkv => goodKeyB_safe (hcells kv hkv).1)
        (fun kv hkv => (tableCellOK_primitive (hcells kv hkv).2).1)
        (fun kv hkv => (tableCellOK_primitive (hcells kv hkv).2).2) hnd
    have ht : t = tableText k row n := Except.ok.inj (henc.symm.trans henc2)
    subst ht
    exact goonDecode_table n hk hrow hsize

/-- C7 witness: a table of two identical `(a, 5)` rows encodes with the
second row reduced to the single reference cell `^`, and decoding that
text regenerates the two identical rows. -/
theorem goon_c7_column_refs_witness :
    goonEncode balancedNoDict (tableVal "t".toList [("a".toList, GoonValue.num 5)] 2) =
      .ok "t[2]\x7ba\x7d:\n  5\n  ^".toList ∧
    goonDecode "t[2]\x7ba\x7d:\n  5\n  ^".toList =
      .ok (tableVal "t".toList [("a".toList, GoonValue.num 5)] 2) :=
  ⟨(goon_c7_column_refs.2.2.1 "t".toList [("a".toList, GoonValue.num 5)] 0
      (by decide) (by decide) (by decide) (by decide)).trans (by decide),
    goon_c7_column_refs.2.2.2.1 "t".toList [("a".toList, GoonValue.num 5)] 0
      "t[2]\x7ba\x7d:\n  5\n  ^".toList (by decide)
      ⟨by decide, by decide, by decide⟩ (by decide) (by decide)⟩

theorem goodPrimB_primitive {v : GoonValue} (h : goodPrimB v = true) :
    isPrimitive v = true := by
  cases v <;> simp_all [goodPrimB, isPrimitive]

theorem goonEncode_flatOK (opts : EncodeOptions) (fs : List (Chars × GoonValue))
    (hne : fs ≠ []) (hok : flatObjOK fs) :
    goonEncode opts (GoonValue.obj fs) = .ok (flatText fs) := by
  obtain ⟨hgood, _, hnds⟩ := hok
  exact goonEncode_flat opts fs hne
    (fun kv hkv => goodKeyB_safe (hgood kv hkv).1)
    (fun kv hkv => goodPrimB_primitive (hgood kv hkv).2)
    hnds

/-- C1 counterexample: the round trip fails already for a root boolean —
under the llm preset `true` encodes to the bare line `T`, but the decoder
treats a bare word at the root as an object key with no value, so the text
decodes to the object `(T, null)`, not to `true`. -/
theorem goon_c1_counterexample :
    goonEncode llmOptions (GoonValue.bool true) = .ok "T".toList ∧
    goonDecode "T".toList = .ok (GoonValue.obj [("T".toList, GoonValue.null)]) ∧
    GoonValue.obj [("T".toList, GoonValue.null)] ≠ GoonValue.bool true :=
  ⟨by decide, by decide, by decide⟩

/-- C1 (amended): for every encode-options record and every non-empty flat
object whose keys are non-empty word-dot safe strings, whose values are
good primitives (null, booleans, integers within the exactly-representable
double range, and trim-stable unambiguous strings), with pairwise-distinct
keys and pairwise-distinct string values — the encoder succeeds and
produces one `key: value` line per field, and decoding any text the
encoder produced for such an object, when it is within the input-size
limit, yields a value equal to the original: decode (encode v opts) = v.
The round trip does not extend to root primitives. -/
theorem goon_c1 :
    (∀ (opts : EncodeOptions) (fs : List (Chars × GoonValue)),
        fs ≠ [] → flatObjOK fs →
        goonEncode opts (GoonValue.obj fs) = .ok (flatText fs)) ∧
    (∀ (opts : EncodeOptions) (fs : List (Chars × GoonValue)) (t : Chars),
        fs ≠ [] → flatObjOK fs →
        goonEncode opts (GoonValue.obj fs) = .ok t →
        utf8ByteLen t ≤ MAX_INPUT_SIZE →
        goonDecode t = .ok (GoonValue.obj fs)) := by
  refine ⟨fun opts fs hne hok => goonEncode_flatOK opts fs hne hok, ?_⟩
  intro opts fs t hne hok henc hsize
  obtain ⟨k0, v0, fs', rfl⟩ : ∃ k0 v0 fs', fs = (k0, v0) :: fs' := by
    rcases fs with _ | ⟨⟨k0, v0⟩, fs'⟩
    · exact absurd rfl hne
    · exact ⟨k0, v0, fs', rfl⟩
  have henc2 : goonEncode opts (GoonValue.obj ((k0, v0) :: fs')) =
      .ok (flatText ((k0, v0) :: fs')) := goonEncode_flatOK opts _ hne hok
  have ht : t = flatText ((k0, v0) :: fs') := Except.ok.inj (henc.symm.trans henc2)
  subst ht
  exact goonDecode_flat k0 v0 fs' hok hsize

/-- C1 witness: the one-field object `(a, 5)` encodes under the llm preset
to the line `a: 5`, and decoding that line returns the object. -/
theorem goon_c1_witness :
    goonEncode llmOptions (GoonValue.obj [("a".toList, GoonValue.num 5)]) =
      .ok "a: 5".toList ∧
    goonDecode "a: 5".toList = .ok (GoonValue.obj [("a".toList, GoonValue.num 5)]) :=
  ⟨(goon_c1.1 llmOptions [("a".toList, GoonValue.num 5)] (by decide)
      ⟨by decide, by decide, by decide⟩).trans (by decide),
    goon_c1.2 llmOptions [("a".toList, GoonValue.num 5)] "a: 5".toList (by decide)
      ⟨by decide, by decide, by decide⟩ (by decide) (by decide)⟩
